import Mathlib

/-!
# Cached sequential I/O (src/include/cached_io.h)

A shallow embedding of the three classes of the header: the asynchronous
multi-buffered direct writer `CachedAioDirectWriter`, the cached reader
`cached_ifstream` and the cached writer `cached_ofstream`.

* A C++ object is a record of its fields; 64-bit counters are natural
  numbers (a file offset never reaches 2^64, and no subtraction of the
  code wraps: `cur_off <= cache_size` and the like are invariants, proved
  below as parts of `Inv`, `RInv` and `OInv`).
* For the direct writer the operating system is an oracle `Kernel` giving
  the return value of every system call, indexed by the number of earlier
  calls of the same kind; the record carries the call counters and the log
  of what the kernel has been handed (`submitted`, `closed_fds`) as ghost
  fields. A member function is a function from the state to a `Result`:
  normal return, a thrown `std::runtime_error` (with the state at the
  throw), undefined behaviour, or an exhausted iteration budget.
* For the stream classes the file is a list of bytes with a get or put
  position; a member function returns `none` where an assertion or the
  underlying stream fails.
-/

namespace DiskANN

/-- One byte of user data (a `char`). -/
abbrev Byte := Nat

/-- The fields of `struct iocb` that `io_prep_pwrite` fills in; the buffer
address is the index of the cache buffer it points to. -/
structure Iocb where
  fd : Int
  buf : Nat
  nbytes : Nat
  offset : Nat
deriving DecidableEq, Repr

/-- The field of `struct io_event` that reports the outcome of a request:
the number of bytes written, or a negative errno. -/
structure IoEvent where
  res : Int
deriving DecidableEq, Repr

/-- What one successful `io_submit` hands to the kernel: file offset,
length, and the first `length` bytes of the buffer at that moment. -/
structure Submission where
  offset : Nat
  length : Nat
  payload : List Byte
deriving DecidableEq, Repr

/-- The return values of the system calls. `io_submit k` is the return
value of the k-th call of `io_submit`; `io_getevents k nr` is the return
value and the event array of the k-th call of `io_getevents`, which asks
for exactly `nr` events. -/
structure Kernel where
  io_setup : Int
  sys_open : Int
  posix_memalign : Nat → Int
  io_submit : Nat → Int
  io_getevents : Nat → Nat → Int × List IoEvent

/-- Every asynchronous I/O call of the run succeeds. -/
def Kernel.succeeds (K : Kernel) : Prop :=
  (∀ k, K.io_submit k = 1) ∧ (∀ k nr, (K.io_getevents k nr).1 = (nr : Int))

/-- A kernel on which every call succeeds and every write completes in
full; `open` returns descriptor 3. -/
def okKernel : Kernel where
  io_setup := 0
  sys_open := 3
  posix_memalign := fun _ => 0
  io_submit := fun _ => 1
  io_getevents := fun _ nr => ((nr : Int), List.replicate nr ⟨0⟩)

/-- The object state (lines 317-325) followed by the ghost fields. -/
structure CachedAioDirectWriter where
  fd : Int
  cache_size : Nat
  num_buffers : Nat
  cache_buffers : List (List Byte)
  cur_off : Nat
  file_offset : Nat
  current_buffer : Nat
  pending_requests : List (List Iocb)
  /-- ghost: requests accepted by `io_submit`, oldest first -/
  submitted : List Submission
  /-- ghost: descriptors passed to `::close` -/
  closed_fds : List Int
  /-- ghost: number of `io_submit` calls made -/
  n_submit : Nat
  /-- ghost: number of `io_getevents` calls made -/
  n_getevents : Nat
deriving DecidableEq, Repr

/-- The two `std::runtime_error`s the member functions throw, with the
return value that caused them. -/
inductive Exn where
  | io_submit_failed (ret : Int)
  | io_getevents_failed (ret : Int)
deriving DecidableEq, Repr

/-- How a member function ends. -/
inductive Result where
  | ok (m : CachedAioDirectWriter)
  | threw (e : Exn) (m : CachedAioDirectWriter)
  | undefined
  | timeout
deriving DecidableEq, Repr

/-- Sequencing of statements: what follows runs only after a normal
return. -/
def Result.bind (r : Result) (f : CachedAioDirectWriter → Result) : Result :=
  match r with
  | .ok m => f m
  | .threw e m => .threw e m
  | .undefined => .undefined
  | .timeout => .timeout

/-- The object after the call, when there is one (a caller may catch the
exception and go on using the object). -/
def Result.state? : Result → Option CachedAioDirectWriter
  | .ok m => some m
  | .threw _ m => some m
  | .undefined => none
  | .timeout => none

/-- The constructor (lines 226-247): `io_setup`, `open`, then one aligned
allocation per buffer; the memory is taken as zero-filled. `none` is a
constructor that threw, leaving no object. -/
def construct (K : Kernel) (cache_size num_buffers : Nat) : Option CachedAioDirectWriter :=
  if K.io_setup ≠ 0 then none
  else if K.sys_open = -1 then none
  else if (List.range num_buffers).all (fun i => decide (K.posix_memalign i = 0)) then
    some { fd := K.sys_open
           cache_size := cache_size
           num_buffers := num_buffers
           cache_buffers := List.replicate num_buffers (List.replicate cache_size 0)
           cur_off := 0
           file_offset := 0
           current_buffer := 0
           pending_requests := List.replicate num_buffers []
           submitted := []
           closed_fds := []
           n_submit := 0
           n_getevents := 0 }
  else none

/-- The function `wait_for_buffer` (lines 361-374). A pending list never
has more than one entry (`Inv.pend_le`), so the cast of its size to `int`
is exact. -/
def wait_for_buffer (K : Kernel) (buffer_index : Nat) (m : CachedAioDirectWriter) : Result :=
  match m.pending_requests[buffer_index]? with
  | none => .undefined
  | some requests =>
    if requests.isEmpty then .ok m
    else
      let r := K.io_getevents m.n_getevents requests.length
      let m1 := { m with n_getevents := m.n_getevents + 1 }
      if r.1 ≠ (requests.length : Int) then .threw (.io_getevents_failed r.1) m1
      else .ok { m1 with pending_requests := m1.pending_requests.set buffer_index [] }

/-- The function `submit_current_buffer` (lines 328-358). -/
def submit_current_buffer (K : Kernel) (m : CachedAioDirectWriter) : Result :=
  if m.cur_off = 0 then .ok m
  else
    match m.pending_requests[m.current_buffer]? with
    | none => .undefined
    | some requests =>
      (if ¬ requests.isEmpty then wait_for_buffer K m.current_buffer m else .ok m).bind fun m1 =>
        match m1.cache_buffers[m1.current_buffer]?, m1.pending_requests[m1.current_buffer]? with
        | some buffer, some reqs =>
          let cb : Iocb :=
            { fd := m1.fd, buf := m1.current_buffer, nbytes := m1.cur_off, offset := m1.file_offset }
          let ret := K.io_submit m1.n_submit
          let m2 := { m1 with n_submit := m1.n_submit + 1 }
          if ret ≠ 1 then .threw (.io_submit_failed ret) m2
          else if m2.num_buffers = 0 then .undefined
          else
            .ok { m2 with
                  submitted := m2.submitted ++ [⟨cb.offset, cb.nbytes, buffer.take cb.nbytes⟩]
                  file_offset := m2.file_offset + m2.cur_off
                  pending_requests := m2.pending_requests.set m2.current_buffer (reqs ++ [cb])
                  current_buffer := (m2.current_buffer + 1) % m2.num_buffers
                  cur_off := 0 }
        | _, _ => .undefined

/-- The call `memcpy(dst + off, src, |src|)` on a buffer held as a list. -/
def memcpy (dst : List Byte) (off : Nat) (src : List Byte) : List Byte :=
  dst.take off ++ src ++ dst.drop (off + src.length)

/-- One iteration of the loop of `write` (lines 289-302) with `data` left
to copy (`size` is its length): the outcome and the bytes still to copy. -/
def write_body (K : Kernel) (m : CachedAioDirectWriter) (data : List Byte) : Result × List Byte :=
  match (if m.cur_off = m.cache_size then submit_current_buffer K m else .ok m) with
  | .ok m1 =>
    let remaining := m1.cache_size - m1.cur_off
    let to_copy := min remaining data.length
    match m1.cache_buffers[m1.current_buffer]? with
    | none => (.undefined, data)
    | some buffer =>
      (.ok { m1 with
             cache_buffers :=
               m1.cache_buffers.set m1.current_buffer (memcpy buffer m1.cur_off (data.take to_copy))
             cur_off := m1.cur_off + to_copy },
       data.drop to_copy)
  | r => (r, data)

/-- The loop of `write` (lines 288-303), run for at most `fuel`
iterations. -/
def write_loop (K : Kernel) : Nat → CachedAioDirectWriter → List Byte → Result
  | _, m, [] => .ok m
  | 0, _, _ :: _ => .timeout
  | fuel + 1, m, d :: ds =>
    match write_body K m (d :: ds) with
    | (.ok m1, rest) => write_loop K fuel m1 rest
    | (r, _) => r

/-- The function `write` (lines 287-304). One iteration per byte is the
most a terminating run takes, see `write_loop_terminates`. -/
def write (K : Kernel) (m : CachedAioDirectWriter) (data : List Byte) : Result :=
  write_loop K data.length m data

/-- The loop of `wait_all` from index `i`, with `k` buffers left to visit. -/
def wait_all_from (K : Kernel) : Nat → Nat → CachedAioDirectWriter → Result
  | 0, _, m => .ok m
  | k + 1, i, m => (wait_for_buffer K i m).bind (wait_all_from K k (i + 1))

/-- The function `wait_all` (lines 377-381). -/
def wait_all (K : Kernel) (m : CachedAioDirectWriter) : Result :=
  wait_all_from K m.num_buffers 0 m

/-- The function `flush` (lines 306-314). -/
def flush (K : Kernel) (m : CachedAioDirectWriter) : Result :=
  (if 0 < m.cur_off then submit_current_buffer K m else .ok m).bind (wait_all K)

/-- The function `close` (lines 279-285). -/
def close (K : Kernel) (m : CachedAioDirectWriter) : Result :=
  (flush K m).bind fun m1 =>
    if m1.fd ≠ -1 then .ok { m1 with closed_fds := m1.closed_fds ++ [m1.fd], fd := -1 }
    else .ok m1

/-- The public member functions a caller can invoke on the object. -/
inductive Call where
  | write (data : List Byte)
  | flush
  | close
deriving DecidableEq, Repr

/-- One call on the object. -/
def step (K : Kernel) (c : Call) (m : CachedAioDirectWriter) : Result :=
  match c with
  | .write data => write K m data
  | .flush => flush K m
  | .close => close K m

/-- A sequence of calls; after a thrown exception the caller goes on with
the object as the throw left it. `none` when a call has no defined end. -/
def run (K : Kernel) : List Call → CachedAioDirectWriter → Option CachedAioDirectWriter
  | [], m => some m
  | c :: cs, m =>
    match (step K c m).state? with
    | none => none
    | some m1 => run K cs m1

/-- The states a program can bring the object to. -/
def Reachable (K : Kernel) (m : CachedAioDirectWriter) : Prop :=
  ∃ cache_size num_buffers calls m0,
    construct K cache_size num_buffers = some m0 ∧ run K calls m0 = some m

/-- The system call `pwrite` on a file held as a list: bytes beyond the
end of the file are created, a gap is zero-filled. -/
def pwrite (file : List Byte) (s : Submission) : List Byte :=
  file.take s.offset ++ List.replicate (s.offset - file.length) 0 ++ s.payload
    ++ file.drop (s.offset + s.payload.length)

/-- The file once every submission of the log has completed. -/
def file_image (log : List Submission) : List Byte :=
  log.foldl pwrite []

/-- The log is gap-free from offset `off`: every entry starts where the
one before it ended, and carries as many bytes as its length says. -/
def Contig : Nat → List Submission → Prop
  | _, [] => True
  | off, s :: rest => s.offset = off ∧ s.payload.length = s.length ∧ Contig (off + s.length) rest

/-- The sum of the lengths of a list of submissions. -/
def total_length (log : List Submission) : Nat :=
  (log.map (fun s => s.length)).sum

/-- The representation invariant of the object. -/
structure Inv (m : CachedAioDirectWriter) : Prop where
  cur_le : m.cur_off ≤ m.cache_size
  nbuf : m.cache_buffers.length = m.num_buffers
  npend : m.pending_requests.length = m.num_buffers
  buf_len : ∀ b ∈ m.cache_buffers, b.length = m.cache_size
  cur_lt : 0 < m.num_buffers → m.current_buffer < m.num_buffers
  nobuf : m.num_buffers = 0 → m.cur_off = 0
  off_sum : m.file_offset = total_length m.submitted
  contig : Contig 0 m.submitted
  pend_le : ∀ l ∈ m.pending_requests, l.length ≤ 1

/-- What every operation keeps or only extends: the two sizes are
constant, the log grows at its end and `file_offset` grows by the lengths
added. -/
structure Evolves (m m' : CachedAioDirectWriter) : Prop where
  cache_size_eq : m'.cache_size = m.cache_size
  num_buffers_eq : m'.num_buffers = m.num_buffers
  ext : ∃ extra, m'.submitted = m.submitted ++ extra ∧
    m'.file_offset = m.file_offset + total_length extra
  inv : Inv m → Inv m'

/-- The property holds of the state a call leaves, if it leaves one. -/
def Result.All (P : CachedAioDirectWriter → Prop) : Result → Prop
  | .ok m => P m
  | .threw _ m => P m
  | .undefined => True
  | .timeout => True

/-- The buffer being filled, `cache_buffers[current_buffer]`. -/
def curbuf (m : CachedAioDirectWriter) : List Byte :=
  (m.cache_buffers[m.current_buffer]?).getD []

/-- The bytes the object holds or has passed on, in order: the payloads
submitted so far, then the filled part of the current buffer. -/
def stream (m : CachedAioDirectWriter) : List Byte :=
  (m.submitted.map (fun s => s.payload)).flatten ++ (curbuf m).take m.cur_off

/-- The bytes passed to `write` by a sequence of calls, in order. -/
def written : List Call → List Byte
  | [] => []
  | .write data :: cs => data ++ written cs
  | .flush :: cs => written cs
  | .close :: cs => written cs

/-- The number of bytes passed to `write` by a sequence of calls. -/
def bytes_written (calls : List Call) : Nat :=
  (written calls).length

/-- The second state differs from the first at most in pending lists
that have been emptied and in the count of `io_getevents` calls. -/
structure OnlyWaited (m m' : CachedAioDirectWriter) : Prop where
  fd_eq : m'.fd = m.fd
  cache_size_eq : m'.cache_size = m.cache_size
  num_buffers_eq : m'.num_buffers = m.num_buffers
  cache_buffers_eq : m'.cache_buffers = m.cache_buffers
  cur_off_eq : m'.cur_off = m.cur_off
  file_offset_eq : m'.file_offset = m.file_offset
  current_buffer_eq : m'.current_buffer = m.current_buffer
  submitted_eq : m'.submitted = m.submitted
  closed_fds_eq : m'.closed_fds = m.closed_fds
  n_submit_eq : m'.n_submit = m.n_submit
  cleared : ∀ j : Nat, m.pending_requests[j]? = some [] → m'.pending_requests[j]? = some []

/-- The call did not end in an exception. -/
def Result.NoThrow : Result → Prop
  | .threw _ _ => False
  | _ => True

/-- A kernel that accepts the first `io_submit` and rejects every later
one with `-EAGAIN`. -/
def rejectingKernel : Kernel :=
  { okKernel with io_submit := fun k => if k = 0 then 1 else -11 }

/-- A kernel on which every `io_getevents` returns the number of events
asked for, each reporting the I/O error `-EIO`. -/
def errorKernel : Kernel :=
  { okKernel with io_getevents := fun _ nr => ((nr : Int), List.replicate nr ⟨-5⟩) }

/-- A kernel on which every `io_getevents` is interrupted (`-EINTR`). -/
def interruptedKernel : Kernel :=
  { okKernel with io_getevents := fun _ _ => (-4, []) }

/-- The object after the constructor with `cache_size = 1` and
`num_buffers = 2` and one `write` of the bytes 1, 2, 3, every kernel call
succeeding: both buffers have been submitted and buffer 0 is being filled
again. -/
def after_three_bytes : CachedAioDirectWriter :=
  { fd := 3, cache_size := 1, num_buffers := 2, cache_buffers := [[3], [2]], cur_off := 1,
    file_offset := 2, current_buffer := 0,
    pending_requests := [[⟨3, 0, 1, 0⟩], [⟨3, 1, 1, 1⟩]],
    submitted := [⟨0, 1, [1]⟩, ⟨1, 1, [2]⟩], closed_fds := [], n_submit := 2, n_getevents := 0 }

/-- The quotient `T / c` rounded up. -/
def ceil_div (T c : Nat) : Nat :=
  (T + c - 1) / c

/-- The call `reader.read(dst, k)` of the underlying `std::ifstream` at get
position `pos`: the next `k` bytes of the file, or `none` when fewer are
left (the stream then sets `failbit` and, with the exception mask set by
the constructor, throws). -/
def ifstream_read (file : List Byte) (pos k : Nat) : Option (List Byte) :=
  if pos + k ≤ file.length then some ((file.drop pos).take k) else none

/-- The object state of `cached_ifstream` (lines 108-118); `file` and `pos`
are the content of the file `reader` is open on and its get position
(`reader.tellg()`). -/
structure cached_ifstream where
  file : List Byte
  pos : Nat
  cache_size : Nat
  cache_buf : List Byte
  cur_off : Nat
  fsize : Nat
deriving DecidableEq, Repr

/-- How `cached_ifstream::read` ends: the bytes copied to `read_buf` and
the new state, the `ANNException` of line 87 with the state at the throw,
or a failure of the underlying stream. -/
inductive ReadResult where
  | ok (read_buf : List Byte) (s : cached_ifstream)
  | beyond_eof (s : cached_ifstream)
  | stream_failure
deriving DecidableEq, Repr

/-- The function `cached_ifstream::open` (lines 36-58) on an existing file
with content `file`; `none` when `assert(cacheSize > 0)` fails. -/
def cached_ifstream.open (file : List Byte) (cacheSize : Nat) : Option cached_ifstream :=
  if cacheSize = 0 then none
  else
    let fsize := file.length
    let cacheSize := min cacheSize fsize
    match ifstream_read file 0 cacheSize with
    | none => none
    | some chunk =>
      some { file := file, pos := cacheSize, cache_size := cacheSize, cache_buf := chunk,
             cur_off := 0, fsize := fsize }

/-- The function `cached_ifstream::read` (lines 65-106). -/
def cached_ifstream.read (s : cached_ifstream) (n_bytes : Nat) : ReadResult :=
  if n_bytes ≤ s.cache_size - s.cur_off then
    .ok ((s.cache_buf.drop s.cur_off).take n_bytes) { s with cur_off := s.cur_off + n_bytes }
  else
    let cached_bytes := s.cache_size - s.cur_off
    if n_bytes - cached_bytes > s.fsize - s.pos then .beyond_eof s
    else
      let from_cache := (s.cache_buf.drop s.cur_off).take cached_bytes
      match ifstream_read s.file s.pos (n_bytes - cached_bytes) with
      | none => .stream_failure
      | some from_disk =>
        let s1 := { s with pos := s.pos + (n_bytes - cached_bytes), cur_off := s.cache_size }
        let size_left := s1.fsize - s1.pos
        if size_left ≥ s1.cache_size then
          match ifstream_read s1.file s1.pos s1.cache_size with
          | none => .stream_failure
          | some chunk =>
            .ok (from_cache ++ from_disk)
              { s1 with pos := s1.pos + s1.cache_size, cache_buf := chunk, cur_off := 0 }
        else .ok (from_cache ++ from_disk) s1

/-- A sequence of `read` calls with the given byte counts: what each
returned (`none` for a call that raised the `ANNException`, after which
the caller goes on) and the final state; `none` when the underlying stream
failed. -/
def cached_ifstream.reads (s : cached_ifstream) :
    List Nat → Option (List (Option (List Byte)) × cached_ifstream)
  | [] => some ([], s)
  | n :: ns =>
    match s.read n with
    | .ok read_buf s1 =>
      match cached_ifstream.reads s1 ns with
      | none => none
      | some (outs, s2) => some (some read_buf :: outs, s2)
    | .beyond_eof s1 =>
      match cached_ifstream.reads s1 ns with
      | none => none
      | some (outs, s2) => some (none :: outs, s2)
    | .stream_failure => none

/-- The number of bytes a sequence of `read` calls has returned. -/
def bytes_returned (outs : List (Option (List Byte))) : Nat :=
  ((outs.filterMap id).map List.length).sum

/-- The object state of `cached_ofstream` (lines 210-221). `cache_buf` is
`none` once `close` has freed it; `is_open`, `content` and `pos` are the
state of the underlying `std::ofstream writer` (the file and the put
position); `emitted` is a ghost field, the bytes passed to `writer.write`
so far, in order. -/
structure cached_ofstream where
  cache_size : Nat
  cache_buf : Option (List Byte)
  cur_off : Nat
  fsize : Nat
  is_open : Bool
  content : List Byte
  pos : Nat
  emitted : List Byte
deriving DecidableEq, Repr

/-- The constructor of `cached_ofstream` (lines 125-140) with a file that
opens; `none` when `assert(cache_size > 0)` fails. The new buffer is taken
as zero-filled. -/
def cached_ofstream.construct (cache_size : Nat) : Option cached_ofstream :=
  if cache_size = 0 then none
  else
    some { cache_size := cache_size, cache_buf := some (List.replicate cache_size 0),
           cur_off := 0, fsize := 0, is_open := true, content := [], pos := 0, emitted := [] }

/-- The call `writer.write(data, |data|)` of the underlying
`std::ofstream`; `none` when the stream is not open (it then fails and,
with the exception mask set by the constructor, throws). -/
def cached_ofstream.emit (s : cached_ofstream) (data : List Byte) : Option cached_ofstream :=
  if s.is_open then
    some { s with content := pwrite s.content ⟨s.pos, data.length, data⟩
                  pos := s.pos + data.length
                  emitted := s.emitted ++ data }
  else none

/-- The function `cached_ofstream::get_file_size` (lines 166-169). -/
def cached_ofstream.get_file_size (s : cached_ofstream) : Nat :=
  s.fsize

/-- The function `cached_ofstream::write` (lines 171-193) with
`n_bytes = |write_buf|`; `none` when `assert(cache_buf != nullptr)` fails
or the stream does. -/
def cached_ofstream.write (s : cached_ofstream) (write_buf : List Byte) :
    Option cached_ofstream :=
  match s.cache_buf with
  | none => none
  | some buf =>
    if write_buf.length ≤ s.cache_size - s.cur_off then
      some { s with cache_buf := some (memcpy buf s.cur_off write_buf)
                    cur_off := s.cur_off + write_buf.length }
    else
      match s.emit (buf.take s.cur_off) with
      | none => none
      | some s1 =>
        match { s1 with fsize := s1.fsize + s1.cur_off }.emit write_buf with
        | none => none
        | some s2 =>
          some { s2 with fsize := s2.fsize + write_buf.length
                         cache_buf := some (List.replicate s2.cache_size 0)
                         cur_off := 0 }

/-- The function `cached_ofstream::flush_cache` (lines 195-202). -/
def cached_ofstream.flush_cache (s : cached_ofstream) : Option cached_ofstream :=
  match s.cache_buf with
  | none => none
  | some buf =>
    match s.emit (buf.take s.cur_off) with
    | none => none
    | some s1 =>
      some { s1 with fsize := s1.fsize + s1.cur_off
                     cache_buf := some (List.replicate s1.cache_size 0)
                     cur_off := 0 }

/-- The function `cached_ofstream::reset` (lines 204-208). -/
def cached_ofstream.reset (s : cached_ofstream) : Option cached_ofstream :=
  match s.flush_cache with
  | none => none
  | some s1 => if s1.is_open then some { s1 with pos := 0 } else none

/-- The function `cached_ofstream::close` (lines 147-164). -/
def cached_ofstream.close (s : cached_ofstream) : Option cached_ofstream :=
  match (if 0 < s.cur_off then s.flush_cache else some s) with
  | none => none
  | some s1 => some { s1 with cache_buf := none, is_open := false }

/-- The public member functions of `cached_ofstream` that change it. -/
inductive OCall where
  | write (write_buf : List Byte)
  | flush_cache
  | reset
  | close
deriving DecidableEq, Repr

/-- One call on a `cached_ofstream`. -/
def cached_ofstream.step (s : cached_ofstream) : OCall → Option cached_ofstream
  | .write write_buf => s.write write_buf
  | .flush_cache => s.flush_cache
  | .reset => s.reset
  | .close => s.close

/-- A sequence of calls on a `cached_ofstream`. -/
def cached_ofstream.run (s : cached_ofstream) : List OCall → Option cached_ofstream
  | [] => some s
  | c :: cs =>
    match s.step c with
    | none => none
    | some s1 => cached_ofstream.run s1 cs

/-- The sum of the `n_bytes` of the `write` calls of a sequence of calls. -/
def write_total : List OCall → Nat
  | [] => 0
  | .write write_buf :: cs => write_buf.length + write_total cs
  | _ :: cs => write_total cs

/-- The number of bytes of the file already handed to the caller, as the
fields record it: the get position less the unread part of the cache. -/
def logical_pos (s : cached_ifstream) : Nat :=
  s.pos - (s.cache_size - s.cur_off)

/-- The representation invariant of `cached_ifstream`: the unread part of
the cache is the part of the file just before the get position. -/
structure RInv (s : cached_ifstream) : Prop where
  fsize_eq : s.fsize = s.file.length
  cur_le : s.cur_off ≤ s.cache_size
  buf_len : s.cache_buf.length = s.cache_size
  pos_le : s.pos ≤ s.fsize
  cached_le : s.cache_size - s.cur_off ≤ s.pos
  cached : s.cache_buf.drop s.cur_off =
    (s.file.drop (logical_pos s)).take (s.cache_size - s.cur_off)

/-- The representation invariant of a `cached_ofstream` that has not been
closed. -/
structure OInv (s : cached_ofstream) : Prop where
  buf : ∃ b, s.cache_buf = some b ∧ b.length = s.cache_size
  cur_le : s.cur_off ≤ s.cache_size
  opened : s.is_open = true

/-- The filled part of the cache of a `cached_ofstream`. -/
def cached_ofstream.cached (s : cached_ofstream) : List Byte :=
  match s.cache_buf with
  | none => []
  | some b => b.take s.cur_off

/-- What the stream holds when nothing has moved the put position: the
bytes emitted, with the put position at their end. -/
def Sequential (s : cached_ofstream) : Prop :=
  s.content = s.emitted ∧ s.pos = s.content.length

/-- The current buffer index is the number of accepted submissions modulo
the number of buffers. -/
def RoundRobin (m : CachedAioDirectWriter) : Prop :=
  m.current_buffer = m.submitted.length % m.num_buffers

/-- The call ended: it returned or it threw. -/
def Result.Ends : Result → Prop
  | .ok _ => True
  | .threw _ _ => True
  | .undefined => False
  | .timeout => False

/-- What `wait_for_buffer` never touches. -/
structure WaitFrame (m m' : CachedAioDirectWriter) : Prop where
  current_buffer_eq : m'.current_buffer = m.current_buffer
  submitted_eq : m'.submitted = m.submitted
  num_buffers_eq : m'.num_buffers = m.num_buffers
  n_submit_eq : m'.n_submit = m.n_submit
  cur_off_eq : m'.cur_off = m.cur_off

/-! ## Properties that hold whatever the kernel answers -/

theorem total_length_append (l₁ l₂ : List Submission) :
    total_length (l₁ ++ l₂) = total_length l₁ + total_length l₂ := by
  simp [total_length]

theorem Contig_append (off : Nat) (l₁ l₂ : List Submission) :
    Contig off (l₁ ++ l₂) ↔ Contig off l₁ ∧ Contig (off + total_length l₁) l₂ := by
  induction l₁ generalizing off with
  | nil => simp [Contig, total_length]
  | cons s rest ih =>
    have h := ih (off + s.length)
    have e : total_length (s :: rest) = s.length + total_length rest := by simp [total_length]
    rw [e, ← Nat.add_assoc]
    simp only [List.cons_append, Contig, List.append_eq, h, and_assoc]

theorem evolves_refl (m : CachedAioDirectWriter) : Evolves m m :=
  ⟨rfl, rfl, ⟨[], by simp, by simp [total_length]⟩, id⟩

theorem evolves_trans {a b c : CachedAioDirectWriter} (h₁ : Evolves a b) (h₂ : Evolves b c) :
    Evolves a c := by
  obtain ⟨e₁, hs₁, ho₁⟩ := h₁.ext
  obtain ⟨e₂, hs₂, ho₂⟩ := h₂.ext
  refine ⟨h₂.cache_size_eq.trans h₁.cache_size_eq, h₂.num_buffers_eq.trans h₁.num_buffers_eq,
    ⟨e₁ ++ e₂, ?_, ?_⟩, fun h => h₂.inv (h₁.inv h)⟩
  · rw [hs₂, hs₁, List.append_assoc]
  · rw [ho₂, ho₁, total_length_append, Nat.add_assoc]

theorem Result.All_bind {P : CachedAioDirectWriter → Prop} {r : Result}
    {f : CachedAioDirectWriter → Result} (hr : r.All P) (hf : ∀ m, P m → (f m).All P) :
    (r.bind f).All P := by
  cases r <;> simp_all [Result.bind, Result.All]

theorem Result.All_mono {P Q : CachedAioDirectWriter → Prop} {r : Result}
    (hr : r.All P) (h : ∀ m, P m → Q m) : r.All Q := by
  cases r <;> simp_all [Result.All]

/-- Sequencing two calls that each only extend the state. -/
theorem evolves_bind {m : CachedAioDirectWriter} {r : Result}
    {f : CachedAioDirectWriter → Result} (hr : r.All (Evolves m))
    (hf : ∀ m1, (f m1).All (Evolves m1)) : (r.bind f).All (Evolves m) :=
  Result.All_bind hr fun m1 h1 => Result.All_mono (hf m1) fun _ h2 => evolves_trans h1 h2

theorem wait_for_buffer_evolves (K : Kernel) (i : Nat) (m : CachedAioDirectWriter) :
    (wait_for_buffer K i m).All (Evolves m) := by
  unfold wait_for_buffer
  split
  · trivial
  · split
    · exact evolves_refl m
    · dsimp only
      split
      · refine ⟨rfl, rfl, ⟨[], by simp, by simp [total_length]⟩, fun h => ?_⟩
        exact ⟨h.cur_le, h.nbuf, h.npend, h.buf_len, h.cur_lt, h.nobuf, h.off_sum, h.contig, h.pend_le⟩
      · refine ⟨rfl, rfl, ⟨[], by simp, by simp [total_length]⟩, fun h => ?_⟩
        refine ⟨h.cur_le, h.nbuf, ?_, h.buf_len, h.cur_lt, h.nobuf, h.off_sum, h.contig, ?_⟩
        · simpa using h.npend
        · intro l hl
          rcases List.mem_or_eq_of_mem_set hl with h1 | h1
          · exact h.pend_le l h1
          · simp [h1]

theorem Result.bind_All {Q : CachedAioDirectWriter → Prop} {r : Result}
    {f : CachedAioDirectWriter → Result} (hok : ∀ m1, r = .ok m1 → (f m1).All Q)
    (hthrew : ∀ e m1, r = .threw e m1 → Q m1) : (r.bind f).All Q := by
  cases r with
  | ok m1 => exact hok m1 rfl
  | threw e m1 => exact hthrew e m1 rfl
  | undefined => trivial
  | timeout => trivial

/-- What a normal return of `wait_for_buffer` has done. -/
theorem wait_for_buffer_ok {K : Kernel} {i : Nat} {m m1 : CachedAioDirectWriter}
    (h : wait_for_buffer K i m = .ok m1) :
    ∃ reqs, m.pending_requests[i]? = some reqs ∧
      ((reqs = [] ∧ m1 = m) ∨
       (reqs ≠ [] ∧ (K.io_getevents m.n_getevents reqs.length).1 = (reqs.length : Int) ∧
        m1 = { m with n_getevents := m.n_getevents + 1
                      pending_requests := m.pending_requests.set i [] })) := by
  unfold wait_for_buffer at h
  split at h
  · cases h
  · rename_i reqs heq
    refine ⟨reqs, heq, ?_⟩
    split at h
    · left
      rename_i he
      exact ⟨by simpa using he, by cases h; rfl⟩
    · right
      rename_i he
      dsimp only at h
      split at h
      · cases h
      · rename_i hr
        refine ⟨by simpa using he, by simpa using hr, by cases h; rfl⟩

/-- After a normal return of `wait_for_buffer` the buffer waited for has
no pending request, and only the pending lists and the call counter can
have changed. -/
theorem wait_for_buffer_ok_fields {K : Kernel} {i : Nat} {m m1 : CachedAioDirectWriter}
    (h : wait_for_buffer K i m = .ok m1) :
    m1.pending_requests[i]? = some [] ∧ m1.current_buffer = m.current_buffer ∧
    m1.cur_off = m.cur_off ∧ m1.cache_buffers = m.cache_buffers ∧
    m1.file_offset = m.file_offset ∧ m1.submitted = m.submitted ∧ m1.fd = m.fd ∧
    m1.closed_fds = m.closed_fds ∧ m1.n_submit = m.n_submit ∧
    (∀ j : Nat, m.pending_requests[j]? = some [] → m1.pending_requests[j]? = some []) := by
  obtain ⟨reqs, heq, h1 | h1⟩ := wait_for_buffer_ok h
  · obtain ⟨hr, rfl⟩ := h1
    subst hr
    simp [heq]
  · obtain ⟨_, _, rfl⟩ := h1
    have hi : i < m.pending_requests.length := by
      by_contra hc
      rw [List.getElem?_eq_none (by omega)] at heq
      cases heq
    refine ⟨by simp [hi], rfl, rfl, rfl, rfl, rfl, rfl, rfl, rfl, fun j hj => ?_⟩
    simp only [List.getElem?_set]
    split
    · rfl
    · exact hj

theorem submit_current_buffer_evolves (K : Kernel) (m : CachedAioDirectWriter) :
    (submit_current_buffer K m).All (Evolves m) := by
  unfold submit_current_buffer
  split
  · exact evolves_refl m
  · rename_i hcur
    split
    · trivial
    · rename_i requests hreq
      apply Result.bind_All
      · intro m1 hm1
        have hev : Evolves m m1 := by
          split at hm1
          · have := wait_for_buffer_evolves K m.current_buffer m
            rw [hm1] at this
            exact this
          · cases hm1
            exact evolves_refl m
        have hp : m1.pending_requests[m1.current_buffer]? = some [] ∧
            m1.current_buffer = m.current_buffer ∧ m1.cur_off = m.cur_off := by
          split at hm1
          · have := wait_for_buffer_ok_fields hm1
            exact ⟨by rw [this.2.1]; exact this.1, this.2.1, this.2.2.1⟩
          · rename_i he
            cases hm1
            have : requests = [] := by simpa using he
            exact ⟨by rw [hreq, this], rfl, rfl⟩
        obtain ⟨hp1, hp2, hp3⟩ := hp
        split
        · rename_i buffer reqs hb hr
          rw [hp1] at hr
          cases hr
          dsimp only
          split
          · exact evolves_trans hev ⟨rfl, rfl, ⟨[], by simp, by simp [total_length]⟩,
              fun h => ⟨h.cur_le, h.nbuf, h.npend, h.buf_len, h.cur_lt, h.nobuf, h.off_sum,
                h.contig, h.pend_le⟩⟩
          · split
            · trivial
            · rename_i hN
              refine evolves_trans hev ⟨rfl, rfl, ⟨[_], rfl, by simp [total_length]⟩, fun h => ?_⟩
              have hbl : buffer.length = m1.cache_size := h.buf_len _ (List.getElem?_mem hb)
              refine ⟨by simp, h.nbuf, by simpa using h.npend, h.buf_len,
                fun _ => Nat.mod_lt _ (Nat.pos_of_ne_zero hN), fun h0 => absurd h0 hN, ?_, ?_, ?_⟩
              · simp [total_length_append, total_length, h.off_sum]
              · rw [Contig_append]
                refine ⟨h.contig, ?_⟩
                have := h.cur_le
                simp [Contig, h.off_sum, hbl, this]
              · intro l hl
                rcases List.mem_or_eq_of_mem_set hl with h1 | h1
                · exact h.pend_le l h1
                · simp [h1]
        · trivial
      · intro e m1 hm1
        split at hm1
        · have := wait_for_buffer_evolves K m.current_buffer m
          rw [hm1] at this
          exact this
        · cases hm1

theorem memcpy_length {dst src : List Byte} {off : Nat} (h : off + src.length ≤ dst.length) :
    (memcpy dst off src).length = dst.length := by
  simp only [memcpy, List.length_append, List.length_take, List.length_drop]
  omega

theorem write_body_evolves (K : Kernel) (m : CachedAioDirectWriter) (data : List Byte) :
    (write_body K m data).1.All (Evolves m) := by
  unfold write_body
  have hpre : (if m.cur_off = m.cache_size then submit_current_buffer K m else Result.ok m).All
      (Evolves m) := by
    split
    · exact submit_current_buffer_evolves K m
    · exact evolves_refl m
  split
  · rename_i m1 hm1
    rw [hm1] at hpre
    dsimp only
    split
    · trivial
    · rename_i buffer hb
      refine evolves_trans hpre ⟨rfl, rfl, ⟨[], by simp, by simp [total_length]⟩, fun h => ?_⟩
      have hbl : buffer.length = m1.cache_size := h.buf_len _ (List.getElem?_mem hb)
      have hcl := h.cur_le
      have hlt : m1.current_buffer < m1.cache_buffers.length := by
        by_contra hc
        rw [List.getElem?_eq_none (by omega)] at hb
        cases hb
      refine ⟨?_, by simpa using h.nbuf, h.npend, ?_, h.cur_lt, ?_, h.off_sum, h.contig,
        h.pend_le⟩
      · show m1.cur_off + min (m1.cache_size - m1.cur_off) data.length ≤ m1.cache_size
        omega
      · intro b hbm
        rcases List.mem_or_eq_of_mem_set hbm with h1 | h1
        · exact h.buf_len b h1
        · rw [h1, memcpy_length, hbl]
          simp only [List.length_take]
          omega
      · intro h0
        have h0' : m1.num_buffers = 0 := h0
        have := h.nbuf
        omega
  · rename_i r hr
    revert hpre
    generalize (if m.cur_off = m.cache_size then submit_current_buffer K m else Result.ok m) = r0
    intro hpre
    exact hpre

theorem write_loop_evolves (K : Kernel) (fuel : Nat) (m : CachedAioDirectWriter)
    (data : List Byte) : (write_loop K fuel m data).All (Evolves m) := by
  induction fuel generalizing m data with
  | zero =>
    cases data with
    | nil => exact evolves_refl m
    | cons d ds => trivial
  | succ fuel ih =>
    cases data with
    | nil => exact evolves_refl m
    | cons d ds =>
      have hb := write_body_evolves K m (d :: ds)
      unfold write_loop
      rcases hw : write_body K m (d :: ds) with ⟨r, rest⟩
      rw [hw] at hb
      cases r with
      | ok m1 => exact Result.All_mono (ih m1 rest) fun _ h2 => evolves_trans hb h2
      | threw e m1 => exact hb
      | undefined => trivial
      | timeout => trivial

theorem write_evolves (K : Kernel) (m : CachedAioDirectWriter) (data : List Byte) :
    (write K m data).All (Evolves m) :=
  write_loop_evolves K data.length m data

theorem wait_all_from_evolves (K : Kernel) (k i : Nat) (m : CachedAioDirectWriter) :
    (wait_all_from K k i m).All (Evolves m) := by
  induction k generalizing i m with
  | zero => exact evolves_refl m
  | succ k ih =>
    exact evolves_bind (wait_for_buffer_evolves K i m) fun m1 => ih (i + 1) m1

theorem flush_evolves (K : Kernel) (m : CachedAioDirectWriter) :
    (flush K m).All (Evolves m) := by
  unfold flush
  refine evolves_bind ?_ fun m1 => wait_all_from_evolves K _ 0 m1
  split
  · exact submit_current_buffer_evolves K m
  · exact evolves_refl m

theorem close_evolves (K : Kernel) (m : CachedAioDirectWriter) :
    (close K m).All (Evolves m) := by
  unfold close
  refine evolves_bind (flush_evolves K m) fun m1 => ?_
  split
  · exact ⟨rfl, rfl, ⟨[], by simp, by simp [total_length]⟩,
      fun h => ⟨h.cur_le, h.nbuf, h.npend, h.buf_len, h.cur_lt, h.nobuf, h.off_sum,
        h.contig, h.pend_le⟩⟩
  · exact evolves_refl m1

theorem step_evolves (K : Kernel) (c : Call) (m : CachedAioDirectWriter) :
    (step K c m).All (Evolves m) := by
  cases c with
  | write data => exact write_evolves K m data
  | flush => exact flush_evolves K m
  | close => exact close_evolves K m

theorem Result.All_state {P : CachedAioDirectWriter → Prop} {r : Result}
    {m : CachedAioDirectWriter} (hr : r.All P) (h : r.state? = some m) : P m := by
  cases r <;> simp_all [Result.state?, Result.All]

theorem run_evolves (K : Kernel) (calls : List Call) (m m' : CachedAioDirectWriter)
    (h : run K calls m = some m') : Evolves m m' := by
  induction calls generalizing m with
  | nil =>
    simp only [run, Option.some.injEq] at h
    subst h
    exact evolves_refl m
  | cons c cs ih =>
    unfold run at h
    split at h
    · cases h
    · rename_i m1 h1
      exact evolves_trans (Result.All_state (step_evolves K c m) h1) (ih m1 h)

/-- What a constructor that returns has built. -/
theorem construct_eq {K : Kernel} {c n : Nat} {m0 : CachedAioDirectWriter}
    (h : construct K c n = some m0) :
    m0 = { fd := K.sys_open, cache_size := c, num_buffers := n,
           cache_buffers := List.replicate n (List.replicate c 0),
           cur_off := 0, file_offset := 0, current_buffer := 0,
           pending_requests := List.replicate n [], submitted := [], closed_fds := [],
           n_submit := 0, n_getevents := 0 } ∧ K.sys_open ≠ -1 := by
  unfold construct at h
  split at h
  · cases h
  · split at h
    · cases h
    · rename_i hfd
      split at h
      · cases h
        exact ⟨rfl, hfd⟩
      · cases h

theorem construct_inv {K : Kernel} {c n : Nat} {m0 : CachedAioDirectWriter}
    (h : construct K c n = some m0) : Inv m0 := by
  obtain ⟨rfl, _⟩ := construct_eq h
  refine ⟨Nat.zero_le _, by simp, by simp, ?_, fun h => h, fun _ => rfl, rfl, trivial, ?_⟩
  · intro b hb
    rw [List.eq_of_mem_replicate hb]
    simp
  · intro l hl
    rw [List.eq_of_mem_replicate hl]
    simp

theorem Reachable.inv {K : Kernel} {m : CachedAioDirectWriter} (h : Reachable K m) : Inv m := by
  obtain ⟨c, n, calls, m0, h0, hr⟩ := h
  exact (run_evolves K calls m0 m hr).inv (construct_inv h0)

theorem memcpy_take {dst src : List Byte} {off : Nat} (h : off ≤ dst.length) :
    (memcpy dst off src).take (off + src.length) = dst.take off ++ src := by
  unfold memcpy
  apply List.take_left'
  simp only [List.length_append, List.length_take]
  omega

theorem memcpy_memcpy {dst a b : List Byte} {off : Nat} (h : off ≤ dst.length) :
    memcpy (memcpy dst off a) (off + a.length) b = memcpy dst off (a ++ b) := by
  have h1 : (dst.take off ++ a).length = off + a.length := by
    simp only [List.length_append, List.length_take]
    omega
  have h2 : (memcpy dst off a).drop (off + a.length + b.length) =
      dst.drop (off + (a ++ b).length) := by
    unfold memcpy
    rw [← h1, List.drop_append, List.drop_drop, h1, List.length_append]
    congr 1
    omega
  show (memcpy dst off a).take (off + a.length) ++ b ++ _ = _
  rw [memcpy_take h, h2]
  simp [memcpy, List.append_assoc]

/-- What a normal return of `submit_current_buffer` on a non-empty buffer
has done: one request, for the first `cur_off` bytes of the current
buffer at `file_offset`, then the rotation. -/
theorem submit_current_buffer_ok {K : Kernel} {m m' : CachedAioDirectWriter}
    (h : submit_current_buffer K m = .ok m') (hcur : m.cur_off ≠ 0) :
    ∃ buffer, m.cache_buffers[m.current_buffer]? = some buffer ∧
      m'.submitted = m.submitted ++ [⟨m.file_offset, m.cur_off, buffer.take m.cur_off⟩] ∧
      m'.cur_off = 0 ∧ m'.cache_buffers = m.cache_buffers ∧
      m'.file_offset = m.file_offset + m.cur_off ∧
      m'.current_buffer = (m.current_buffer + 1) % m.num_buffers ∧
      m.num_buffers ≠ 0 ∧ m'.fd = m.fd ∧ m'.closed_fds = m.closed_fds ∧
      K.io_submit m.n_submit = 1 ∧ m'.n_submit = m.n_submit + 1 := by
  unfold submit_current_buffer at h
  rw [if_neg hcur] at h
  split at h
  · cases h
  · rename_i requests hreq
    rcases hw : (if ¬ requests.isEmpty then wait_for_buffer K m.current_buffer m
      else Result.ok m) with m1 | _ | _ | _
    rotate_left
    · rw [hw] at h; cases h
    · rw [hw] at h; cases h
    · rw [hw] at h; cases h
    rw [hw] at h
    simp only [Result.bind] at h
    have hf : m1.current_buffer = m.current_buffer ∧ m1.cur_off = m.cur_off ∧
        m1.cache_buffers = m.cache_buffers ∧ m1.file_offset = m.file_offset ∧
        m1.submitted = m.submitted ∧ m1.fd = m.fd ∧ m1.closed_fds = m.closed_fds ∧
        m1.n_submit = m.n_submit ∧ m1.num_buffers = m.num_buffers := by
      split at hw
      · have := wait_for_buffer_ok_fields hw
        have he := Result.All_state (wait_for_buffer_evolves K m.current_buffer m)
          (show (wait_for_buffer K m.current_buffer m).state? = some m1 by rw [hw]; rfl)
        exact ⟨this.2.1, this.2.2.1, this.2.2.2.1, this.2.2.2.2.1, this.2.2.2.2.2.1,
          this.2.2.2.2.2.2.1, this.2.2.2.2.2.2.2.1, this.2.2.2.2.2.2.2.2.1, he.num_buffers_eq⟩
      · cases hw
        exact ⟨rfl, rfl, rfl, rfl, rfl, rfl, rfl, rfl, rfl⟩
    obtain ⟨f1, f2, f3, f4, f5, f6, f7, f8, f9⟩ := hf
    split at h
    · rename_i buffer reqs hb hr
      split at h
      · cases h
      · rename_i hret
        split at h
        · cases h
        · rename_i hN
          cases h
          refine ⟨buffer, by rw [← f3, ← f1]; exact hb, ?_, rfl, f3, ?_, ?_, ?_, f6, f7, ?_, ?_⟩
          · simp [f5, f4, f2]
          · simp [f4, f2]
          · simp [f1, f9]
          · rw [← f9]; exact hN
          · rw [← f8]; simpa using hret
          · simp [f8]
    · cases h

theorem submit_current_buffer_zero {K : Kernel} {m : CachedAioDirectWriter}
    (hcur : m.cur_off = 0) : submit_current_buffer K m = .ok m := by
  unfold submit_current_buffer
  rw [if_pos hcur]

/-- What an iteration of the loop of `write` that reaches its end has
done. -/
theorem write_body_ok {K : Kernel} {m m' : CachedAioDirectWriter} {data rest : List Byte}
    (h : write_body K m data = (.ok m', rest)) :
    ∃ m1 buffer,
      (if m.cur_off = m.cache_size then submit_current_buffer K m else Result.ok m) = .ok m1 ∧
      m1.cache_buffers[m1.current_buffer]? = some buffer ∧
      m' = { m1 with
             cache_buffers := m1.cache_buffers.set m1.current_buffer
               (memcpy buffer m1.cur_off
                 (data.take (min (m1.cache_size - m1.cur_off) data.length)))
             cur_off := m1.cur_off + min (m1.cache_size - m1.cur_off) data.length } ∧
      rest = data.drop (min (m1.cache_size - m1.cur_off) data.length) := by
  unfold write_body at h
  split at h
  · rename_i m1 hm1
    dsimp only at h
    split at h
    · cases h
    · rename_i buffer hb
      simp only [Prod.mk.injEq, Result.ok.injEq] at h
      exact ⟨m1, buffer, hm1, hb, h.1.symm, h.2.symm⟩
  · rename_i r hr
    simp only [Prod.mk.injEq] at h
    exact absurd h.1 (hr m')

theorem Contig_payload_length {off : Nat} {log : List Submission} (h : Contig off log) :
    ((log.map (fun s => s.payload)).flatten).length = total_length log := by
  induction log generalizing off with
  | nil => rfl
  | cons s rest ih =>
    obtain ⟨_, h2, h3⟩ := h
    have e : total_length (s :: rest) = s.length + total_length rest := by simp [total_length]
    simp only [List.map_cons, List.flatten_cons, List.length_append, ih h3, h2, e]

theorem pwrite_at_end (file : List Byte) (s : Submission) (h : s.offset = file.length) :
    pwrite file s = file ++ s.payload := by
  unfold pwrite
  rw [h, List.take_of_length_le (Nat.le_refl _), Nat.sub_self,
    List.drop_of_length_le (Nat.le_add_right _ _)]
  simp

theorem foldl_pwrite_contig (file : List Byte) (log : List Submission)
    (h : Contig file.length log) :
    log.foldl pwrite file = file ++ (log.map (fun s => s.payload)).flatten := by
  induction log generalizing file with
  | nil => simp
  | cons s rest ih =>
    obtain ⟨h1, h2, h3⟩ := h
    rw [List.foldl_cons, pwrite_at_end file s h1, ih]
    · simp [List.append_assoc]
    · simpa [h2] using h3

/-- On a gap-free log the file is the concatenation of the payloads. -/
theorem file_image_contig {log : List Submission} (h : Contig 0 log) :
    file_image log = (log.map (fun s => s.payload)).flatten := by
  unfold file_image
  rw [foldl_pwrite_contig [] log h]
  simp

theorem curbuf_length {m : CachedAioDirectWriter} (h : Inv m) (hN : 0 < m.num_buffers) :
    (curbuf m).length = m.cache_size := by
  have hlt : m.current_buffer < m.cache_buffers.length := by
    rw [h.nbuf]; exact h.cur_lt hN
  unfold curbuf
  rw [List.getElem?_eq_getElem hlt]
  exact h.buf_len _ (List.getElem_mem _)

theorem stream_length {m : CachedAioDirectWriter} (h : Inv m) :
    (stream m).length = m.file_offset + m.cur_off := by
  unfold stream
  rw [List.length_append, Contig_payload_length h.contig, ← h.off_sum, List.length_take]
  rcases Nat.eq_zero_or_pos m.num_buffers with h0 | h0
  · rw [h.nobuf h0]; simp
  · rw [curbuf_length h h0]
    have := h.cur_le
    omega

theorem onlyWaited_refl (m : CachedAioDirectWriter) : OnlyWaited m m :=
  ⟨rfl, rfl, rfl, rfl, rfl, rfl, rfl, rfl, rfl, rfl, fun _ h => h⟩

theorem onlyWaited_trans {a b c : CachedAioDirectWriter} (h₁ : OnlyWaited a b)
    (h₂ : OnlyWaited b c) : OnlyWaited a c :=
  ⟨h₂.fd_eq.trans h₁.fd_eq, h₂.cache_size_eq.trans h₁.cache_size_eq,
    h₂.num_buffers_eq.trans h₁.num_buffers_eq, h₂.cache_buffers_eq.trans h₁.cache_buffers_eq,
    h₂.cur_off_eq.trans h₁.cur_off_eq, h₂.file_offset_eq.trans h₁.file_offset_eq,
    h₂.current_buffer_eq.trans h₁.current_buffer_eq, h₂.submitted_eq.trans h₁.submitted_eq,
    h₂.closed_fds_eq.trans h₁.closed_fds_eq, h₂.n_submit_eq.trans h₁.n_submit_eq,
    fun j h => h₂.cleared j (h₁.cleared j h)⟩

theorem OnlyWaited.stream_eq {m m' : CachedAioDirectWriter} (h : OnlyWaited m m') :
    stream m' = stream m := by
  unfold stream curbuf
  rw [h.submitted_eq, h.cache_buffers_eq, h.current_buffer_eq, h.cur_off_eq]

theorem wait_for_buffer_onlyWaited {K : Kernel} {i : Nat} {m m1 : CachedAioDirectWriter}
    (h : wait_for_buffer K i m = .ok m1) :
    OnlyWaited m m1 ∧ m1.pending_requests[i]? = some [] := by
  have hf := wait_for_buffer_ok_fields h
  have he := Result.All_state (wait_for_buffer_evolves K i m)
    (show (wait_for_buffer K i m).state? = some m1 by rw [h]; rfl)
  exact ⟨⟨hf.2.2.2.2.2.2.1, he.cache_size_eq, he.num_buffers_eq, hf.2.2.2.1, hf.2.2.1,
    hf.2.2.2.2.1, hf.2.1, hf.2.2.2.2.2.1, hf.2.2.2.2.2.2.2.1, hf.2.2.2.2.2.2.2.2.1,
    hf.2.2.2.2.2.2.2.2.2⟩, hf.1⟩

/-- A normal return of the loop of `wait_all` has emptied the pending list
of every buffer it visited. -/
theorem wait_all_from_ok {K : Kernel} {k i : Nat} {m m' : CachedAioDirectWriter}
    (h : wait_all_from K k i m = .ok m') :
    OnlyWaited m m' ∧ ∀ j : Nat, i ≤ j → j < i + k → m'.pending_requests[j]? = some [] := by
  induction k generalizing i m with
  | zero =>
    simp only [wait_all_from, Result.ok.injEq] at h
    subst h
    exact ⟨onlyWaited_refl m, fun j h1 h2 => by omega⟩
  | succ k ih =>
    unfold wait_all_from at h
    rcases hw : wait_for_buffer K i m with m1 | _ | _ | _
    rotate_left
    · rw [hw] at h; cases h
    · rw [hw] at h; cases h
    · rw [hw] at h; cases h
    rw [hw] at h
    simp only [Result.bind] at h
    obtain ⟨w1, c1⟩ := wait_for_buffer_onlyWaited hw
    obtain ⟨w2, c2⟩ := ih h
    refine ⟨onlyWaited_trans w1 w2, fun j h1 h2 => ?_⟩
    rcases Nat.eq_or_lt_of_le h1 with e | e
    · subst e
      exact w2.cleared _ c1
    · exact c2 j (by omega) (by omega)

/-- With nothing pending on the buffers it visits, the loop of `wait_all`
makes no system call and changes nothing. -/
theorem wait_all_from_idle {K : Kernel} {k i : Nat} {m : CachedAioDirectWriter}
    (h : ∀ j : Nat, i ≤ j → j < i + k → m.pending_requests[j]? = some []) :
    wait_all_from K k i m = .ok m := by
  induction k generalizing i with
  | zero => rfl
  | succ k ih =>
    unfold wait_all_from
    have h1 : wait_for_buffer K i m = .ok m := by
      unfold wait_for_buffer
      rw [h i (Nat.le_refl _) (by omega)]
      rfl
    rw [h1]
    simp only [Result.bind]
    exact ih fun j h2 h3 => h j (by omega) (by omega)

theorem submit_current_buffer_stream {K : Kernel} {m m' : CachedAioDirectWriter}
    (h : submit_current_buffer K m = .ok m') : stream m' = stream m ∧ m'.cur_off = 0 := by
  by_cases hcur : m.cur_off = 0
  · rw [submit_current_buffer_zero hcur] at h
    cases h
    exact ⟨rfl, hcur⟩
  · obtain ⟨buffer, hb, hs, hc, _, _, _, _, _, _, _⟩ := submit_current_buffer_ok h hcur
    refine ⟨?_, hc⟩
    unfold stream
    rw [hs, hc]
    simp [curbuf, hb]

/-- What a normal return of `flush` has done: at most one submission, of
the filled part of the current buffer, and every pending list emptied. -/
theorem flush_ok {K : Kernel} {m m' : CachedAioDirectWriter} (h : flush K m = .ok m') :
    stream m' = stream m ∧ m'.cur_off = 0 ∧
    (∀ j : Nat, j < m.num_buffers → m'.pending_requests[j]? = some []) ∧
    m'.submitted = m.submitted ++
      (if 0 < m.cur_off then [⟨m.file_offset, m.cur_off, (curbuf m).take m.cur_off⟩] else []) ∧
    m'.file_offset = m.file_offset + m.cur_off ∧ m'.fd = m.fd ∧
    m'.closed_fds = m.closed_fds := by
  unfold flush at h
  rcases hs : (if 0 < m.cur_off then submit_current_buffer K m else Result.ok m)
    with m1 | _ | _ | _
  rotate_left
  · rw [hs] at h; cases h
  · rw [hs] at h; cases h
  · rw [hs] at h; cases h
  rw [hs] at h
  simp only [Result.bind, wait_all] at h
  obtain ⟨w, c⟩ := wait_all_from_ok h
  have hN : m1.num_buffers = m.num_buffers := by
    have he : (if 0 < m.cur_off then submit_current_buffer K m else Result.ok m).All
        (Evolves m) := by
      split
      · exact submit_current_buffer_evolves K m
      · exact evolves_refl m
    rw [hs] at he
    exact he.num_buffers_eq
  rw [w.stream_eq, w.cur_off_eq, w.submitted_eq, w.file_offset_eq, w.fd_eq, w.closed_fds_eq]
  have hc : ∀ j : Nat, j < m.num_buffers → m'.pending_requests[j]? = some [] :=
    fun j hj => c j (Nat.zero_le _) (by omega)
  by_cases hcur : 0 < m.cur_off
  · rw [if_pos hcur] at hs
    obtain ⟨buffer, hb, hsub, hc0, _, hfo, _, _, hfd, hcl, _⟩ :=
      submit_current_buffer_ok hs (by omega)
    have hst := submit_current_buffer_stream hs
    refine ⟨hst.1, hc0, hc, ?_, hfo, hfd, hcl⟩
    rw [if_pos hcur, hsub]
    simp [curbuf, hb]
  · rw [if_neg hcur] at hs
    cases hs
    have h0 : m.cur_off = 0 := by omega
    exact ⟨rfl, h0, hc, by simp [h0], by simp [h0], rfl, rfl⟩

/-- The state before the copy of an iteration of `write`: after the
submission of a full buffer, or the state itself. -/
theorem write_pre_ok {K : Kernel} {m m1 : CachedAioDirectWriter} (hi : Inv m)
    (h : (if m.cur_off = m.cache_size then submit_current_buffer K m else Result.ok m)
      = .ok m1) :
    Evolves m m1 ∧ stream m1 = stream m ∧ (0 < m.cache_size → m1.cur_off < m1.cache_size) := by
  have he : Evolves m m1 := by
    have : (if m.cur_off = m.cache_size then submit_current_buffer K m else Result.ok m).All
        (Evolves m) := by
      split
      · exact submit_current_buffer_evolves K m
      · exact evolves_refl m
    rw [h] at this
    exact this
  refine ⟨he, ?_, fun hc => ?_⟩
  · split at h
    · exact (submit_current_buffer_stream h).1
    · cases h; rfl
  · split at h
    · rw [(submit_current_buffer_stream h).2, he.cache_size_eq]; exact hc
    · cases h
      have := hi.cur_le
      omega

/-- An iteration of `write` that reaches its end moves bytes from the
front of the caller's data to the end of the stream, at least one when
`cache_size` is positive. -/
theorem write_body_stream {K : Kernel} {m m' : CachedAioDirectWriter} {data rest : List Byte}
    (hi : Inv m) (h : write_body K m data = (.ok m', rest)) :
    Evolves m m' ∧ stream m' ++ rest = stream m ++ data ∧
    (0 < m.cache_size → data ≠ [] → rest.length < data.length ∧ 0 < m'.cur_off) := by
  have hev : Evolves m m' := by
    have := write_body_evolves K m data
    rw [h] at this
    exact this
  obtain ⟨m1, buffer, hpre, hb, rfl, rfl⟩ := write_body_ok h
  obtain ⟨he1, hs1, hlt⟩ := write_pre_ok hi hpre
  have hi1 := he1.inv hi
  have hbl : buffer.length = m1.cache_size := hi1.buf_len _ (List.getElem?_mem hb)
  have hcl := hi1.cur_le
  have hcur : m1.current_buffer < m1.cache_buffers.length := by
    by_contra hc
    rw [List.getElem?_eq_none (by omega)] at hb
    cases hb
  refine ⟨hev, ?_, fun hc hd => ?_⟩
  · rw [← hs1]
    have hb' : curbuf m1 = buffer := by simp [curbuf, hb]
    have htl : (data.take (min (m1.cache_size - m1.cur_off) data.length)).length =
        min (m1.cache_size - m1.cur_off) data.length := by
      rw [List.length_take]; omega
    have hmt := @memcpy_take buffer
      (data.take (min (m1.cache_size - m1.cur_off) data.length)) m1.cur_off (by omega)
    rw [htl] at hmt
    unfold stream
    simp only [curbuf, List.getElem?_set_self hcur, Option.getD_some, hb, hmt]
    simp only [List.append_assoc, List.take_append_drop]
  · have h1 := hlt hc
    have hdl : 0 < data.length := List.length_pos.mpr hd
    simp only [List.length_drop]
    constructor <;> omega

theorem write_loop_stream {K : Kernel} {fuel : Nat} {m m' : CachedAioDirectWriter}
    {data : List Byte} (hi : Inv m) (h : write_loop K fuel m data = .ok m') :
    stream m' = stream m ++ data := by
  induction fuel generalizing m data with
  | zero =>
    cases data with
    | nil => cases h; simp
    | cons d ds => cases h
  | succ fuel ih =>
    cases data with
    | nil => cases h; simp
    | cons d ds =>
      unfold write_loop at h
      rcases hw : write_body K m (d :: ds) with ⟨r, rest⟩
      rw [hw] at h
      cases r with
      | ok m1 =>
        obtain ⟨he, hs, _⟩ := write_body_stream hi hw
        rw [ih (he.inv hi) h, hs]
      | threw e m1 => cases h
      | undefined => cases h
      | timeout => cases h

/-- More iterations than a run needs do not change its outcome. -/
theorem write_loop_fuel_succ {K : Kernel} {fuel : Nat} {m : CachedAioDirectWriter}
    {data : List Byte} (h : write_loop K fuel m data ≠ .timeout) :
    write_loop K (fuel + 1) m data = write_loop K fuel m data := by
  induction fuel generalizing m data with
  | zero =>
    cases data with
    | nil => rfl
    | cons d ds => exact absurd rfl h
  | succ fuel ih =>
    cases data with
    | nil => rfl
    | cons d ds =>
      rw [write_loop] at h
      rw [write_loop.eq_3, write_loop.eq_3]
      rcases hw : write_body K m (d :: ds) with ⟨r, rest⟩
      rw [hw] at h
      cases r with
      | ok m1 => exact ih h
      | threw e m1 => rfl
      | undefined => rfl
      | timeout => rfl

theorem write_loop_fuel_le {K : Kernel} {fuel fuel' : Nat} {m : CachedAioDirectWriter}
    {data : List Byte} (h : write_loop K fuel m data ≠ .timeout) (hle : fuel ≤ fuel') :
    write_loop K fuel' m data = write_loop K fuel m data := by
  induction hle with
  | refl => rfl
  | step _ ih => rw [write_loop_fuel_succ (by rw [ih]; exact h), ih]

theorem wait_for_buffer_ne_timeout (K : Kernel) (i : Nat) (m : CachedAioDirectWriter) :
    wait_for_buffer K i m ≠ .timeout := by
  unfold wait_for_buffer
  split
  · simp
  · split
    · simp
    · dsimp only
      split <;> simp

theorem submit_current_buffer_ne_timeout (K : Kernel) (m : CachedAioDirectWriter) :
    submit_current_buffer K m ≠ .timeout := by
  unfold submit_current_buffer
  split
  · simp
  · split
    · simp
    · rename_i requests _
      have hw : (if ¬ requests.isEmpty then wait_for_buffer K m.current_buffer m
          else Result.ok m) ≠ .timeout := by
        split
        · exact wait_for_buffer_ne_timeout K _ m
        · simp
      revert hw
      generalize (if ¬ requests.isEmpty then wait_for_buffer K m.current_buffer m
        else Result.ok m) = w
      intro hw
      cases w with
      | ok m1 =>
        simp only [Result.bind]
        split
        · split
          · simp
          · split <;> simp
        · simp
      | threw e m1 => simp [Result.bind]
      | undefined => simp [Result.bind]
      | timeout => exact absurd rfl hw

theorem write_body_ne_timeout (K : Kernel) (m : CachedAioDirectWriter) (data : List Byte) :
    (write_body K m data).1 ≠ .timeout := by
  unfold write_body
  split
  · dsimp only
    split <;> simp
  · rename_i r hr
    revert hr
    have hp : (if m.cur_off = m.cache_size then submit_current_buffer K m else Result.ok m)
        ≠ .timeout := by
      split
      · exact submit_current_buffer_ne_timeout K m
      · simp
    generalize (if m.cur_off = m.cache_size then submit_current_buffer K m
      else Result.ok m) = r0 at hp
    intro _
    exact hp

/-- Termination of the loop of `write`: with a positive `cache_size`, one
iteration per byte left is enough. -/
theorem write_loop_terminates {K : Kernel} {fuel : Nat} {m : CachedAioDirectWriter}
    {data : List Byte} (hi : Inv m) (hc : 0 < m.cache_size) (hf : data.length ≤ fuel) :
    write_loop K fuel m data ≠ .timeout := by
  induction fuel generalizing m data with
  | zero =>
    cases data with
    | nil => simp [write_loop]
    | cons d ds => simp at hf
  | succ fuel ih =>
    cases data with
    | nil => simp [write_loop]
    | cons d ds =>
      rw [write_loop]
      have hnt := write_body_ne_timeout K m (d :: ds)
      rcases hw : write_body K m (d :: ds) with ⟨r, rest⟩
      rw [hw] at hnt
      cases r with
      | ok m1 =>
        obtain ⟨he, _, hp⟩ := write_body_stream hi hw
        have := (hp hc (by simp)).1
        exact ih (he.inv hi) (by rw [he.cache_size_eq]; exact hc) (by simp at hf this ⊢; omega)
      | threw e m1 => simp
      | undefined => simp
      | timeout => exact absurd rfl hnt

/-! ## Properties of runs on which the kernel calls succeed -/

theorem Result.NoThrow_bind {r : Result} {f : CachedAioDirectWriter → Result}
    (hr : r.NoThrow) (hf : ∀ m, (f m).NoThrow) : (r.bind f).NoThrow := by
  cases r with
  | ok m => exact hf m
  | threw e m => exact hr
  | undefined => trivial
  | timeout => trivial

theorem Result.NoThrow_state {r : Result} {m : CachedAioDirectWriter} (hr : r.NoThrow)
    (h : r.state? = some m) : r = .ok m := by
  cases r with
  | ok m1 => simp only [Result.state?, Option.some.injEq] at h; rw [h]
  | threw e m1 => exact absurd hr id
  | undefined => cases h
  | timeout => cases h

theorem wait_for_buffer_noThrow {K : Kernel} (hK : K.succeeds) (i : Nat)
    (m : CachedAioDirectWriter) : (wait_for_buffer K i m).NoThrow := by
  unfold wait_for_buffer
  split
  · trivial
  · split
    · trivial
    · dsimp only
      rw [if_neg (by simpa using hK.2 _ _)]
      trivial

theorem submit_current_buffer_noThrow {K : Kernel} (hK : K.succeeds)
    (m : CachedAioDirectWriter) : (submit_current_buffer K m).NoThrow := by
  unfold submit_current_buffer
  split
  · trivial
  · split
    · trivial
    · apply Result.NoThrow_bind
      · split
        · exact wait_for_buffer_noThrow hK _ m
        · trivial
      · intro m1
        split
        · dsimp only
          rw [if_neg (by simpa using hK.1 _)]
          split <;> trivial
        · trivial

theorem write_loop_noThrow {K : Kernel} (hK : K.succeeds) (fuel : Nat)
    (m : CachedAioDirectWriter) (data : List Byte) : (write_loop K fuel m data).NoThrow := by
  induction fuel generalizing m data with
  | zero => cases data <;> trivial
  | succ fuel ih =>
    cases data with
    | nil => trivial
    | cons d ds =>
      rw [write_loop]
      rcases hw : write_body K m (d :: ds) with ⟨r, rest⟩
      cases r with
      | ok m1 => exact ih m1 rest
      | threw e m1 =>
        exfalso
        unfold write_body at hw
        split at hw
        · dsimp only at hw
          split at hw <;> simp at hw
        · have hp : (if m.cur_off = m.cache_size then submit_current_buffer K m
              else Result.ok m).NoThrow := by
            split
            · exact submit_current_buffer_noThrow hK m
            · trivial
          simp only [Prod.mk.injEq] at hw
          rw [hw.1] at hp
          exact hp
      | undefined => trivial
      | timeout => trivial

theorem wait_all_from_noThrow {K : Kernel} (hK : K.succeeds) (k i : Nat)
    (m : CachedAioDirectWriter) : (wait_all_from K k i m).NoThrow := by
  induction k generalizing i m with
  | zero => trivial
  | succ k ih =>
    exact Result.NoThrow_bind (wait_for_buffer_noThrow hK i m) fun m1 => ih (i + 1) m1

theorem flush_noThrow {K : Kernel} (hK : K.succeeds) (m : CachedAioDirectWriter) :
    (flush K m).NoThrow := by
  unfold flush
  refine Result.NoThrow_bind ?_ fun m1 => wait_all_from_noThrow hK _ 0 m1
  split
  · exact submit_current_buffer_noThrow hK m
  · trivial

/-- When the kernel calls succeed no member function throws. -/
theorem step_noThrow {K : Kernel} (hK : K.succeeds) (c : Call) (m : CachedAioDirectWriter) :
    (step K c m).NoThrow := by
  cases c with
  | write data => exact write_loop_noThrow hK _ m data
  | flush => exact flush_noThrow hK m
  | close =>
    refine Result.NoThrow_bind (flush_noThrow hK m) fun m1 => ?_
    split <;> trivial

theorem wait_for_buffer_succeeds {K : Kernel} (hK : K.succeeds) {i : Nat}
    {m : CachedAioDirectWriter} (hi : i < m.pending_requests.length) :
    ∃ m', wait_for_buffer K i m = .ok m' := by
  have h1 := wait_for_buffer_noThrow hK i m
  rcases hw : wait_for_buffer K i m with m1 | _ | _ | _
  · exact ⟨m1, rfl⟩
  · rw [hw] at h1; exact absurd h1 id
  · exfalso
    unfold wait_for_buffer at hw
    rw [List.getElem?_eq_getElem hi] at hw
    dsimp only at hw
    split at hw
    · cases hw
    · split at hw <;> cases hw
  · exfalso
    unfold wait_for_buffer at hw
    split at hw
    · cases hw
    · split at hw
      · cases hw
      · dsimp only at hw
        split at hw <;> cases hw

theorem submit_current_buffer_succeeds {K : Kernel} (hK : K.succeeds)
    {m : CachedAioDirectWriter} (hi : Inv m) (hN : 0 < m.num_buffers) :
    ∃ m', submit_current_buffer K m = .ok m' := by
  by_cases hcur : m.cur_off = 0
  · exact ⟨m, submit_current_buffer_zero hcur⟩
  · have hlt := hi.cur_lt hN
    have hpl : m.current_buffer < m.pending_requests.length := by rw [hi.npend]; exact hlt
    have hbl : m.current_buffer < m.cache_buffers.length := by rw [hi.nbuf]; exact hlt
    unfold submit_current_buffer
    rw [if_neg hcur, List.getElem?_eq_getElem hpl]
    dsimp only
    have hw : ∃ m1, (if ¬ (m.pending_requests[m.current_buffer]).isEmpty
        then wait_for_buffer K m.current_buffer m else Result.ok m) = .ok m1 ∧
        OnlyWaited m m1 ∧ m1.pending_requests.length = m.pending_requests.length := by
      split
      · obtain ⟨m1, h1⟩ := wait_for_buffer_succeeds hK hpl
        have he := Result.All_state (wait_for_buffer_evolves K m.current_buffer m)
          (show (wait_for_buffer K m.current_buffer m).state? = some m1 by rw [h1]; rfl)
        have hi1 := he.inv hi
        exact ⟨m1, h1, (wait_for_buffer_onlyWaited h1).1, by
          rw [hi1.npend, hi.npend, he.num_buffers_eq]⟩
      · exact ⟨m, rfl, onlyWaited_refl m, rfl⟩
    obtain ⟨m1, h1, w, hl⟩ := hw
    rw [h1]
    simp only [Result.bind]
    rw [w.cache_buffers_eq, w.current_buffer_eq, List.getElem?_eq_getElem hbl,
      List.getElem?_eq_getElem (by rw [hl]; exact hpl)]
    dsimp only
    rw [if_neg (by simpa using hK.1 _), if_neg (by rw [w.num_buffers_eq]; omega)]
    exact ⟨_, rfl⟩

theorem write_body_succeeds {K : Kernel} (hK : K.succeeds) {m : CachedAioDirectWriter}
    (hi : Inv m) (hN : 0 < m.num_buffers) (data : List Byte) :
    ∃ m' rest, write_body K m data = (.ok m', rest) := by
  have hp : ∃ m1, (if m.cur_off = m.cache_size then submit_current_buffer K m
      else Result.ok m) = .ok m1 := by
    split
    · exact submit_current_buffer_succeeds hK hi hN
    · exact ⟨m, rfl⟩
  obtain ⟨m1, h1⟩ := hp
  obtain ⟨he, _, _⟩ := write_pre_ok hi h1
  have hi1 := he.inv hi
  have hbl : m1.current_buffer < m1.cache_buffers.length := by
    rw [hi1.nbuf]; exact hi1.cur_lt (by rw [he.num_buffers_eq]; exact hN)
  unfold write_body
  rw [h1]
  dsimp only
  rw [List.getElem?_eq_getElem hbl]
  exact ⟨_, _, rfl⟩

/-- With succeeding kernel calls, at least one buffer and a positive
`cache_size`, `write` returns normally. -/
theorem write_loop_succeeds {K : Kernel} (hK : K.succeeds) {fuel : Nat}
    {m : CachedAioDirectWriter} {data : List Byte} (hi : Inv m) (hN : 0 < m.num_buffers)
    (hc : 0 < m.cache_size) (hf : data.length ≤ fuel) :
    ∃ m', write_loop K fuel m data = .ok m' := by
  induction fuel generalizing m data with
  | zero =>
    cases data with
    | nil => exact ⟨m, rfl⟩
    | cons d ds => simp at hf
  | succ fuel ih =>
    cases data with
    | nil => exact ⟨m, rfl⟩
    | cons d ds =>
      obtain ⟨m1, rest, hw⟩ := write_body_succeeds hK hi hN (d :: ds)
      obtain ⟨he, _, hp⟩ := write_body_stream hi hw
      have := (hp hc (by simp)).1
      rw [write_loop, hw]
      exact ih (he.inv hi) (by rw [he.num_buffers_eq]; exact hN)
        (by rw [he.cache_size_eq]; exact hc) (by simp at hf this ⊢; omega)

theorem wait_all_from_succeeds {K : Kernel} (hK : K.succeeds) {k i : Nat}
    {m : CachedAioDirectWriter} (hi : Inv m) (hk : i + k ≤ m.num_buffers) :
    ∃ m', wait_all_from K k i m = .ok m' := by
  induction k generalizing i m with
  | zero => exact ⟨m, rfl⟩
  | succ k ih =>
    obtain ⟨m1, h1⟩ := @wait_for_buffer_succeeds K hK i m (by rw [hi.npend]; omega)
    have he := Result.All_state (wait_for_buffer_evolves K i m)
      (show (wait_for_buffer K i m).state? = some m1 by rw [h1]; rfl)
    rw [wait_all_from, h1]
    exact ih (he.inv hi) (by rw [he.num_buffers_eq]; omega)

/-- With succeeding kernel calls `flush` returns normally. -/
theorem flush_succeeds {K : Kernel} (hK : K.succeeds) {m : CachedAioDirectWriter}
    (hi : Inv m) : ∃ m', flush K m = .ok m' := by
  have hp : ∃ m1, (if 0 < m.cur_off then submit_current_buffer K m else Result.ok m)
      = .ok m1 ∧ Evolves m m1 := by
    split
    · rename_i hcur
      have hN : 0 < m.num_buffers := by
        rcases Nat.eq_zero_or_pos m.num_buffers with h0 | h0
        · have := hi.nobuf h0; omega
        · exact h0
      obtain ⟨m1, h1⟩ := submit_current_buffer_succeeds hK hi hN
      have he := submit_current_buffer_evolves K m
      rw [h1] at he
      exact ⟨m1, h1, he⟩
    · exact ⟨m, rfl, evolves_refl m⟩
  obtain ⟨m1, h1, he⟩ := hp
  unfold flush
  rw [h1]
  exact wait_all_from_succeeds hK (he.inv hi) (by omega)

theorem close_succeeds {K : Kernel} (hK : K.succeeds) {m : CachedAioDirectWriter}
    (hi : Inv m) : ∃ m', close K m = .ok m' := by
  obtain ⟨m1, h1⟩ := flush_succeeds hK hi
  unfold close
  rw [h1]
  simp only [Result.bind]
  split
  · exact ⟨_, rfl⟩
  · exact ⟨_, rfl⟩

/-! ## The file offset, and the idempotence of `flush` and `close` -/

theorem okKernel_succeeds : okKernel.succeeds :=
  ⟨fun _ => rfl, fun _ _ => rfl⟩

theorem after_three_bytes_reachable : Reachable okKernel after_three_bytes :=
  ⟨1, 2, [.write [1, 2, 3]], _, rfl, rfl⟩

/-- What a normal return of `close` has done: a `flush`, then the
descriptor is closed and set to -1 unless it was -1 already. -/
theorem close_ok {K : Kernel} {m m' : CachedAioDirectWriter} (h : close K m = .ok m') :
    ∃ mf, flush K m = .ok mf ∧ m'.fd = -1 ∧
      m' = { mf with fd := -1
                     closed_fds := if mf.fd ≠ -1 then mf.closed_fds ++ [mf.fd]
                                   else mf.closed_fds } := by
  unfold close at h
  rcases hf : flush K m with mf | _ | _ | _
  rotate_left
  · rw [hf] at h; cases h
  · rw [hf] at h; cases h
  · rw [hf] at h; cases h
  rw [hf] at h
  simp only [Result.bind] at h
  refine ⟨mf, rfl, ?_⟩
  split at h
  · rename_i hfd
    cases h
    exact ⟨rfl, by rw [if_pos hfd]⟩
  · rename_i hfd
    cases h
    have hfd' : m'.fd = -1 := by simpa using hfd
    refine ⟨hfd', ?_⟩
    rw [if_neg hfd, ← hfd']

/-- A second `flush` right after a `flush` that returned. -/
theorem flush_flush {K : Kernel} {m m1 : CachedAioDirectWriter} (h : flush K m = .ok m1) :
    flush K m1 = .ok m1 := by
  obtain ⟨_, hc, hp, _, _, _, _⟩ := flush_ok h
  have he := flush_evolves K m
  rw [h] at he
  unfold flush
  rw [if_neg (by omega)]
  simp only [Result.bind, wait_all]
  exact wait_all_from_idle fun j _ hj => hp j (by rw [← he.num_buffers_eq]; omega)

/-- C5. In every reachable state, whatever the kernel answered (so also
after failed `io_submit` or `io_getevents` calls), `file_offset` is the sum
of the lengths of the submissions the kernel accepted, and neither a public
call nor `submit_current_buffer` leaves a smaller `file_offset`, whether it
returns or throws. -/
theorem C5_file_offset_invariant (K : Kernel) (m : CachedAioDirectWriter)
    (hm : Reachable K m) :
    m.file_offset = total_length m.submitted ∧
    (∀ c m', (step K c m).state? = some m' →
      m.file_offset ≤ m'.file_offset ∧ m'.file_offset = total_length m'.submitted) ∧
    (∀ m', (submit_current_buffer K m).state? = some m' →
      m.file_offset ≤ m'.file_offset ∧ m'.file_offset = total_length m'.submitted) := by
  have hi := hm.inv
  refine ⟨hi.off_sum, fun c m' h => ?_, fun m' h => ?_⟩
  · have he := Result.All_state (step_evolves K c m) h
    obtain ⟨extra, _, ho⟩ := he.ext
    exact ⟨by omega, (he.inv hi).off_sum⟩
  · have he := Result.All_state (submit_current_buffer_evolves K m) h
    obtain ⟨extra, _, ho⟩ := he.ext
    exact ⟨by omega, (he.inv hi).off_sum⟩

/-- Witness of C5: the state in which a `write` of three bytes through
two one-byte buffers throws, its second `io_submit` rejected. -/
theorem C5_file_offset_invariant_witness :
    Reachable rejectingKernel
      { fd := 3, cache_size := 1, num_buffers := 2, cache_buffers := [[7], [8]], cur_off := 1,
        file_offset := 1, current_buffer := 1, pending_requests := [[⟨3, 0, 1, 0⟩], []],
        submitted := [⟨0, 1, [7]⟩], closed_fds := [], n_submit := 2, n_getevents := 0 } ∧
    (1 : Nat) = total_length [⟨0, 1, [7]⟩] :=
  have hr : Reachable rejectingKernel
      { fd := 3, cache_size := 1, num_buffers := 2, cache_buffers := [[7], [8]], cur_off := 1,
        file_offset := 1, current_buffer := 1, pending_requests := [[⟨3, 0, 1, 0⟩], []],
        submitted := [⟨0, 1, [7]⟩], closed_fds := [], n_submit := 2, n_getevents := 0 } :=
    ⟨1, 2, [.write [7, 8, 9]], _, rfl, rfl⟩
  ⟨hr, (C5_file_offset_invariant rejectingKernel _ hr).1⟩

/-- C6. From every reachable state, a `flush` that follows a `flush` that
returned makes no system call and returns the very same state, so it
submits nothing and the log of submissions is the one the first `flush`
left; and when the kernel calls succeed the first `flush` does return. -/
theorem C6_flush_idempotent (K : Kernel) (m : CachedAioDirectWriter) (hm : Reachable K m) :
    (∀ m1, flush K m = .ok m1 → flush K m1 = .ok m1) ∧
    (K.succeeds → ∃ m1, flush K m = .ok m1 ∧ (flush K m).bind (flush K) = .ok m1) := by
  refine ⟨fun m1 h => flush_flush h, fun hK => ?_⟩
  obtain ⟨m1, h1⟩ := flush_succeeds hK hm.inv
  exact ⟨m1, h1, by rw [h1]; exact flush_flush h1⟩

/-- Witness of C6: the state after writing three bytes through two
one-byte buffers. -/
theorem C6_flush_idempotent_witness :
    Reachable okKernel after_three_bytes ∧ okKernel.succeeds ∧
    ∃ m1, flush okKernel after_three_bytes = .ok m1 ∧
      (flush okKernel after_three_bytes).bind (flush okKernel) = .ok m1 :=
  ⟨after_three_bytes_reachable, okKernel_succeeds,
    (C6_flush_idempotent okKernel after_three_bytes after_three_bytes_reachable).2
      okKernel_succeeds⟩

/-- C8. From every reachable state, a `close` that returns has flushed and
left `fd = -1` (closing the descriptor if it was open), and a `close` after
it makes no system call and returns the very same state: no submission, no
descriptor closed, no field changed, also after any number of further
`close` and `flush` calls; and when the kernel calls succeed the first
`close` does return. -/
theorem C8_close_idempotent (K : Kernel) (m : CachedAioDirectWriter) (hm : Reachable K m) :
    (∀ m1, close K m = .ok m1 →
      (∃ mf, flush K m = .ok mf ∧ m1.fd = -1 ∧
        m1 = { mf with fd := -1
                       closed_fds := if mf.fd ≠ -1 then mf.closed_fds ++ [mf.fd]
                                     else mf.closed_fds }) ∧
      close K m1 = .ok m1 ∧
      ∀ calls : List Call, (∀ c ∈ calls, c = .flush ∨ c = .close) → run K calls m1 = some m1) ∧
    (K.succeeds → ∃ m1, close K m = .ok m1) := by
  refine ⟨fun m1 h => ?_, fun hK => close_succeeds hK hm.inv⟩
  obtain ⟨mf, hf, hfd, he⟩ := close_ok h
  refine ⟨⟨mf, hf, hfd, he⟩, ?_⟩
  suffices hcc : flush K m1 = .ok m1 ∧ close K m1 = .ok m1 by
    refine ⟨hcc.2, fun calls hcalls => ?_⟩
    induction calls with
    | nil => rfl
    | cons c cs ih =>
      have hcs := ih fun c' hc' => hcalls c' (List.mem_cons_of_mem _ hc')
      rcases hcalls c (List.mem_cons_self _ _) with rfl | rfl
      · simp only [run, step, hcc.1, Result.state?]
        exact hcs
      · simp only [run, step, hcc.2, Result.state?]
        exact hcs
  have hff := flush_flush hf
  have h1 : flush K m1 = .ok m1 := by
    obtain ⟨_, hc, hp, _, _, _, _⟩ := flush_ok hf
    have hev := flush_evolves K m
    rw [hf] at hev
    unfold flush
    rw [if_neg (by rw [he]; show ¬ 0 < mf.cur_off; omega)]
    simp only [Result.bind, wait_all]
    refine wait_all_from_idle fun j _ hj => ?_
    rw [he] at hj ⊢
    exact hp j (by rw [← hev.num_buffers_eq]; exact (by simpa using hj))
  refine ⟨h1, ?_⟩
  unfold close
  rw [h1]
  simp only [Result.bind]
  rw [if_neg (by simp [hfd])]

/-- Witness of C8: closing after three bytes written through two one-byte
buffers. -/
theorem C8_close_idempotent_witness :
    Reachable okKernel after_three_bytes ∧ okKernel.succeeds ∧
    ∃ m1, close okKernel after_three_bytes = .ok m1 :=
  ⟨after_three_bytes_reachable, okKernel_succeeds,
    (C8_close_idempotent okKernel after_three_bytes after_three_bytes_reachable).2
      okKernel_succeeds⟩

/-! ## The round trip and the postcondition of `flush` -/

theorem run_append (K : Kernel) (a b : List Call) (m : CachedAioDirectWriter) :
    run K (a ++ b) m = (run K a m).bind (run K b) := by
  induction a generalizing m with
  | nil => rfl
  | cons c cs ih =>
    simp only [List.cons_append, run]
    cases (step K c m).state? with
    | none => rfl
    | some m1 => exact ih m1

theorem written_append (a b : List Call) : written (a ++ b) = written a ++ written b := by
  induction a with
  | nil => rfl
  | cons c cs ih => cases c <;> simp [written, ih]

theorem written_map_write (ds : List (List Byte)) :
    written (ds.map Call.write) = ds.flatten := by
  induction ds with
  | nil => rfl
  | cons d ds ih => simp [written, ih]

theorem close_stream {K : Kernel} {m m' : CachedAioDirectWriter} (h : close K m = .ok m') :
    stream m' = stream m ∧ m'.cur_off = 0 := by
  obtain ⟨mf, hf, _, he⟩ := close_ok h
  obtain ⟨hs, hc, _⟩ := flush_ok hf
  rw [← hs, he]
  exact ⟨rfl, hc⟩

/-- A call that returns normally appends to the stream exactly the bytes
passed to it. -/
theorem step_stream {K : Kernel} {c : Call} {m m' : CachedAioDirectWriter} (hi : Inv m)
    (h : step K c m = .ok m') : stream m' = stream m ++ written [c] := by
  cases c with
  | write data => simpa [written] using write_loop_stream hi h
  | flush => simpa [written] using (flush_ok h).1
  | close => simpa [written] using (close_stream h).1

/-- When the kernel calls succeed, the stream of the object is the
concatenation of the data of the `write` calls made on it. -/
theorem run_stream {K : Kernel} (hK : K.succeeds) {calls : List Call}
    {m m' : CachedAioDirectWriter} (hi : Inv m) (h : run K calls m = some m') :
    stream m' = stream m ++ written calls := by
  induction calls generalizing m with
  | nil =>
    simp only [run, Option.some.injEq] at h
    subst h
    simp [written]
  | cons c cs ih =>
    unfold run at h
    split at h
    · cases h
    · rename_i m1 h1
      have hok := Result.NoThrow_state (step_noThrow hK c m) h1
      have he := Result.All_state (step_evolves K c m) h1
      rw [ih (he.inv hi) h, step_stream hi hok, List.append_assoc, ← written_append]
      rfl

theorem construct_stream {K : Kernel} {c n : Nat} {m0 : CachedAioDirectWriter}
    (h : construct K c n = some m0) :
    stream m0 = [] ∧ m0.cache_size = c ∧ m0.num_buffers = n ∧ m0.submitted = [] ∧
      m0.cur_off = 0 := by
  obtain ⟨rfl, _⟩ := construct_eq h
  exact ⟨by simp [stream], rfl, rfl, rfl, rfl⟩

/-- With succeeding kernel calls, at least one buffer and a positive
`cache_size`, a sequence of `write` calls runs to its end. -/
theorem run_writes_succeeds {K : Kernel} (hK : K.succeeds) (ds : List (List Byte))
    {m : CachedAioDirectWriter} (hi : Inv m) (hN : 0 < m.num_buffers)
    (hc : 0 < m.cache_size) : ∃ m', run K (ds.map Call.write) m = some m' := by
  induction ds generalizing m with
  | nil => exact ⟨m, rfl⟩
  | cons d ds ih =>
    obtain ⟨m1, h1⟩ := write_loop_succeeds hK hi hN hc (Nat.le_refl d.length)
    have he := write_evolves K m d
    unfold write at he
    rw [h1] at he
    obtain ⟨m2, h2⟩ := ih (he.inv hi) (by rw [he.num_buffers_eq]; exact hN)
      (by rw [he.cache_size_eq]; exact hc)
    refine ⟨m2, ?_⟩
    simp only [List.map_cons, run, step, write, h1, Result.state?]
    exact h2

/-- C1. Round trip: on a writer constructed with `cache_size > 0` and at
least one buffer, with every kernel call succeeding, any sequence of
`write` calls followed by `flush` or by `close` runs to its end, and the
file made of the submissions issued, each payload placed at its recorded
offset, is exactly the concatenation of the data written. -/
theorem C1_round_trip (K : Kernel) (hK : K.succeeds) (cache_size num_buffers : Nat)
    (hc : 0 < cache_size) (hn : 1 ≤ num_buffers) (m0 : CachedAioDirectWriter)
    (h0 : construct K cache_size num_buffers = some m0) (ds : List (List Byte))
    (last : Call) (hlast : last = .flush ∨ last = .close) :
    ∃ m, run K (ds.map Call.write ++ [last]) m0 = some m ∧
      file_image m.submitted = ds.flatten := by
  have hi0 := construct_inv h0
  obtain ⟨hs0, hc0, hn0, _, _⟩ := construct_stream h0
  obtain ⟨m1, h1⟩ := run_writes_succeeds hK ds hi0 (by omega) (by omega)
  have hi1 := (run_evolves K _ m0 m1 h1).inv hi0
  have hlast' : ∃ m2, step K last m1 = .ok m2 ∧ m2.cur_off = 0 := by
    rcases hlast with rfl | rfl
    · obtain ⟨m2, h2⟩ := flush_succeeds hK hi1
      exact ⟨m2, h2, (flush_ok h2).2.1⟩
    · obtain ⟨m2, h2⟩ := close_succeeds hK hi1
      exact ⟨m2, h2, (close_stream h2).2⟩
  obtain ⟨m2, h2, hcur⟩ := hlast'
  have hrun : run K (ds.map Call.write ++ [last]) m0 = some m2 := by
    rw [run_append, h1]
    simp [run, h2, Result.state?]
  refine ⟨m2, hrun, ?_⟩
  have hi2 := (run_evolves K _ m0 m2 hrun).inv hi0
  have hst := run_stream hK hi0 hrun
  rw [hs0, written_append, written_map_write] at hst
  rw [file_image_contig hi2.contig]
  have : stream m2 = (m2.submitted.map (fun s => s.payload)).flatten := by
    simp [stream, hcur]
  rw [← this, hst]
  rcases hlast with rfl | rfl <;> simp [written]

/-- Witness of C1: two writes of two and three bytes through two
two-byte buffers, then `close`. -/
theorem C1_round_trip_witness :
    okKernel.succeeds ∧ 0 < 2 ∧ 1 ≤ 2 ∧
    ∃ m, run okKernel ([[1, 2], [3, 4, 5]].map Call.write ++ [Call.close])
        ⟨3, 2, 2, [[0, 0], [0, 0]], 0, 0, 0, [[], []], [], [], 0, 0⟩ = some m ∧
      file_image m.submitted = [[1, 2], [3, 4, 5]].flatten :=
  ⟨okKernel_succeeds, by decide, by decide,
    C1_round_trip okKernel okKernel_succeeds 2 2 (by decide) (by decide) _ rfl
      [[1, 2], [3, 4, 5]] .close (Or.inr rfl)⟩

/-- C7. From every state reached with succeeding kernel calls, `flush`
returns normally; it issues exactly one submission, of the first `cur_off`
bytes of the current buffer at `file_offset`, when `cur_off > 0`, and none
when `cur_off = 0`; on return `cur_off = 0`, every pending list is empty
and `file_offset` is the number of bytes passed to `write` since
construction. -/
theorem C7_flush_postcondition (K : Kernel) (hK : K.succeeds) (cache_size num_buffers : Nat)
    (calls : List Call) (m0 m : CachedAioDirectWriter)
    (h0 : construct K cache_size num_buffers = some m0) (hr : run K calls m0 = some m) :
    ∃ m', flush K m = .ok m' ∧
      m'.submitted = m.submitted ++
        (if 0 < m.cur_off then [⟨m.file_offset, m.cur_off, (curbuf m).take m.cur_off⟩]
         else []) ∧
      m'.cur_off = 0 ∧ (∀ l ∈ m'.pending_requests, l = []) ∧
      m'.file_offset = bytes_written calls := by
  have hi0 := construct_inv h0
  have hi := (run_evolves K _ m0 m hr).inv hi0
  obtain ⟨m', h'⟩ := flush_succeeds hK hi
  obtain ⟨_, hc, hp, hs, hf, _, _⟩ := flush_ok h'
  have he := flush_evolves K m
  rw [h'] at he
  have hi' := he.inv hi
  refine ⟨m', h', hs, hc, fun l hl => ?_, ?_⟩
  · obtain ⟨j, hj⟩ := List.mem_iff_getElem?.mp hl
    have hjl : j < m'.pending_requests.length := by
      by_contra hcon
      rw [List.getElem?_eq_none (by omega)] at hj
      cases hj
    have := hp j (by rw [← he.num_buffers_eq, ← hi'.npend]; exact hjl)
    rw [hj] at this
    exact Option.some.inj this
  · have hst := run_stream hK hi0 hr
    rw [(construct_stream h0).1, List.nil_append] at hst
    have hl := stream_length hi
    rw [hst] at hl
    rw [hf, bytes_written, hl]

/-- Witness of C7: `flush` after three bytes written through two one-byte
buffers. -/
theorem C7_flush_postcondition_witness :
    okKernel.succeeds ∧ construct okKernel 1 2 = some ⟨3, 1, 2, [[0], [0]], 0, 0, 0, [[], []], [], [], 0, 0⟩ ∧
    run okKernel [.write [1, 2, 3]] ⟨3, 1, 2, [[0], [0]], 0, 0, 0, [[], []], [], [], 0, 0⟩
      = some after_three_bytes ∧
    ∃ m', flush okKernel after_three_bytes = .ok m' ∧
      m'.submitted = after_three_bytes.submitted ++
        (if 0 < after_three_bytes.cur_off then
          [⟨after_three_bytes.file_offset, after_three_bytes.cur_off,
            (curbuf after_three_bytes).take after_three_bytes.cur_off⟩]
         else []) ∧
      m'.cur_off = 0 ∧ (∀ l ∈ m'.pending_requests, l = []) ∧
      m'.file_offset = bytes_written [.write [1, 2, 3]] :=
  ⟨okKernel_succeeds, rfl, rfl,
    C7_flush_postcondition okKernel okKernel_succeeds 1 2 [.write [1, 2, 3]] _ _ rfl rfl⟩

/-! ## The layout of the submissions -/

theorem total_length_const {c : Nat} {log : List Submission}
    (h : ∀ s ∈ log, s.length = c) : total_length log = log.length * c := by
  induction log with
  | nil => simp [total_length]
  | cons s rest ih =>
    have e : total_length (s :: rest) = s.length + total_length rest := by simp [total_length]
    rw [e, h s (List.mem_cons_self _ _), ih fun t ht => h t (List.mem_cons_of_mem _ ht),
      List.length_cons, Nat.succ_mul, Nat.add_comm]

theorem Contig_offset {off : Nat} {log : List Submission} (h : Contig off log) (k : Nat)
    (hk : k < log.length) : log[k].offset = off + total_length (log.take k) := by
  induction log generalizing off k with
  | nil => simp at hk
  | cons s rest ih =>
    obtain ⟨h1, _, h3⟩ := h
    cases k with
    | zero => simp [h1, total_length]
    | succ k =>
      have := ih h3 k (by simpa using hk)
      simp only [List.getElem_cons_succ, List.take_succ_cons, this]
      simp [total_length, Nat.add_assoc]

theorem Contig_pairwise {off : Nat} {log : List Submission} (h : Contig off log)
    (hpos : ∀ s ∈ log, 0 < s.length) :
    log.Pairwise (fun a b => a.offset < b.offset) ∧ ∀ s ∈ log, off ≤ s.offset := by
  induction log generalizing off with
  | nil => simp
  | cons s rest ih =>
    obtain ⟨h1, _, h3⟩ := h
    obtain ⟨ih1, ih2⟩ := ih h3 fun t ht => hpos t (List.mem_cons_of_mem _ ht)
    have hs := hpos s (List.mem_cons_self _ _)
    refine ⟨List.pairwise_cons.mpr ⟨fun t ht => ?_, ih1⟩, fun t ht => ?_⟩
    · have := ih2 t ht
      omega
    · rcases List.mem_cons.mp ht with e | e
      · rw [e, h1]
      · have := ih2 t e
        omega

/-- An iteration of `write` submits only full buffers and leaves the
current buffer non-empty. -/
theorem write_body_full {K : Kernel} {m m' : CachedAioDirectWriter} {data rest : List Byte}
    (hi : Inv m) (hc : 0 < m.cache_size) (hd : data ≠ [])
    (h : write_body K m data = (.ok m', rest))
    (hfull : ∀ s ∈ m.submitted, s.length = m.cache_size) :
    (∀ s ∈ m'.submitted, s.length = m'.cache_size) ∧ 0 < m'.cur_off := by
  obtain ⟨he, _, hp⟩ := write_body_stream hi h
  refine ⟨?_, (hp hc hd).2⟩
  obtain ⟨m1, buffer, hpre, _, rfl, _⟩ := write_body_ok h
  show ∀ s ∈ m1.submitted, s.length = m1.cache_size
  obtain ⟨he1, _, _⟩ := write_pre_ok hi hpre
  rw [he1.cache_size_eq]
  split at hpre
  · rename_i hfullbuf
    obtain ⟨b, _, hs, _⟩ := submit_current_buffer_ok hpre (by omega)
    rw [hs]
    intro s hs'
    rcases List.mem_append.mp hs' with e | e
    · exact hfull s e
    · rw [List.mem_singleton.mp e]
      exact hfullbuf
  · cases hpre
    exact hfull

/-- The loop of `write` submits only full buffers, and leaves the current
buffer empty only if nothing was ever submitted. -/
theorem write_loop_full {K : Kernel} {fuel : Nat} {m m' : CachedAioDirectWriter}
    {data : List Byte} (hi : Inv m) (hc : 0 < m.cache_size)
    (h : write_loop K fuel m data = .ok m')
    (hfull : ∀ s ∈ m.submitted, s.length = m.cache_size)
    (hempty : m.cur_off = 0 → m.submitted = []) :
    (∀ s ∈ m'.submitted, s.length = m'.cache_size) ∧ (m'.cur_off = 0 → m'.submitted = []) := by
  induction fuel generalizing m data with
  | zero =>
    cases data with
    | nil => cases h; exact ⟨hfull, hempty⟩
    | cons d ds => cases h
  | succ fuel ih =>
    cases data with
    | nil => cases h; exact ⟨hfull, hempty⟩
    | cons d ds =>
      rw [write_loop] at h
      rcases hw : write_body K m (d :: ds) with ⟨r, rest⟩
      rw [hw] at h
      cases r with
      | ok m1 =>
        obtain ⟨he, _, _⟩ := write_body_stream hi hw
        obtain ⟨hf1, hpos⟩ := write_body_full hi hc (by simp) hw hfull
        exact ih (he.inv hi) (by rw [he.cache_size_eq]; exact hc) h hf1 (fun h0 => by omega)
      | threw e m1 => cases h
      | undefined => cases h
      | timeout => cases h

theorem run_writes_full {K : Kernel} (hK : K.succeeds) {ds : List (List Byte)}
    {m m' : CachedAioDirectWriter} (hi : Inv m) (hc : 0 < m.cache_size)
    (h : run K (ds.map Call.write) m = some m')
    (hfull : ∀ s ∈ m.submitted, s.length = m.cache_size)
    (hempty : m.cur_off = 0 → m.submitted = []) :
    (∀ s ∈ m'.submitted, s.length = m'.cache_size) ∧ (m'.cur_off = 0 → m'.submitted = []) := by
  induction ds generalizing m with
  | nil =>
    simp only [List.map_nil, run, Option.some.injEq] at h
    subst h
    exact ⟨hfull, hempty⟩
  | cons d ds ih =>
    simp only [List.map_cons] at h
    unfold run at h
    split at h
    · cases h
    · rename_i m1 h1
      have hok := Result.NoThrow_state (step_noThrow hK _ m) h1
      have he := Result.All_state (step_evolves K _ m) h1
      obtain ⟨hf1, he1⟩ := write_loop_full hi hc hok hfull hempty
      exact ih (he.inv hi) (by rw [he.cache_size_eq]; exact hc) h hf1 he1

theorem ceil_div_eq {q c r : Nat} (hr : 0 < r) (hrc : r ≤ c) :
    ceil_div (q * c + r) c = q + 1 := by
  unfold ceil_div
  apply Nat.div_eq_of_lt_le
  · rw [Nat.succ_mul]; omega
  · rw [Nat.succ_mul, Nat.succ_mul]; omega

/-- The layout of a gap-free log of full buffers followed by one last,
possibly shorter, non-empty buffer. -/
theorem layout_full {c : Nat} (A : List Submission) (s : Submission)
    (hA : ∀ t ∈ A, t.length = c) (hs : 0 < s.length) (hsc : s.length ≤ c)
    (hcontig : Contig 0 (A ++ [s])) :
    (A ++ [s]).length = ceil_div (A.length * c + s.length) c ∧
    ∀ k (hk : k < (A ++ [s]).length),
      (A ++ [s])[k].offset = k * c ∧
      (A ++ [s])[k].length =
        if k + 1 < (A ++ [s]).length then c
        else A.length * c + s.length - (ceil_div (A.length * c + s.length) c - 1) * c := by
  have hcd := @ceil_div_eq A.length c s.length hs hsc
  refine ⟨by rw [hcd]; simp, fun k hk => ?_⟩
  have hk' : k ≤ A.length := by simp at hk; omega
  constructor
  · rw [Contig_offset hcontig k hk, Nat.zero_add, List.take_append_of_le_length hk',
      total_length_const (fun t ht => hA t (List.mem_of_mem_take ht)), List.length_take,
      Nat.min_eq_left hk']
  · rw [hcd]
    rcases Nat.lt_or_ge k A.length with h1 | h1
    · rw [if_pos (by simp; omega), List.getElem_append_left h1]
      exact hA _ (List.getElem_mem _)
    · have e : k = A.length := by omega
      subst e
      rw [if_neg (by simp)]
      simp

/-- C4. Submission layout: on a writer constructed with `cache_size = c > 0`
and at least one buffer, with every kernel call succeeding, a sequence of
writes totalling `T` bytes followed by `close` issues exactly `ceil(T / c)`
submissions; the k-th is at offset `k * c`; each but the last has length
`c` and the last has length `T - (ceil(T / c) - 1) * c`; the lengths sum to
`T`, the offsets are strictly increasing, and `file_offset` ends at `T`. -/
theorem C4_submission_layout (K : Kernel) (hK : K.succeeds) (c num_buffers : Nat)
    (hc : 0 < c) (hn : 1 ≤ num_buffers) (m0 : CachedAioDirectWriter)
    (h0 : construct K c num_buffers = some m0) (ds : List (List Byte)) :
    ∃ m, run K (ds.map Call.write ++ [Call.close]) m0 = some m ∧
      m.submitted.length = ceil_div (ds.map List.length).sum c ∧
      (∀ k (hk : k < m.submitted.length),
        m.submitted[k].offset = k * c ∧
        m.submitted[k].length =
          if k + 1 < m.submitted.length then c
          else (ds.map List.length).sum - (ceil_div (ds.map List.length).sum c - 1) * c) ∧
      total_length m.submitted = (ds.map List.length).sum ∧
      m.submitted.Pairwise (fun a b => a.offset < b.offset) ∧
      m.file_offset = (ds.map List.length).sum := by
  have hi0 := construct_inv h0
  obtain ⟨hs0, hc0, hn0, hsub0, hcur0⟩ := construct_stream h0
  obtain ⟨m1, h1⟩ := run_writes_succeeds hK ds hi0 (by omega) (by omega)
  have he1 := run_evolves K _ m0 m1 h1
  have hi1 := he1.inv hi0
  have hc1 : m1.cache_size = c := by rw [he1.cache_size_eq, hc0]
  obtain ⟨hfull, hempty⟩ := run_writes_full hK hi0 (by omega) h1
    (by rw [hsub0]; simp) (fun _ => hsub0)
  rw [hc1] at hfull
  have hT : m1.file_offset + m1.cur_off = (ds.map List.length).sum := by
    have hst := run_stream hK hi0 h1
    rw [hs0, List.nil_append, written_map_write] at hst
    rw [← stream_length hi1, hst, List.length_flatten]
  obtain ⟨m2, h2⟩ := close_succeeds hK hi1
  have hrun : run K (ds.map Call.write ++ [Call.close]) m0 = some m2 := by
    rw [run_append, h1]
    simp [run, step, h2, Result.state?]
  have hi2 := (run_evolves K _ m0 m2 hrun).inv hi0
  obtain ⟨mf, hf, _, hm2⟩ := close_ok h2
  obtain ⟨_, _, _, hsub, hoff, _, _⟩ := flush_ok hf
  have hsub2 : m2.submitted = mf.submitted := by rw [hm2]
  have hoff2 : m2.file_offset = mf.file_offset := by rw [hm2]
  have hfo1 : m1.file_offset = m1.submitted.length * c := by
    rw [hi1.off_sum, total_length_const hfull]
  refine ⟨m2, hrun, ?_⟩
  have hcontig := hi2.contig
  rw [hsub2, hsub] at hcontig
  have htot : total_length m2.submitted = (ds.map List.length).sum := by
    rw [← hi2.off_sum, hoff2, hoff, hT]
  rw [← hT]
  by_cases hcur : 0 < m1.cur_off
  · rw [if_pos hcur] at hsub hcontig
    have hle : m1.cur_off ≤ c := by rw [← hc1]; exact hi1.cur_le
    obtain ⟨hl, hk⟩ := layout_full m1.submitted _ hfull hcur hle hcontig
    simp only [hsub2, hsub]
    dsimp only at hl hk
    rw [← hfo1] at hl hk
    refine ⟨hl, hk, ?_, ?_, ?_⟩
    · rw [← hsub, ← hsub2, htot, ← hT]
    · refine (Contig_pairwise hcontig fun t ht => ?_).1
      rcases List.mem_append.mp ht with e | e
      · rw [hfull t e]; exact hc
      · rw [List.mem_singleton.mp e]; exact hcur
    · rw [hoff2, hoff, hfo1]
  · have hz : m1.cur_off = 0 := by omega
    have hnil := hempty hz
    rw [if_neg hcur, hnil] at hsub
    simp only [hsub2, hsub]
    have hfo0 : m1.file_offset = 0 := by rw [hfo1, hnil]; simp
    refine ⟨?_, fun k hk => absurd hk (by simp), ?_, by simp, ?_⟩
    · rw [hfo0, hz]
      unfold ceil_div
      simp only [List.append_nil, List.length_nil, Nat.zero_add]
      exact (Nat.div_eq_of_lt (by omega)).symm
    · simp [total_length, hfo0, hz]
    · rw [hoff2, hoff]

/-- Witness of C4, the scenario of the specification: `cache_size = 1024`,
two buffers, one write of 1500 bytes, then `close`: one submission of 1024
bytes at offset 0, one of 476 bytes at offset 1024, file size 1500. -/
theorem C4_submission_layout_witness :
    okKernel.succeeds ∧ 0 < 1024 ∧ 1 ≤ 2 ∧
    ∃ m0, construct okKernel 1024 2 = some m0 ∧
      ∃ m, run okKernel ([List.replicate 1500 7].map Call.write ++ [Call.close]) m0 = some m ∧
        m.submitted.map (fun s => (s.offset, s.length)) = [(0, 1024), (1024, 476)] ∧
        m.file_offset = 1500 := by
  have key : ∀ (d : List Byte) (m0 : CachedAioDirectWriter), d.length = 1500 →
      construct okKernel 1024 2 = some m0 →
      ∃ m, run okKernel ([d].map Call.write ++ [Call.close]) m0 = some m ∧
        m.submitted.map (fun s => (s.offset, s.length)) = [(0, 1024), (1024, 476)] ∧
        m.file_offset = 1500 := by
    intro d m0 hd h0
    obtain ⟨m, hrun, hlen, hk, _, _, hfo⟩ :=
      C4_submission_layout okKernel okKernel_succeeds 1024 2 (by decide) (by decide) m0 h0 [d]
    have hT : ([d].map List.length).sum = 1500 := by
      simp only [List.map_cons, List.map_nil, List.sum_cons, List.sum_nil, hd, Nat.add_zero]
    have hcd : ceil_div 1500 1024 = 2 := by decide
    rw [hT] at hlen hk hfo
    rw [hcd] at hlen hk
    refine ⟨m, hrun, ?_, hfo⟩
    match hs : m.submitted, hlen, hk with
    | [a, b], _, hk =>
      have h0 := hk 0 (by simp)
      have h1 := hk 1 (by simp)
      simp at h0 h1
      simp [h0, h1]
  exact ⟨okKernel_succeeds, by decide, by decide, _, rfl,
    key _ _ (List.length_replicate 1500 7) rfl⟩

/-! ## Splitting a write -/

theorem Result.bind_ok (r : Result) : r.bind Result.ok = r := by
  cases r <;> rfl

theorem write_body_eq {K : Kernel} {m m1 : CachedAioDirectWriter} {buffer : List Byte}
    (hpre : (if m.cur_off = m.cache_size then submit_current_buffer K m else Result.ok m)
      = .ok m1)
    (hb : m1.cache_buffers[m1.current_buffer]? = some buffer) (data : List Byte) :
    write_body K m data =
      (.ok { m1 with
             cache_buffers := m1.cache_buffers.set m1.current_buffer
               (memcpy buffer m1.cur_off
                 (data.take (min (m1.cache_size - m1.cur_off) data.length)))
             cur_off := m1.cur_off + min (m1.cache_size - m1.cur_off) data.length },
       data.drop (min (m1.cache_size - m1.cur_off) data.length)) := by
  unfold write_body
  rw [hpre]
  simp only [hb]

theorem write_body_nobuf {K : Kernel} {m m1 : CachedAioDirectWriter}
    (hpre : (if m.cur_off = m.cache_size then submit_current_buffer K m else Result.ok m)
      = .ok m1)
    (hb : m1.cache_buffers[m1.current_buffer]? = none) (data : List Byte) :
    write_body K m data = (.undefined, data) := by
  unfold write_body
  rw [hpre]
  simp only [hb]

theorem write_body_pre_fail {K : Kernel} {m : CachedAioDirectWriter} {r : Result}
    (hpre : (if m.cur_off = m.cache_size then submit_current_buffer K m else Result.ok m) = r)
    (hr : ∀ m1, r ≠ .ok m1) (data : List Byte) : write_body K m data = (r, data) := by
  unfold write_body
  rw [hpre]
  cases r with
  | ok m1 => exact absurd rfl (hr m1)
  | threw e m1 => rfl
  | undefined => rfl
  | timeout => rfl

/-- The function `write` unfolded by one iteration, without reference to
the iteration budget. -/
theorem write_unfold {K : Kernel} {m : CachedAioDirectWriter} {data : List Byte}
    (hi : Inv m) (hc : 0 < m.cache_size) (hd : data ≠ []) :
    write K m data =
      match write_body K m data with
      | (.ok m1, rest) => write K m1 rest
      | (r, _) => r := by
  cases data with
  | nil => exact absurd rfl hd
  | cons x xs =>
    unfold write
    rw [List.length_cons, write_loop.eq_3]
    rcases hw : write_body K m (x :: xs) with ⟨r, rest⟩
    cases r with
    | ok m1 =>
      obtain ⟨he, _, hp⟩ := write_body_stream hi hw
      have hlt := (hp hc hd).1
      have hi1 := he.inv hi
      have hc1 : 0 < m1.cache_size := by rw [he.cache_size_eq]; exact hc
      exact write_loop_fuel_le (write_loop_terminates hi1 hc1 (Nat.le_refl _))
        (by simp at hlt ⊢; omega)
    | threw e m1 => rfl
    | undefined => rfl
    | timeout => rfl

theorem write_split {K : Kernel} (b : List Byte) (n : Nat) :
    ∀ (a : List Byte) (m : CachedAioDirectWriter), a.length ≤ n → Inv m → 0 < m.cache_size →
      write K m (a ++ b) = (write K m a).bind fun m1 => write K m1 b := by
  induction n with
  | zero =>
    intro a m ha _ _
    have : a = [] := List.length_eq_zero.mp (by omega)
    subst this
    rfl
  | succ n ih =>
    intro a m ha hi hc
    rcases a with _ | ⟨x, xs⟩
    · rfl
    rcases b with _ | ⟨y, ys⟩
    · rw [List.append_nil]
      exact (Result.bind_ok _).symm
    rw [write_unfold hi hc (by simp), write_unfold hi hc (List.cons_ne_nil x xs)]
    rcases hpre : (if m.cur_off = m.cache_size then submit_current_buffer K m
      else Result.ok m) with m1 | ⟨e, mt⟩ | _ | _
    rotate_left
    · rw [write_body_pre_fail hpre (by simp), write_body_pre_fail hpre (by simp)]
      rfl
    · rw [write_body_pre_fail hpre (by simp), write_body_pre_fail hpre (by simp)]
      rfl
    · rw [write_body_pre_fail hpre (by simp), write_body_pre_fail hpre (by simp)]
      rfl
    obtain ⟨he1, _, hlt⟩ := write_pre_ok hi hpre
    have hi1 := he1.inv hi
    have hlt1 := hlt hc
    rcases hb : m1.cache_buffers[m1.current_buffer]? with _ | buffer
    · rw [write_body_nobuf hpre hb, write_body_nobuf hpre hb]
      rfl
    have hbl : buffer.length = m1.cache_size := hi1.buf_len _ (List.getElem?_mem hb)
    have hcur : m1.current_buffer < m1.cache_buffers.length := by
      by_contra hcon
      rw [List.getElem?_eq_none (by omega)] at hb
      cases hb
    have hwa := write_body_eq hpre hb (x :: xs)
    have hwab := write_body_eq hpre hb (x :: xs ++ y :: ys)
    have hia := (write_body_stream hi hwa).1.inv hi
    rw [hwa, hwab]
    dsimp only
    rcases Nat.lt_or_ge (x :: xs).length (m1.cache_size - m1.cur_off) with hcase | hcase
    · -- the whole of the first part fits the current buffer
      have e1 : min (m1.cache_size - m1.cur_off) (x :: xs).length = (x :: xs).length :=
        Nat.min_eq_right (Nat.le_of_lt hcase)
      have e2 : min (m1.cache_size - m1.cur_off) (x :: xs ++ y :: ys).length =
          (x :: xs).length + min (m1.cache_size - m1.cur_off - (x :: xs).length)
            (y :: ys).length := by
        rw [List.length_append]; omega
      rw [e1] at hia ⊢
      rw [e2, List.take_append, List.drop_append, List.drop_length, List.take_length]
      have hnil : write K
          { m1 with
            cache_buffers := m1.cache_buffers.set m1.current_buffer
              (memcpy buffer m1.cur_off (x :: xs))
            cur_off := m1.cur_off + (x :: xs).length } [] = .ok _ := rfl
      rw [hnil]
      simp only [Result.bind]
      rw [List.take_length] at hia
      rw [write_unfold hia (by rw [← he1.cache_size_eq] at hc; exact hc) (List.cons_ne_nil y ys)]
      have hpre2 : (if m1.cur_off + (x :: xs).length = m1.cache_size then
          submit_current_buffer K
            { m1 with
              cache_buffers := m1.cache_buffers.set m1.current_buffer
                (memcpy buffer m1.cur_off (x :: xs))
              cur_off := m1.cur_off + (x :: xs).length }
          else Result.ok
            { m1 with
              cache_buffers := m1.cache_buffers.set m1.current_buffer
                (memcpy buffer m1.cur_off (x :: xs))
              cur_off := m1.cur_off + (x :: xs).length }) = .ok _ :=
        if_neg (by omega)
      have hb2 : (m1.cache_buffers.set m1.current_buffer
          (memcpy buffer m1.cur_off (x :: xs)))[m1.current_buffer]? =
            some (memcpy buffer m1.cur_off (x :: xs)) := List.getElem?_set_self hcur
      rw [write_body_eq hpre2 hb2]
      dsimp only
      rw [List.set_set, memcpy_memcpy (by omega), Nat.add_assoc, Nat.sub_add_eq]
    · -- the first part fills the current buffer
      have e1 : min (m1.cache_size - m1.cur_off) (x :: xs).length =
          m1.cache_size - m1.cur_off := Nat.min_eq_left hcase
      have e2 : min (m1.cache_size - m1.cur_off) (x :: xs ++ y :: ys).length =
          m1.cache_size - m1.cur_off := by
        rw [List.length_append]; omega
      rw [e1, e2, List.take_append_of_le_length hcase, List.drop_append_of_le_length hcase]
      rw [e1] at hia
      exact ih _ _ (by simp only [List.length_drop, List.length_cons] at ha ⊢; omega) hia
        (by rw [← he1.cache_size_eq] at hc; exact hc)

theorem foldl_write_bind (K : Kernel) (ds : List (List Byte)) (r : Result) :
    ds.foldl (fun r d => r.bind fun m1 => write K m1 d) r =
      r.bind fun m => ds.foldl (fun r d => r.bind fun m1 => write K m1 d) (.ok m) := by
  induction ds generalizing r with
  | nil => exact (Result.bind_ok r).symm
  | cons d ds ih =>
    simp only [List.foldl_cons]
    rw [ih]
    cases r with
    | ok m => exact (ih _).symm
    | threw e m => rfl
    | undefined => rfl
    | timeout => rfl

theorem write_flatten {K : Kernel} (ds : List (List Byte)) (m : CachedAioDirectWriter)
    (hi : Inv m) (hc : 0 < m.cache_size) :
    write K m ds.flatten = ds.foldl (fun r d => r.bind fun m1 => write K m1 d) (.ok m) := by
  induction ds generalizing m with
  | nil => rfl
  | cons d ds ih =>
    rw [List.flatten_cons, write_split _ d.length d m (Nat.le_refl _) hi hc, List.foldl_cons,
      foldl_write_bind]
    have he := write_evolves K m d
    simp only [Result.bind]
    cases hw : write K m d with
    | ok m1 =>
      rw [hw] at he
      exact ih m1 (he.inv hi) (by rw [he.cache_size_eq]; exact hc)
    | threw e m1 => rfl
    | undefined => rfl
    | timeout => rfl

/-- C3. Splitting transparency: from every reachable state of a writer with
`cache_size > 0`, whatever the kernel answers, one call `write(a ++ b)` ends
as `write(a)` followed by `write(b)` does: the same outcome and the same
state, hence the same fields, buffer contents, pending lists and log of
submissions; and so one write of the concatenation of any list of pieces
ends as the writes of the pieces one after the other. -/
theorem C3_splitting_transparency (K : Kernel) (m : CachedAioDirectWriter)
    (hm : Reachable K m) (hc : 0 < m.cache_size) (a b : List Byte) :
    write K m (a ++ b) = ((write K m a).bind fun m1 => write K m1 b) ∧
    ∀ ds : List (List Byte),
      write K m ds.flatten = ds.foldl (fun r d => r.bind fun m1 => write K m1 d) (.ok m) :=
  ⟨write_split b a.length a m (Nat.le_refl _) hm.inv hc,
    fun ds => write_flatten ds m hm.inv hc⟩

/-- Witness of C3: three more bytes written at once or as one byte and
then two, after three bytes through two one-byte buffers. -/
theorem C3_splitting_transparency_witness :
    Reachable okKernel after_three_bytes ∧ 0 < after_three_bytes.cache_size ∧
    write okKernel after_three_bytes ([4] ++ [5, 6]) =
      ((write okKernel after_three_bytes [4]).bind fun m1 => write okKernel m1 [5, 6]) :=
  ⟨after_three_bytes_reachable, by decide,
    (C3_splitting_transparency okKernel after_three_bytes after_three_bytes_reachable
      (by decide) [4] [5, 6]).1⟩

/-! ## Completions, refills and buffers in flight -/

/-- C9, as the code has it. With requests pending on the buffer,
`wait_for_buffer` throws exactly when `io_getevents` returns a count other
than the number of requests waited for, and then leaves the pending list
as it was; when the count matches it returns normally with the list
emptied, whatever results the returned events report. -/
theorem C9_wait_for_buffer_checks_count (K : Kernel) (i : Nat) (m : CachedAioDirectWriter)
    (reqs : List Iocb) (hp : m.pending_requests[i]? = some reqs) (hne : reqs ≠ []) :
    ((K.io_getevents m.n_getevents reqs.length).1 ≠ (reqs.length : Int) →
      wait_for_buffer K i m =
        .threw (.io_getevents_failed (K.io_getevents m.n_getevents reqs.length).1)
          { m with n_getevents := m.n_getevents + 1 }) ∧
    ((K.io_getevents m.n_getevents reqs.length).1 = (reqs.length : Int) →
      wait_for_buffer K i m =
        .ok { m with n_getevents := m.n_getevents + 1
                     pending_requests := m.pending_requests.set i [] }) := by
  have he : reqs.isEmpty = false := by
    cases reqs with
    | nil => exact absurd rfl hne
    | cons r rs => rfl
  constructor
  · intro h
    unfold wait_for_buffer
    simp only [hp, he, Bool.false_eq_true, if_false]
    rw [if_pos h]
  · intro h
    unfold wait_for_buffer
    simp only [hp, he, Bool.false_eq_true, if_false]
    rw [if_neg (by simpa using h)]

/-- Witness of C9: on the interrupted kernel the wait on buffer 0 throws
and keeps the request pending. -/
theorem C9_wait_for_buffer_checks_count_witness :
    after_three_bytes.pending_requests[0]? = some [⟨3, 0, 1, 0⟩] ∧
    ([⟨3, 0, 1, 0⟩] : List Iocb) ≠ [] ∧
    (interruptedKernel.io_getevents after_three_bytes.n_getevents 1).1 ≠ 1 ∧
    wait_for_buffer interruptedKernel 0 after_three_bytes =
      .threw (.io_getevents_failed (-4)) { after_three_bytes with n_getevents := 1 } :=
  ⟨rfl, by decide, by decide,
    (C9_wait_for_buffer_checks_count interruptedKernel 0 after_three_bytes [⟨3, 0, 1, 0⟩] rfl
      (by decide)).1 (by decide)⟩

/-- Counterexample to C9 as stated: the one request pending on buffer 0
completes with the I/O error -5 (`-EIO`) instead of the 1 byte submitted,
`io_getevents` returns the count 1, and `wait_for_buffer` returns normally
and empties the pending list. -/
theorem C9_counterexample :
    Reachable errorKernel after_three_bytes ∧
    after_three_bytes.pending_requests[0]? = some [⟨3, 0, 1, 0⟩] ∧
    errorKernel.io_getevents after_three_bytes.n_getevents 1 = (1, [⟨-5⟩]) ∧
    wait_for_buffer errorKernel 0 after_three_bytes =
      .ok { after_three_bytes with pending_requests := [[], [⟨3, 1, 1, 1⟩]], n_getevents := 1 } ∧
    ¬ (∀ (K : Kernel) (i : Nat) (m : CachedAioDirectWriter) (reqs : List Iocb),
        Reachable K m → m.pending_requests[i]? = some reqs → reqs ≠ [] →
        ((K.io_getevents m.n_getevents reqs.length).1 ≠ (reqs.length : Int) ∨
          ∃ p ∈ List.zip reqs (K.io_getevents m.n_getevents reqs.length).2,
            p.2.res ≠ (p.1.nbytes : Int)) →
        ∃ e m', wait_for_buffer K i m = .threw e m') := by
  have hr : Reachable errorKernel after_three_bytes := ⟨1, 2, [.write [1, 2, 3]], _, rfl, rfl⟩
  refine ⟨hr, rfl, rfl, rfl, fun h => ?_⟩
  obtain ⟨e, m', hw⟩ := h errorKernel 0 after_three_bytes [⟨3, 0, 1, 0⟩] hr rfl (by decide)
    (Or.inr ⟨(⟨3, 0, 1, 0⟩, ⟨-5⟩), by decide, by decide⟩)
  have hok : wait_for_buffer errorKernel 0 after_three_bytes =
      .ok { after_three_bytes with pending_requests := [[], [⟨3, 1, 1, 1⟩]], n_getevents := 1 } :=
    rfl
  rw [hok] at hw
  cases hw

/-- C2, the code at the failing input: two one-byte buffers, one `write`
of the bytes 1, 2, 3, every kernel call succeeding. When
`submit_current_buffer` returns from the second submission, the buffer that
has become current, buffer 0, still has the request of the first
submission pending; `write` then copies the byte 3 into it, and returns
with that request still pending. -/
theorem C2_refill_while_pending :
    construct okKernel 1 2 = some ⟨3, 1, 2, [[0], [0]], 0, 0, 0, [[], []], [], [], 0, 0⟩ ∧
    run okKernel [.write [1, 2]] ⟨3, 1, 2, [[0], [0]], 0, 0, 0, [[], []], [], [], 0, 0⟩ =
      some ⟨3, 1, 2, [[1], [2]], 1, 1, 1, [[⟨3, 0, 1, 0⟩], []], [⟨0, 1, [1]⟩], [], 1, 0⟩ ∧
    submit_current_buffer okKernel
        ⟨3, 1, 2, [[1], [2]], 1, 1, 1, [[⟨3, 0, 1, 0⟩], []], [⟨0, 1, [1]⟩], [], 1, 0⟩ =
      .ok ⟨3, 1, 2, [[1], [2]], 0, 2, 0, [[⟨3, 0, 1, 0⟩], [⟨3, 1, 1, 1⟩]],
        [⟨0, 1, [1]⟩, ⟨1, 1, [2]⟩], [], 2, 0⟩ ∧
    run okKernel [.write [1, 2, 3]] ⟨3, 1, 2, [[0], [0]], 0, 0, 0, [[], []], [], [], 0, 0⟩ =
      some after_three_bytes ∧
    after_three_bytes.current_buffer = 0 ∧
    after_three_bytes.cache_buffers[after_three_bytes.current_buffer]? = some [3] ∧
    after_three_bytes.pending_requests[after_three_bytes.current_buffer]? =
      some [⟨3, 0, 1, 0⟩] :=
  ⟨rfl, rfl, rfl, rfl, rfl, rfl, rfl⟩

/-- C10, the code at the failing input: two one-byte buffers, one `write`
of the bytes 1, 2, 3, every kernel call succeeding. Both buffers, that is
`num_buffers` of them and not `num_buffers - 1`, have a non-empty pending
list when `write` returns, the one being filled included. -/
theorem C10_every_buffer_in_flight :
    run okKernel [.write [1, 2, 3]] ⟨3, 1, 2, [[0], [0]], 0, 0, 0, [[], []], [], [], 0, 0⟩ =
      some after_three_bytes ∧
    after_three_bytes.num_buffers = 2 ∧
    (after_three_bytes.pending_requests.filter fun l => !l.isEmpty).length = 2 ∧
    ¬ (after_three_bytes.pending_requests.filter fun l => !l.isEmpty).length ≤
      after_three_bytes.num_buffers - 1 :=
  ⟨rfl, rfl, rfl, by decide⟩

/-! ## The cached reader -/

theorem ifstream_read_eq {file : List Byte} {pos k : Nat} (h : pos + k ≤ file.length) :
    ifstream_read file pos k = some ((file.drop pos).take k) := by
  unfold ifstream_read
  rw [if_pos h]

/-- What a successful `open` builds: the cache holds the first
`min(cacheSize, |file|)` bytes. -/
theorem open_eq {file : List Byte} {cacheSize : Nat} (hc : 0 < cacheSize) :
    cached_ifstream.open file cacheSize =
      some { file := file, pos := min cacheSize file.length,
             cache_size := min cacheSize file.length,
             cache_buf := file.take (min cacheSize file.length), cur_off := 0,
             fsize := file.length } := by
  unfold cached_ifstream.open
  rw [if_neg (by omega)]
  dsimp only
  rw [ifstream_read_eq (by omega)]
  simp

theorem open_inv {file : List Byte} {cacheSize : Nat} {s : cached_ifstream}
    (h : cached_ifstream.open file cacheSize = some s) :
    RInv s ∧ logical_pos s = 0 ∧ s.file = file := by
  have hc : 0 < cacheSize := by
    rcases Nat.eq_zero_or_pos cacheSize with h0 | h0
    · simp [cached_ifstream.open, h0] at h
    · exact h0
  rw [open_eq hc] at h
  cases h
  refine ⟨⟨rfl, Nat.zero_le _, ?_, ?_, ?_, ?_⟩, ?_, rfl⟩
  · simp only [List.length_take]; omega
  · exact Nat.min_le_right _ _
  · exact Nat.le_refl _
  · simp [logical_pos]
  · simp [logical_pos]

/-- The function `read` on a state that satisfies the invariant: it
returns the next `n_bytes` bytes of the file when that many are left, and
raises, changing nothing, when fewer are. -/
theorem read_spec {s : cached_ifstream} (hi : RInv s) (n_bytes : Nat) :
    (n_bytes ≤ s.fsize - logical_pos s →
      ∃ s', s.read n_bytes = .ok ((s.file.drop (logical_pos s)).take n_bytes) s' ∧ RInv s' ∧
        logical_pos s' = logical_pos s + n_bytes ∧ s'.file = s.file) ∧
    (s.fsize - logical_pos s < n_bytes → s.read n_bytes = .beyond_eof s) := by
  have h1 := hi.cur_le
  have h2 := hi.pos_le
  have h3 := hi.cached_le
  have h4 := hi.fsize_eq
  have hL : logical_pos s = s.pos - (s.cache_size - s.cur_off) := rfl
  by_cases hfit : n_bytes ≤ s.cache_size - s.cur_off
  · -- case 1: the cache contains all the data
    constructor
    · intro _
      refine ⟨{ s with cur_off := s.cur_off + n_bytes }, ?_, ?_, ?_, rfl⟩
      · unfold cached_ifstream.read
        rw [if_pos hfit, hi.cached, List.take_take, Nat.min_eq_left hfit]
      · refine ⟨h4, by show s.cur_off + n_bytes ≤ s.cache_size; omega, hi.buf_len, h2,
          by show s.cache_size - (s.cur_off + n_bytes) ≤ s.pos; omega, ?_⟩
        show s.cache_buf.drop (s.cur_off + n_bytes) =
          (s.file.drop (s.pos - (s.cache_size - (s.cur_off + n_bytes)))).take
            (s.cache_size - (s.cur_off + n_bytes))
        rw [← List.drop_drop, hi.cached, List.drop_take, List.drop_drop, hL]
        have ea : s.cache_size - s.cur_off - n_bytes = s.cache_size - (s.cur_off + n_bytes) := by
          omega
        have eb : s.pos - (s.cache_size - s.cur_off) + n_bytes =
            s.pos - (s.cache_size - (s.cur_off + n_bytes)) := by omega
        rw [ea, eb]
      · show s.pos - (s.cache_size - (s.cur_off + n_bytes)) = _
        omega
    · intro h
      omega
  · -- case 2: the cache contains some of the data
    constructor
    · intro hn
      have hchk : ¬ n_bytes - (s.cache_size - s.cur_off) > s.fsize - s.pos := by omega
      have hrd1 := @ifstream_read_eq s.file s.pos (n_bytes - (s.cache_size - s.cur_off))
        (by omega)
      have hout : (s.cache_buf.drop s.cur_off).take (s.cache_size - s.cur_off) ++
          (s.file.drop s.pos).take (n_bytes - (s.cache_size - s.cur_off)) =
          (s.file.drop (logical_pos s)).take n_bytes := by
        rw [hi.cached, List.take_take, Nat.min_self]
        have e1 : s.pos = logical_pos s + (s.cache_size - s.cur_off) := by omega
        have e2 : n_bytes = (s.cache_size - s.cur_off) +
            (n_bytes - (s.cache_size - s.cur_off)) := by omega
        conv_rhs => rw [e2, List.take_add, List.drop_drop]
        rw [← e1]
      by_cases hleft : s.fsize - (s.pos + (n_bytes - (s.cache_size - s.cur_off))) ≥
          s.cache_size
      · have hrd2 := @ifstream_read_eq s.file
          (s.pos + (n_bytes - (s.cache_size - s.cur_off))) s.cache_size (by omega)
        refine ⟨{ s with pos := s.pos + (n_bytes - (s.cache_size - s.cur_off)) + s.cache_size
                         cache_buf := (s.file.drop
                           (s.pos + (n_bytes - (s.cache_size - s.cur_off)))).take s.cache_size
                         cur_off := 0 }, ?_, ?_, ?_, rfl⟩
        · unfold cached_ifstream.read
          rw [if_neg hfit]
          dsimp only
          rw [if_neg hchk, hrd1]
          dsimp only
          rw [if_pos hleft, hrd2, hout]
        · refine ⟨h4, Nat.zero_le _, ?_, ?_, ?_, ?_⟩
          · show ((s.file.drop _).take s.cache_size).length = s.cache_size
            simp only [List.length_take, List.length_drop]
            omega
          · show s.pos + (n_bytes - (s.cache_size - s.cur_off)) + s.cache_size ≤ s.fsize
            omega
          · show s.cache_size - 0 ≤ s.pos + (n_bytes - (s.cache_size - s.cur_off)) + s.cache_size
            omega
          · show List.drop 0 _ = (s.file.drop (s.pos + (n_bytes - (s.cache_size - s.cur_off))
              + s.cache_size - (s.cache_size - 0))).take (s.cache_size - 0)
            simp
        · show s.pos + (n_bytes - (s.cache_size - s.cur_off)) + s.cache_size
            - (s.cache_size - 0) = _
          omega
      · refine ⟨{ s with pos := s.pos + (n_bytes - (s.cache_size - s.cur_off))
                         cur_off := s.cache_size }, ?_, ?_, ?_, rfl⟩
        · unfold cached_ifstream.read
          rw [if_neg hfit]
          dsimp only
          rw [if_neg hchk, hrd1]
          dsimp only
          rw [if_neg hleft, hout]
        · refine ⟨h4, Nat.le_refl _, hi.buf_len, ?_, ?_, ?_⟩
          · show s.pos + (n_bytes - (s.cache_size - s.cur_off)) ≤ s.fsize
            omega
          · show s.cache_size - s.cache_size ≤ _
            omega
          · show s.cache_buf.drop s.cache_size = List.take (s.cache_size - s.cache_size) _
            rw [Nat.sub_self, List.take_zero, List.drop_of_length_le (by rw [hi.buf_len])]
        · show s.pos + (n_bytes - (s.cache_size - s.cur_off)) - (s.cache_size - s.cache_size)
            = _
          omega
    · intro hn
      unfold cached_ifstream.read
      rw [if_neg hfit]
      dsimp only
      rw [if_pos (by omega)]

theorem logical_pos_le {s : cached_ifstream} (hi : RInv s) : logical_pos s ≤ s.fsize := by
  have := hi.pos_le
  unfold logical_pos
  omega

theorem bytes_returned_some (b : List Byte) (outs : List (Option (List Byte))) :
    bytes_returned (some b :: outs) = b.length + bytes_returned outs := by
  simp [bytes_returned]

theorem bytes_returned_none (outs : List (Option (List Byte))) :
    bytes_returned (none :: outs) = bytes_returned outs := by
  simp [bytes_returned]

/-- A sequence of reads never makes the underlying stream fail, keeps the
invariant, and advances the logical position by the bytes returned. -/
theorem reads_spec {s : cached_ifstream} (hi : RInv s) (ns : List Nat) :
    ∃ outs s', s.reads ns = some (outs, s') ∧ RInv s' ∧ s'.file = s.file ∧
      logical_pos s' = logical_pos s + bytes_returned outs := by
  induction ns generalizing s with
  | nil => exact ⟨[], s, rfl, hi, rfl, by simp [bytes_returned]⟩
  | cons n ns ih =>
    obtain ⟨hok, herr⟩ := read_spec hi n
    rcases Nat.lt_or_ge (s.fsize - logical_pos s) n with h | h
    · obtain ⟨outs, s', h1, h2, h3, h4⟩ := ih hi
      refine ⟨none :: outs, s', ?_, h2, h3, by rw [bytes_returned_none]; exact h4⟩
      rw [cached_ifstream.reads, herr h]
      simp only [h1]
    · obtain ⟨s1, hr, hi1, hl1, hf1⟩ := hok h
      obtain ⟨outs, s', h1, h2, h3, h4⟩ := ih hi1
      refine ⟨some ((s.file.drop (logical_pos s)).take n) :: outs, s', ?_, h2, h3.trans hf1, ?_⟩
      · rw [cached_ifstream.reads, hr]
        simp only [h1]
      · rw [bytes_returned_some, h4, hl1, List.length_take, List.length_drop, ← hi.fsize_eq]
        omega

/-- Reads that together stay within the file return its bytes in order. -/
theorem reads_in_order {s : cached_ifstream} (hi : RInv s) (ns : List Nat)
    (hsum : ns.sum ≤ s.fsize - logical_pos s) :
    ∃ outs s', s.reads ns = some (outs, s') ∧ outs.length = ns.length ∧
      ∀ i (hi : i < ns.length),
        outs[i]? = some (some ((s.file.drop (logical_pos s + (ns.take i).sum)).take ns[i])) := by
  induction ns generalizing s with
  | nil => exact ⟨[], s, rfl, rfl, fun i hi => absurd hi (by simp)⟩
  | cons n ns ih =>
    rw [List.sum_cons] at hsum
    obtain ⟨s1, hr, hi1, hl1, hf1⟩ := (read_spec hi n).1 (by omega)
    have hfs : s1.fsize = s.fsize := by rw [hi1.fsize_eq, hi.fsize_eq, hf1]
    obtain ⟨outs, s', h1, h2, h3⟩ := ih hi1 (by rw [hfs, hl1]; omega)
    refine ⟨some ((s.file.drop (logical_pos s)).take n) :: outs, s', ?_, by simp [h2], ?_⟩
    · rw [cached_ifstream.reads, hr]
      simp only [h1]
    · intro i hi'
      cases i with
      | zero => simp
      | succ i =>
        have := h3 i (by simpa using hi')
        rw [hf1, hl1] at this
        simp only [List.getElem?_cons_succ, this, List.take_succ_cons, List.sum_cons,
          List.getElem_cons_succ, Nat.add_assoc]

/-- C11. For every file, every positive cache size and every state reached
by `open` and any sequence of reads (which never fails otherwise), a
`read` of `n` bytes raises the error if and only if `n` exceeds the number
of bytes of the file not yet returned by the earlier reads; and when it
raises, the state at the throw is the state before the call (same
`cur_off`, cache and stream position) and no byte has been copied. -/
theorem C11_read_fails_past_eof (file : List Byte) (cacheSize : Nat) (hc : 0 < cacheSize)
    (ns : List Nat) :
    ∃ s0 outs s, cached_ifstream.open file cacheSize = some s0 ∧
      s0.reads ns = some (outs, s) ∧ bytes_returned outs ≤ file.length ∧
      ∀ n, ((∃ s', s.read n = .beyond_eof s') ↔ file.length - bytes_returned outs < n) ∧
        (∀ s', s.read n = .beyond_eof s' → s' = s) := by
  have ho := @open_eq file cacheSize hc
  obtain ⟨hi0, hl0, hf0⟩ := open_inv ho
  obtain ⟨outs, s, hr, hi, hf, hl⟩ := reads_spec hi0 ns
  rw [hl0, Nat.zero_add] at hl
  have hfs : s.fsize = file.length := by rw [hi.fsize_eq, hf, hf0]
  have hle := logical_pos_le hi
  refine ⟨_, outs, s, ho, hr, by omega, fun n => ?_⟩
  obtain ⟨hok, herr⟩ := read_spec hi n
  rw [hfs, hl] at hok herr
  constructor
  · constructor
    · rintro ⟨s', hs'⟩
      by_contra hcon
      obtain ⟨s1, h1, _⟩ := hok (by omega)
      rw [h1] at hs'
      cases hs'
    · intro h
      exact ⟨s, herr h⟩
  · intro s' hs'
    rcases Nat.lt_or_ge (file.length - bytes_returned outs) n with h | h
    · rw [herr h] at hs'
      cases hs'
      rfl
    · obtain ⟨s1, h1, _⟩ := hok h
      rw [h1] at hs'
      cases hs'

/-- Witness of C11: a seven-byte file, a two-byte cache, reads of 2, 1 and
1 bytes; three bytes are left. -/
theorem C11_read_fails_past_eof_witness :
    0 < 2 ∧
    ∃ s0 outs s, cached_ifstream.open [1, 2, 3, 4, 5, 6, 7] 2 = some s0 ∧
      s0.reads [2, 1, 1] = some (outs, s) ∧ bytes_returned outs ≤ [1, 2, 3, 4, 5, 6, 7].length ∧
      ∀ n, ((∃ s', s.read n = .beyond_eof s') ↔
          [1, 2, 3, 4, 5, 6, 7].length - bytes_returned outs < n) ∧
        (∀ s', s.read n = .beyond_eof s' → s' = s) :=
  ⟨by decide, C11_read_fails_past_eof [1, 2, 3, 4, 5, 6, 7] 2 (by decide) [2, 1, 1]⟩

/-- C12. For every file, every positive cache size and every sequence of
reads that together ask for no more than the file holds, `open` caches the
first `min(cacheSize, |file|)` bytes and every read succeeds, the i-th
returning the bytes of the file from offset `n1 + ... + n(i-1)` up to
`n1 + ... + ni`, whether it is served from the cache, from disk or from
both. -/
theorem C12_reads_return_file_in_order (file : List Byte) (cacheSize : Nat)
    (hc : 0 < cacheSize) (ns : List Nat) (hsum : ns.sum ≤ file.length) :
    ∃ s0 outs s, cached_ifstream.open file cacheSize = some s0 ∧
      s0.cache_size = min cacheSize file.length ∧
      s0.cache_buf = file.take (min cacheSize file.length) ∧
      s0.reads ns = some (outs, s) ∧ outs.length = ns.length ∧
      ∀ i (hi : i < ns.length),
        outs[i]? = some (some ((file.drop (ns.take i).sum).take ns[i])) := by
  have ho := @open_eq file cacheSize hc
  obtain ⟨hi0, hl0, hf0⟩ := open_inv ho
  have hfs := hi0.fsize_eq
  rw [hf0] at hfs
  obtain ⟨outs, s, hr, hlen, hk⟩ := reads_in_order hi0 ns (by rw [hfs, hl0]; omega)
  refine ⟨_, outs, s, ho, rfl, rfl, hr, hlen, fun i hi => ?_⟩
  have := hk i hi
  rw [hl0, Nat.zero_add, hf0] at this
  exact this

/-- Witness of C12: a seven-byte file and a two-byte cache; reading
`cache_size` bytes and then one byte returns the first two bytes and then
the third. -/
theorem C12_reads_return_file_in_order_witness :
    0 < 2 ∧ [2, 1].sum ≤ [1, 2, 3, 4, 5, 6, 7].length ∧
    (cached_ifstream.open [1, 2, 3, 4, 5, 6, 7] 2).bind (fun s0 => s0.reads [2, 1]) =
      some ([some [1, 2], some [3]], ⟨[1, 2, 3, 4, 5, 6, 7], 5, 2, [4, 5], 0, 7⟩) ∧
    ∃ s0 outs s, cached_ifstream.open [1, 2, 3, 4, 5, 6, 7] 2 = some s0 ∧
      s0.cache_size = min 2 [1, 2, 3, 4, 5, 6, 7].length ∧
      s0.cache_buf = [1, 2, 3, 4, 5, 6, 7].take (min 2 [1, 2, 3, 4, 5, 6, 7].length) ∧
      s0.reads [2, 1] = some (outs, s) ∧ outs.length = [2, 1].length ∧
      ∀ i (hi : i < [2, 1].length),
        outs[i]? = some (some (([1, 2, 3, 4, 5, 6, 7].drop ([2, 1].take i).sum).take [2, 1][i])) :=
  ⟨by decide, by decide, rfl,
    C12_reads_return_file_in_order [1, 2, 3, 4, 5, 6, 7] 2 (by decide) [2, 1] (by decide)⟩

/-- C16, as the code has it. On a file longer than `cache_size` (positive),
reading exactly `cache_size` bytes and then one more byte returns the first
`cache_size` bytes and then the next byte. If at least `cache_size` bytes
follow that byte (the file has `2 * cache_size + 1` bytes or more), the
cache has been refilled: `cur_off = 0`, the cache holds the `cache_size`
bytes that follow the byte just returned, and a later read of up to
`cache_size` bytes is served from the cache without moving the stream. If
fewer follow, the cache is not refilled: `cur_off = cache_size`, the cache
still holds the first `cache_size` bytes of the file and the stream stands
just after the byte returned, so later reads go to the file. -/
theorem C16_reprime_at_chunk_boundary (file : List Byte) (cacheSize : Nat)
    (hc : 0 < cacheSize) (hlen : cacheSize < file.length) :
    ∃ s0 s, cached_ifstream.open file cacheSize = some s0 ∧
      s0.reads [cacheSize, 1] =
        some ([some (file.take cacheSize), some ((file.drop cacheSize).take 1)], s) ∧
      s.cache_size = cacheSize ∧
      (2 * cacheSize + 1 ≤ file.length →
        s.cur_off = 0 ∧ s.cache_buf = (file.drop (cacheSize + 1)).take cacheSize ∧
        ∀ n, n ≤ cacheSize →
          s.read n = .ok ((file.drop (cacheSize + 1)).take n) { s with cur_off := n }) ∧
      (file.length < 2 * cacheSize + 1 →
        s.cur_off = s.cache_size ∧ s.cache_buf = file.take cacheSize ∧
        s.pos = cacheSize + 1) := by
  have hmin : min cacheSize file.length = cacheSize := Nat.min_eq_left (Nat.le_of_lt hlen)
  have ho := @open_eq file cacheSize hc
  rw [hmin] at ho
  have hread1 : cached_ifstream.read
      { file := file, pos := cacheSize, cache_size := cacheSize,
        cache_buf := file.take cacheSize, cur_off := 0, fsize := file.length } cacheSize =
      .ok (file.take cacheSize)
        { file := file, pos := cacheSize, cache_size := cacheSize,
          cache_buf := file.take cacheSize, cur_off := cacheSize, fsize := file.length } := by
    unfold cached_ifstream.read
    rw [if_pos (by show cacheSize ≤ cacheSize - 0; omega)]
    simp
  have hr1 : ifstream_read file cacheSize 1 = some ((file.drop cacheSize).take 1) :=
    ifstream_read_eq (by omega)
  have hcache : (List.take cacheSize file).drop cacheSize = [] :=
    List.drop_of_length_le (by simp)
  by_cases hbig : 2 * cacheSize + 1 ≤ file.length
  · have hr2 : ifstream_read file (cacheSize + 1) cacheSize =
        some ((file.drop (cacheSize + 1)).take cacheSize) := ifstream_read_eq (by omega)
    have hread2 : cached_ifstream.read
        { file := file, pos := cacheSize, cache_size := cacheSize,
          cache_buf := file.take cacheSize, cur_off := cacheSize, fsize := file.length } 1 =
        .ok ((file.drop cacheSize).take 1)
          { file := file, pos := cacheSize + 1 + cacheSize, cache_size := cacheSize,
            cache_buf := (file.drop (cacheSize + 1)).take cacheSize, cur_off := 0,
            fsize := file.length } := by
      unfold cached_ifstream.read
      rw [if_neg (by show ¬ 1 ≤ cacheSize - cacheSize; omega)]
      dsimp only
      rw [if_neg (by show ¬ 1 - (cacheSize - cacheSize) > file.length - cacheSize; omega),
        Nat.sub_self, Nat.sub_zero, hr1]
      dsimp only
      rw [if_pos (by show file.length - (cacheSize + 1) ≥ cacheSize; omega), hr2]
      simp [hcache]
    refine ⟨_, { file := file, pos := cacheSize + 1 + cacheSize, cache_size := cacheSize,
                 cache_buf := (file.drop (cacheSize + 1)).take cacheSize, cur_off := 0,
                 fsize := file.length }, ho, ?_, rfl, fun _ => ⟨rfl, rfl, fun n hn => ?_⟩,
      fun h => absurd hbig (by omega)⟩
    · simp only [cached_ifstream.reads, hread1, hread2]
    · unfold cached_ifstream.read
      rw [if_pos (by show n ≤ cacheSize - 0; omega)]
      simp [List.take_take, Nat.min_eq_left hn]
  · have hread2 : cached_ifstream.read
        { file := file, pos := cacheSize, cache_size := cacheSize,
          cache_buf := file.take cacheSize, cur_off := cacheSize, fsize := file.length } 1 =
        .ok ((file.drop cacheSize).take 1)
          { file := file, pos := cacheSize + 1, cache_size := cacheSize,
            cache_buf := file.take cacheSize, cur_off := cacheSize,
            fsize := file.length } := by
      unfold cached_ifstream.read
      rw [if_neg (by show ¬ 1 ≤ cacheSize - cacheSize; omega)]
      dsimp only
      rw [if_neg (by show ¬ 1 - (cacheSize - cacheSize) > file.length - cacheSize; omega),
        Nat.sub_self, Nat.sub_zero, hr1]
      dsimp only
      rw [if_neg (by show ¬ file.length - (cacheSize + 1) ≥ cacheSize; omega)]
      simp [hcache]
    refine ⟨_, { file := file, pos := cacheSize + 1, cache_size := cacheSize,
                 cache_buf := file.take cacheSize, cur_off := cacheSize,
                 fsize := file.length }, ho, ?_, rfl, fun h => absurd h hbig,
      fun _ => ⟨rfl, rfl, rfl⟩⟩
    simp only [cached_ifstream.reads, hread1, hread2]

/-- Witness of C16: a seven-byte file and a two-byte cache. -/
theorem C16_reprime_at_chunk_boundary_witness :
    0 < 2 ∧ 2 < [1, 2, 3, 4, 5, 6, 7].length ∧
    (cached_ifstream.open [1, 2, 3, 4, 5, 6, 7] 2).bind (fun s0 => s0.reads [2, 1]) =
      some ([some [1, 2], some [3]], ⟨[1, 2, 3, 4, 5, 6, 7], 5, 2, [4, 5], 0, 7⟩) ∧
    ∃ s0 s, cached_ifstream.open [1, 2, 3, 4, 5, 6, 7] 2 = some s0 ∧
      s0.reads [2, 1] =
        some ([some ([1, 2, 3, 4, 5, 6, 7].take 2), some (([1, 2, 3, 4, 5, 6, 7].drop 2).take 1)],
          s) ∧
      s.cache_size = 2 ∧
      (2 * 2 + 1 ≤ [1, 2, 3, 4, 5, 6, 7].length →
        s.cur_off = 0 ∧ s.cache_buf = ([1, 2, 3, 4, 5, 6, 7].drop (2 + 1)).take 2 ∧
        ∀ n, n ≤ 2 →
          s.read n = .ok (([1, 2, 3, 4, 5, 6, 7].drop (2 + 1)).take n) { s with cur_off := n }) ∧
      ([1, 2, 3, 4, 5, 6, 7].length < 2 * 2 + 1 →
        s.cur_off = s.cache_size ∧ s.cache_buf = [1, 2, 3, 4, 5, 6, 7].take 2 ∧
        s.pos = 2 + 1) :=
  ⟨by decide, by decide, rfl,
    C16_reprime_at_chunk_boundary [1, 2, 3, 4, 5, 6, 7] 2 (by decide) (by decide)⟩

/-- Counterexample to C16 as stated: a four-byte file and a two-byte
cache. After reading two bytes and then one, a single byte is left, fewer
than `cache_size`, so the cache is not refilled: `cur_off` is 2, not 0,
and the cache still holds the first two bytes. -/
theorem C16_counterexample :
    (0 < 2 ∧ 2 < [1, 2, 3, 4].length) ∧
    (cached_ifstream.open [1, 2, 3, 4] 2).bind (fun s0 => s0.reads [2, 1]) =
      some ([some [1, 2], some [3]], ⟨[1, 2, 3, 4], 3, 2, [1, 2], 2, 4⟩) ∧
    ¬ (∀ (file : List Byte) (cacheSize : Nat), 0 < cacheSize → cacheSize < file.length →
        ∃ s0 outs s, cached_ifstream.open file cacheSize = some s0 ∧
          s0.reads [cacheSize, 1] = some (outs, s) ∧ s.cur_off = 0 ∧
          s.cache_buf = (file.drop (cacheSize + 1)).take cacheSize) := by
  refine ⟨⟨by decide, by decide⟩, rfl, fun h => ?_⟩
  obtain ⟨s0, outs, s, h0, hr, hcur, _⟩ := h [1, 2, 3, 4] 2 (by decide) (by decide)
  have h0' : cached_ifstream.open [1, 2, 3, 4] 2 = some ⟨[1, 2, 3, 4], 2, 2, [1, 2], 0, 4⟩ := rfl
  rw [h0'] at h0
  cases h0
  have hr' : cached_ifstream.reads ⟨[1, 2, 3, 4], 2, 2, [1, 2], 0, 4⟩ [2, 1] =
      some ([some [1, 2], some [3]], ⟨[1, 2, 3, 4], 3, 2, [1, 2], 2, 4⟩) := rfl
  rw [hr'] at hr
  cases hr
  exact absurd hcur (by decide)

/-! ## The cached writer -/

theorem construct_ofstream {cache_size : Nat} (hc : 0 < cache_size) :
    cached_ofstream.construct cache_size =
      some { cache_size := cache_size, cache_buf := some (List.replicate cache_size 0),
             cur_off := 0, fsize := 0, is_open := true, content := [], pos := 0,
             emitted := [] } := by
  unfold cached_ofstream.construct
  rw [if_neg (by omega)]

theorem emit_eq {s : cached_ofstream} (h : s.is_open = true) (data : List Byte) :
    s.emit data =
      some { s with content := pwrite s.content ⟨s.pos, data.length, data⟩
                    pos := s.pos + data.length
                    emitted := s.emitted ++ data } := by
  unfold cached_ofstream.emit
  rw [if_pos h]

theorem pwrite_append (content data : List Byte) :
    pwrite content ⟨content.length, data.length, data⟩ = content ++ data :=
  pwrite_at_end content _ rfl

/-- A `write` whose data fits the free part of the cache is copied there
and emits nothing. -/
theorem ofstream_write_fits {s : cached_ofstream} {b : List Byte} (hb : s.cache_buf = some b)
    {data : List Byte} (hfit : data.length ≤ s.cache_size - s.cur_off) :
    s.write data =
      some { s with cache_buf := some (memcpy b s.cur_off data)
                    cur_off := s.cur_off + data.length } := by
  unfold cached_ofstream.write
  simp only [hb]
  rw [if_pos hfit]

/-- A `write` whose data does not fit the free part of the cache emits the
cached bytes, then the data, and empties the cache. -/
theorem ofstream_write_spills {s : cached_ofstream} {b : List Byte}
    (hb : s.cache_buf = some b) (ho : s.is_open = true) {data : List Byte}
    (hfit : ¬ data.length ≤ s.cache_size - s.cur_off) :
    s.write data =
      some { s with
             content := pwrite (pwrite s.content ⟨s.pos, (b.take s.cur_off).length,
               b.take s.cur_off⟩) ⟨s.pos + (b.take s.cur_off).length, data.length, data⟩
             pos := s.pos + (b.take s.cur_off).length + data.length
             emitted := s.emitted ++ b.take s.cur_off ++ data
             fsize := s.fsize + s.cur_off + data.length
             cache_buf := some (List.replicate s.cache_size 0)
             cur_off := 0 } := by
  unfold cached_ofstream.write
  simp only [hb]
  rw [if_neg hfit, emit_eq ho]
  dsimp only
  rw [emit_eq (by exact ho)]

theorem ofstream_flush_cache_eq {s : cached_ofstream} {b : List Byte}
    (hb : s.cache_buf = some b) (ho : s.is_open = true) :
    s.flush_cache =
      some { s with
             content := pwrite s.content ⟨s.pos, (b.take s.cur_off).length, b.take s.cur_off⟩
             pos := s.pos + (b.take s.cur_off).length
             emitted := s.emitted ++ b.take s.cur_off
             fsize := s.fsize + s.cur_off
             cache_buf := some (List.replicate s.cache_size 0)
             cur_off := 0 } := by
  unfold cached_ofstream.flush_cache
  simp only [hb]
  rw [emit_eq ho]

/-- The effect of `write` on a `cached_ofstream` that has not been closed:
it returns, keeps the invariant, adds the data to the bytes emitted or
cached, and adds its length to `fsize + cur_off`. -/
theorem ofstream_write_spec {s : cached_ofstream} (hi : OInv s) (data : List Byte) :
    ∃ s', s.write data = some s' ∧ OInv s' ∧ s'.cache_size = s.cache_size ∧
      s'.emitted ++ s'.cached = s.emitted ++ s.cached ++ data ∧
      s'.fsize + s'.cur_off = s.fsize + s.cur_off + data.length ∧
      (Sequential s → Sequential s') := by
  obtain ⟨b, hb, hbl⟩ := hi.buf
  have hcl := hi.cur_le
  by_cases hfit : data.length ≤ s.cache_size - s.cur_off
  · refine ⟨_, ofstream_write_fits hb hfit, ⟨⟨_, rfl, ?_⟩, ?_, hi.opened⟩, rfl, ?_, ?_, id⟩
    · rw [memcpy_length (by omega), hbl]
    · show s.cur_off + data.length ≤ s.cache_size
      omega
    · show s.emitted ++ (memcpy b s.cur_off data).take (s.cur_off + data.length) = _
      rw [memcpy_take (by omega)]
      simp [cached_ofstream.cached, hb, List.append_assoc]
    · show s.fsize + (s.cur_off + data.length) = _
      omega
  · refine ⟨_, ofstream_write_spills hb hi.opened hfit,
      ⟨⟨_, rfl, by simp⟩, Nat.zero_le _, hi.opened⟩, rfl, ?_, ?_, ?_⟩
    · simp [cached_ofstream.cached, hb]
    · show s.fsize + s.cur_off + data.length + 0 = _
      omega
    · rintro ⟨h1, h2⟩
      constructor
      · show pwrite (pwrite s.content _) _ = s.emitted ++ b.take s.cur_off ++ data
        rw [h2, pwrite_append, ← List.length_append, pwrite_append, h1]
      · show s.pos + (b.take s.cur_off).length + data.length = (pwrite (pwrite s.content _) _).length
        rw [h2, pwrite_append, ← List.length_append, pwrite_append]
        simp [Nat.add_assoc]

theorem ofstream_flush_cache_spec {s : cached_ofstream} (hi : OInv s) :
    ∃ s', s.flush_cache = some s' ∧ OInv s' ∧ s'.cache_size = s.cache_size ∧
      s'.cur_off = 0 ∧ s'.emitted = s.emitted ++ s.cached ∧
      s'.fsize = s.fsize + s.cur_off ∧ (Sequential s → Sequential s') := by
  obtain ⟨b, hb, hbl⟩ := hi.buf
  refine ⟨_, ofstream_flush_cache_eq hb hi.opened,
    ⟨⟨_, rfl, by simp⟩, Nat.zero_le _, hi.opened⟩, rfl, rfl, ?_, rfl, ?_⟩
  · simp [cached_ofstream.cached, hb]
  · rintro ⟨h1, h2⟩
    constructor
    · show pwrite s.content _ = s.emitted ++ b.take s.cur_off
      rw [h2, pwrite_append, h1]
    · show s.pos + (b.take s.cur_off).length = (pwrite s.content _).length
      rw [h2, pwrite_append, List.length_append]

theorem ofstream_reset_spec {s : cached_ofstream} (hi : OInv s) :
    ∃ s', s.reset = some s' ∧ OInv s' ∧ s'.cache_size = s.cache_size ∧
      s'.cur_off = 0 ∧ s'.fsize = s.fsize + s.cur_off := by
  obtain ⟨s1, h1, hi1, hc1, hcur1, _, hf1, _⟩ := ofstream_flush_cache_spec hi
  refine ⟨{ s1 with pos := 0 }, ?_, ⟨hi1.buf, hi1.cur_le, hi1.opened⟩, hc1, hcur1, hf1⟩
  unfold cached_ofstream.reset
  rw [h1]
  dsimp only
  rw [if_pos hi1.opened]

theorem ofstream_close_spec {s : cached_ofstream} (hi : OInv s) :
    ∃ s', s.close = some s' ∧ s'.cur_off = 0 ∧ s'.emitted = s.emitted ++ s.cached ∧
      s'.fsize = s.fsize + s.cur_off ∧ (Sequential s → s'.content = s'.emitted) := by
  by_cases hcur : 0 < s.cur_off
  · obtain ⟨s1, h1, _, _, hcur1, he1, hf1, hs1⟩ := ofstream_flush_cache_spec hi
    refine ⟨{ s1 with cache_buf := none, is_open := false }, ?_, hcur1, he1, hf1,
      fun h => (hs1 h).1⟩
    unfold cached_ofstream.close
    rw [if_pos hcur, h1]
  · have h0 : s.cur_off = 0 := by omega
    refine ⟨{ s with cache_buf := none, is_open := false }, ?_, h0, ?_, by simp [h0],
      fun h => h.1⟩
    · unfold cached_ofstream.close
      rw [if_neg hcur]
    · obtain ⟨b, hb, _⟩ := hi.buf
      simp [cached_ofstream.cached, hb, h0]

theorem ofstream_construct_inv {cache_size : Nat} {s0 : cached_ofstream}
    (h : cached_ofstream.construct cache_size = some s0) :
    OInv s0 ∧ Sequential s0 ∧ s0.emitted = [] ∧ s0.cached = [] ∧ s0.fsize = 0 ∧
      s0.cur_off = 0 ∧ s0.cache_size = cache_size := by
  have hc : 0 < cache_size := by
    rcases Nat.eq_zero_or_pos cache_size with h0 | h0
    · simp [cached_ofstream.construct, h0] at h
    · exact h0
  rw [construct_ofstream hc] at h
  cases h
  exact ⟨⟨⟨_, rfl, by simp⟩, Nat.zero_le _, rfl⟩, ⟨rfl, rfl⟩, rfl, by simp [cached_ofstream.cached],
    rfl, rfl, rfl⟩

/-- A sequence of `write` calls on a `cached_ofstream` that has not been
closed runs to its end and keeps, in the stream and the cache together,
exactly the data written, in order. -/
theorem ofstream_run_writes {s : cached_ofstream} (hi : OInv s) (ds : List (List Byte)) :
    ∃ s', s.run (ds.map OCall.write) = some s' ∧ OInv s' ∧ s'.cache_size = s.cache_size ∧
      s'.emitted ++ s'.cached = s.emitted ++ s.cached ++ ds.flatten ∧
      s'.fsize + s'.cur_off = s.fsize + s.cur_off + (ds.map List.length).sum ∧
      (Sequential s → Sequential s') := by
  induction ds generalizing s with
  | nil => exact ⟨s, rfl, hi, rfl, by simp, by simp, id⟩
  | cons d ds ih =>
    obtain ⟨s1, h1, hi1, hc1, he1, hf1, hs1⟩ := ofstream_write_spec hi d
    obtain ⟨s2, h2, hi2, hc2, he2, hf2, hs2⟩ := ih hi1
    refine ⟨s2, ?_, hi2, hc2.trans hc1, ?_, ?_, fun h => hs2 (hs1 h)⟩
    · simp only [List.map_cons, cached_ofstream.run, cached_ofstream.step, h1]
      exact h2
    · rw [he2, he1]
      simp [List.append_assoc]
    · rw [hf2, hf1]
      simp only [List.map_cons, List.sum_cons]
      omega

theorem ofstream_run_append (s : cached_ofstream) (a b : List OCall) :
    s.run (a ++ b) = (s.run a).bind fun s1 => s1.run b := by
  induction a generalizing s with
  | nil => rfl
  | cons c cs ih =>
    simp only [List.cons_append, cached_ofstream.run]
    cases s.step c with
    | none => rfl
    | some s1 => exact ih s1

/-- C13. For every positive cache size and every sequence of `write` calls
followed by `close`, the run reaches its end and the bytes emitted to the
underlying stream, and the content of the file, are the data of the writes
concatenated in order. In every state reached by such writes, a write that
does not fit the free part of the cache emits the `cur_off` bytes cached,
then the new data, and leaves `cur_off = 0`. -/
theorem C13_ofstream_preserves_bytes (cache_size : Nat) (hc : 0 < cache_size)
    (ds : List (List Byte)) :
    ∃ s0 s1 s, cached_ofstream.construct cache_size = some s0 ∧
      s0.run (ds.map OCall.write) = some s1 ∧
      s0.run (ds.map OCall.write ++ [OCall.close]) = some s ∧
      s.emitted = ds.flatten ∧ s.content = ds.flatten ∧
      ∀ data : List Byte, s1.cache_size - s1.cur_off < data.length →
        ∃ b s', s1.cache_buf = some b ∧ s1.write data = some s' ∧
          s'.emitted = s1.emitted ++ b.take s1.cur_off ++ data ∧ s'.cur_off = 0 := by
  have h0 := construct_ofstream hc
  obtain ⟨hi0, hs0, he0, hca0, _, _, _⟩ := ofstream_construct_inv h0
  obtain ⟨s1, h1, hi1, _, he1, _, hs1⟩ := ofstream_run_writes hi0 ds
  obtain ⟨s, h2, _, he2, _, hs2⟩ := ofstream_close_spec hi1
  have hem : s.emitted = ds.flatten := by
    rw [he2, he1, he0, hca0]
    simp
  refine ⟨_, s1, s, h0, h1, ?_, hem, ?_, fun data hd => ?_⟩
  · rw [ofstream_run_append, h1]
    simp [cached_ofstream.run, cached_ofstream.step, h2]
  · rw [hs2 (hs1 hs0), hem]
  · obtain ⟨b, hb, _⟩ := hi1.buf
    exact ⟨b, _, hb, ofstream_write_spills hb hi1.opened (by omega), rfl, rfl⟩

/-- Witness of C13: a four-byte cache and writes of three, two and one
bytes; the second does not fit. -/
theorem C13_ofstream_preserves_bytes_witness :
    0 < 4 ∧
    (cached_ofstream.construct 4).bind
        (fun s0 => s0.run ([[1, 2, 3], [4, 5], [6]].map OCall.write ++ [OCall.close])) =
      some ⟨4, none, 0, 6, false, [1, 2, 3, 4, 5, 6], 6, [1, 2, 3, 4, 5, 6]⟩ ∧
    ∃ s0 s1 s, cached_ofstream.construct 4 = some s0 ∧
      s0.run ([[1, 2, 3], [4, 5], [6]].map OCall.write) = some s1 ∧
      s0.run ([[1, 2, 3], [4, 5], [6]].map OCall.write ++ [OCall.close]) = some s ∧
      s.emitted = [[1, 2, 3], [4, 5], [6]].flatten ∧
      s.content = [[1, 2, 3], [4, 5], [6]].flatten ∧
      ∀ data : List Byte, s1.cache_size - s1.cur_off < data.length →
        ∃ b s', s1.cache_buf = some b ∧ s1.write data = some s' ∧
          s'.emitted = s1.emitted ++ b.take s1.cur_off ++ data ∧ s'.cur_off = 0 :=
  ⟨by decide, rfl, C13_ofstream_preserves_bytes 4 (by decide) [[1, 2, 3], [4, 5], [6]]⟩

/-- C14, as the code has it. For every positive cache size and every
sequence of `write` calls on a new writer, `get_file_size()` returns the
sum of the `n_bytes` of the calls less the `cur_off` bytes still held in
the cache; it is the sum itself when the cache is empty. -/
theorem C14_get_file_size_counts_emitted (cache_size : Nat) (hc : 0 < cache_size)
    (ds : List (List Byte)) :
    ∃ s0 s, cached_ofstream.construct cache_size = some s0 ∧
      s0.run (ds.map OCall.write) = some s ∧
      s.get_file_size = (ds.map List.length).sum - s.cur_off ∧
      s.cur_off ≤ (ds.map List.length).sum ∧
      (s.cur_off = 0 → s.get_file_size = (ds.map List.length).sum) := by
  have h0 := construct_ofstream hc
  obtain ⟨hi0, _, _, _, hf0, hcur0, _⟩ := ofstream_construct_inv h0
  obtain ⟨s, h1, _, _, _, hf, _⟩ := ofstream_run_writes hi0 ds
  rw [hf0, hcur0] at hf
  refine ⟨_, s, h0, h1, ?_, by omega, fun h => ?_⟩
  · show s.fsize = _
    omega
  · show s.fsize = _
    omega

/-- Witness of C14: a four-byte cache and writes of three, two and one
bytes: five bytes emitted and one still cached. -/
theorem C14_get_file_size_counts_emitted_witness :
    0 < 4 ∧
    (cached_ofstream.construct 4).bind (fun s0 => s0.run ([[1, 2, 3], [4, 5], [6]].map OCall.write))
      = some ⟨4, some [6, 0, 0, 0], 1, 5, true, [1, 2, 3, 4, 5], 5, [1, 2, 3, 4, 5]⟩ ∧
    ∃ s0 s, cached_ofstream.construct 4 = some s0 ∧
      s0.run ([[1, 2, 3], [4, 5], [6]].map OCall.write) = some s ∧
      s.get_file_size = ([[1, 2, 3], [4, 5], [6]].map List.length).sum - s.cur_off ∧
      s.cur_off ≤ ([[1, 2, 3], [4, 5], [6]].map List.length).sum ∧
      (s.cur_off = 0 → s.get_file_size = ([[1, 2, 3], [4, 5], [6]].map List.length).sum) :=
  ⟨by decide, rfl, C14_get_file_size_counts_emitted 4 (by decide) [[1, 2, 3], [4, 5], [6]]⟩

/-- Counterexample to C14 as stated: with a ten-byte cache, after one
`write` of three bytes `get_file_size()` returns 0, not 3: the three bytes
are in the cache and `fsize` counts only what has been emitted. -/
theorem C14_counterexample :
    0 < 10 ∧
    (cached_ofstream.construct 10).bind (fun s0 => s0.run [OCall.write [1, 2, 3]]) =
      some ⟨10, some [1, 2, 3, 0, 0, 0, 0, 0, 0, 0], 3, 0, true, [], 0, []⟩ ∧
    cached_ofstream.get_file_size
      ⟨10, some [1, 2, 3, 0, 0, 0, 0, 0, 0, 0], 3, 0, true, [], 0, []⟩ = 0 ∧
    write_total [OCall.write [1, 2, 3]] = 3 ∧
    ¬ (∀ (cache_size : Nat) (ds : List (List Byte)), 0 < cache_size →
        ∃ s0 s, cached_ofstream.construct cache_size = some s0 ∧
          s0.run (ds.map OCall.write) = some s ∧
          s.get_file_size = (ds.map List.length).sum) := by
  refine ⟨by decide, rfl, rfl, rfl, fun h => ?_⟩
  obtain ⟨s0, s, h0, hr, hg⟩ := h 10 [[1, 2, 3]] (by decide)
  have h0' : cached_ofstream.construct 10 =
      some ⟨10, some (List.replicate 10 0), 0, 0, true, [], 0, []⟩ := rfl
  rw [h0'] at h0
  cases h0
  have hr' : cached_ofstream.run ⟨10, some (List.replicate 10 0), 0, 0, true, [], 0, []⟩
      ([[1, 2, 3]].map OCall.write) =
      some ⟨10, some [1, 2, 3, 0, 0, 0, 0, 0, 0, 0], 3, 0, true, [], 0, []⟩ := rfl
  rw [hr'] at hr
  cases hr
  exact absurd hg (by decide)

theorem write_total_append (a b : List OCall) :
    write_total (a ++ b) = write_total a + write_total b := by
  induction a with
  | nil => simp [write_total]
  | cons c cs ih => cases c <;> simp [write_total, ih, Nat.add_assoc]

/-- A call other than `close` on a `cached_ofstream` that has not been
closed returns, keeps the invariant and adds to `fsize + cur_off` the
bytes passed to it. -/
theorem ofstream_step_spec {s : cached_ofstream} (hi : OInv s) {c : OCall}
    (hc : c ≠ OCall.close) :
    ∃ s', s.step c = some s' ∧ OInv s' ∧ s'.cache_size = s.cache_size ∧
      s'.fsize + s'.cur_off = s.fsize + s.cur_off + write_total [c] := by
  cases c with
  | write data =>
    obtain ⟨s', h1, h2, h3, _, h5, _⟩ := ofstream_write_spec hi data
    exact ⟨s', h1, h2, h3, by simpa [write_total] using h5⟩
  | flush_cache =>
    obtain ⟨s', h1, h2, h3, h4, _, h6, _⟩ := ofstream_flush_cache_spec hi
    exact ⟨s', h1, h2, h3, by simp [write_total, h4, h6]⟩
  | reset =>
    obtain ⟨s', h1, h2, h3, h4, h5⟩ := ofstream_reset_spec hi
    exact ⟨s', h1, h2, h3, by simp [write_total, h4, h5]⟩
  | close => exact absurd rfl hc

theorem ofstream_run_spec {s : cached_ofstream} (hi : OInv s) (calls : List OCall)
    (hcalls : ∀ c ∈ calls, c ≠ OCall.close) :
    ∃ s', s.run calls = some s' ∧ OInv s' ∧ s'.cache_size = s.cache_size ∧
      s'.fsize + s'.cur_off = s.fsize + s.cur_off + write_total calls := by
  induction calls generalizing s with
  | nil => exact ⟨s, rfl, hi, rfl, by simp [write_total]⟩
  | cons c cs ih =>
    obtain ⟨s1, h1, hi1, hc1, hf1⟩ := ofstream_step_spec hi (hcalls c (List.mem_cons_self _ _))
    obtain ⟨s2, h2, hi2, hc2, hf2⟩ := ih hi1 fun c' hc' => hcalls c' (List.mem_cons_of_mem _ hc')
    refine ⟨s2, ?_, hi2, hc2.trans hc1, ?_⟩
    · simp only [cached_ofstream.run, h1]
      exact h2
    · rw [hf2, hf1, show c :: cs = [c] ++ cs from rfl, write_total_append]
      omega

/-- C19. For every positive cache size, in every state reached from a new
writer by `write`, `flush_cache` and `reset` calls (which all return),
`cur_off <= cache_size` and `fsize + cur_off` is the sum of the `n_bytes`
of the `write` calls; so `get_file_size()` is that sum exactly when
`cur_off = 0`, as it is after `flush_cache`, `reset`, `close`, and after a
`write` that did not fit the cache. -/
theorem C19_ofstream_accounting (cache_size : Nat) (hc : 0 < cache_size) (calls : List OCall)
    (hcalls : ∀ c ∈ calls, c ≠ OCall.close) :
    ∃ s0 s, cached_ofstream.construct cache_size = some s0 ∧ s0.run calls = some s ∧
      s.cache_size = cache_size ∧ s.cur_off ≤ s.cache_size ∧
      s.fsize + s.cur_off = write_total calls ∧
      (s.get_file_size = write_total calls ↔ s.cur_off = 0) ∧
      (∃ s', s.flush_cache = some s' ∧ s'.cur_off = 0 ∧
        s'.get_file_size = write_total calls) ∧
      (∃ s', s.reset = some s' ∧ s'.cur_off = 0 ∧ s'.get_file_size = write_total calls) ∧
      (∃ s', s.close = some s' ∧ s'.cur_off = 0 ∧ s'.get_file_size = write_total calls) ∧
      ∀ data : List Byte, s.cache_size - s.cur_off < data.length →
        ∃ s', s.write data = some s' ∧ s'.cur_off = 0 ∧
          s'.get_file_size = write_total calls + data.length := by
  have h0 := construct_ofstream hc
  obtain ⟨hi0, _, _, _, hf0, hcur0, hcs0⟩ := ofstream_construct_inv h0
  obtain ⟨s, h1, hi, hcs, hf⟩ := ofstream_run_spec hi0 calls hcalls
  have hf' : s.fsize + s.cur_off = write_total calls := by
    rw [hf0, hcur0] at hf
    omega
  refine ⟨_, s, h0, h1, hcs.trans hcs0, hi.cur_le, hf', ?_, ?_, ?_, ?_, fun data hd => ?_⟩
  · show s.fsize = _ ↔ _
    omega
  · obtain ⟨s', h2, _, _, h4, _, h6, _⟩ := ofstream_flush_cache_spec hi
    exact ⟨s', h2, h4, by show s'.fsize = _; omega⟩
  · obtain ⟨s', h2, _, _, h4, h5⟩ := ofstream_reset_spec hi
    exact ⟨s', h2, h4, by show s'.fsize = _; omega⟩
  · obtain ⟨s', h2, h3, _, h5, _⟩ := ofstream_close_spec hi
    exact ⟨s', h2, h3, by show s'.fsize = _; omega⟩
  · obtain ⟨b, hb, _⟩ := hi.buf
    refine ⟨_, ofstream_write_spills hb hi.opened (by omega), rfl, ?_⟩
    show s.fsize + s.cur_off + data.length = _
    omega

/-- Witness of C19: a four-byte cache; a write of three bytes, a reset, a
write of two bytes, a flush and a write of one byte. -/
theorem C19_ofstream_accounting_witness :
    0 < 4 ∧
    (∀ c ∈ [OCall.write [1, 2, 3], OCall.reset, OCall.write [4, 5], OCall.flush_cache,
      OCall.write [6]], c ≠ OCall.close) ∧
    (cached_ofstream.construct 4).bind (fun s0 => s0.run [OCall.write [1, 2, 3], OCall.reset,
      OCall.write [4, 5], OCall.flush_cache, OCall.write [6]]) =
      some ⟨4, some [6, 0, 0, 0], 1, 5, true, [4, 5, 3], 2, [1, 2, 3, 4, 5]⟩ ∧
    ∃ s0 s, cached_ofstream.construct 4 = some s0 ∧
      s0.run [OCall.write [1, 2, 3], OCall.reset, OCall.write [4, 5], OCall.flush_cache,
        OCall.write [6]] = some s ∧
      s.cache_size = 4 ∧ s.cur_off ≤ s.cache_size ∧
      s.fsize + s.cur_off = write_total [OCall.write [1, 2, 3], OCall.reset,
        OCall.write [4, 5], OCall.flush_cache, OCall.write [6]] := by
  obtain ⟨s0, s, h0, h1, h2, h3, h4, _⟩ := C19_ofstream_accounting 4 (by decide)
    [OCall.write [1, 2, 3], OCall.reset, OCall.write [4, 5], OCall.flush_cache, OCall.write [6]]
    (by decide)
  exact ⟨by decide, by decide, rfl, s0, s, h0, h1, h2, h3, h4⟩

/-! ## Rotation, pending requests and termination of the direct writer -/

theorem wait_for_buffer_frame (K : Kernel) (i : Nat) (m : CachedAioDirectWriter) :
    (wait_for_buffer K i m).All (WaitFrame m) := by
  unfold wait_for_buffer
  split
  · trivial
  · split
    · exact ⟨rfl, rfl, rfl, rfl, rfl⟩
    · dsimp only
      split
      · exact ⟨rfl, rfl, rfl, rfl, rfl⟩
      · exact ⟨rfl, rfl, rfl, rfl, rfl⟩

/-- What `submit_current_buffer` leaves, whether it returns or throws:
either the log and the current buffer as they were, or one more entry in
the log and the next buffer current; and at most one more `io_submit`
call. -/
theorem submit_current_buffer_rotates (K : Kernel) (m : CachedAioDirectWriter) :
    (submit_current_buffer K m).All fun m' =>
      m'.num_buffers = m.num_buffers ∧ m'.n_submit ≤ m.n_submit + 1 ∧
      ((m'.submitted = m.submitted ∧ m'.current_buffer = m.current_buffer) ∨
       (m'.submitted.length = m.submitted.length + 1 ∧
        m'.current_buffer = (m.current_buffer + 1) % m.num_buffers)) := by
  unfold submit_current_buffer
  split
  · exact ⟨rfl, Nat.le_succ _, Or.inl ⟨rfl, rfl⟩⟩
  · split
    · trivial
    · rename_i requests hreq
      have hw : (if ¬ requests.isEmpty then wait_for_buffer K m.current_buffer m
          else Result.ok m).All (WaitFrame m) := by
        split
        · exact wait_for_buffer_frame K _ m
        · exact ⟨rfl, rfl, rfl, rfl, rfl⟩
      revert hw
      generalize (if ¬ requests.isEmpty then wait_for_buffer K m.current_buffer m
        else Result.ok m) = w
      intro hw
      cases w with
      | ok m1 =>
        have hw' : WaitFrame m m1 := hw
        simp only [Result.bind]
        split
        · split
          · exact ⟨hw'.num_buffers_eq, by show m1.n_submit + 1 ≤ _; rw [hw'.n_submit_eq],
              Or.inl ⟨hw'.submitted_eq, hw'.current_buffer_eq⟩⟩
          · split
            · trivial
            · refine ⟨hw'.num_buffers_eq, by show m1.n_submit + 1 ≤ _; rw [hw'.n_submit_eq],
                Or.inr ⟨?_, ?_⟩⟩
              · show (m1.submitted ++ [_]).length = _
                rw [List.length_append, hw'.submitted_eq]
                rfl
              · show (m1.current_buffer + 1) % m1.num_buffers = _
                rw [hw'.current_buffer_eq, hw'.num_buffers_eq]
        · trivial
      | threw e m1 =>
        have hw' : WaitFrame m m1 := hw
        exact ⟨hw'.num_buffers_eq, by rw [hw'.n_submit_eq]; exact Nat.le_succ _,
          Or.inl ⟨hw'.submitted_eq, hw'.current_buffer_eq⟩⟩
      | undefined => trivial
      | timeout => trivial

theorem roundRobin_next {m m' : CachedAioDirectWriter} (h : RoundRobin m)
    (hn : m'.num_buffers = m.num_buffers)
    (hs : m'.submitted.length = m.submitted.length + 1)
    (hc : m'.current_buffer = (m.current_buffer + 1) % m.num_buffers) : RoundRobin m' := by
  unfold RoundRobin at h ⊢
  rw [hc, hs, hn, h, Nat.add_mod, Nat.mod_mod, ← Nat.add_mod]

theorem submit_current_buffer_roundRobin {K : Kernel} {m : CachedAioDirectWriter}
    (h : RoundRobin m) : (submit_current_buffer K m).All RoundRobin := by
  refine Result.All_mono (submit_current_buffer_rotates K m) fun m' hm' => ?_
  obtain ⟨hn, _, ⟨hs, hc⟩ | ⟨hs, hc⟩⟩ := hm'
  · unfold RoundRobin at h ⊢
    rw [hc, hs, hn, h]
  · exact roundRobin_next h hn hs hc

theorem write_body_roundRobin {K : Kernel} {m : CachedAioDirectWriter} (h : RoundRobin m)
    (data : List Byte) : (write_body K m data).1.All RoundRobin := by
  have hpre : (if m.cur_off = m.cache_size then submit_current_buffer K m
      else Result.ok m).All RoundRobin := by
    split
    · exact submit_current_buffer_roundRobin h
    · exact h
  unfold write_body
  revert hpre
  generalize (if m.cur_off = m.cache_size then submit_current_buffer K m
    else Result.ok m) = r
  intro hpre
  cases r with
  | ok m1 =>
    dsimp only
    split
    · trivial
    · exact hpre
  | threw e m1 => exact hpre
  | undefined => trivial
  | timeout => trivial

theorem write_loop_roundRobin {K : Kernel} (fuel : Nat) {m : CachedAioDirectWriter}
    (h : RoundRobin m) (data : List Byte) : (write_loop K fuel m data).All RoundRobin := by
  induction fuel generalizing m data with
  | zero => cases data <;> first | exact h | trivial
  | succ fuel ih =>
    cases data with
    | nil => exact h
    | cons d ds =>
      have hb := write_body_roundRobin h (K := K) (d :: ds)
      rw [write_loop]
      rcases hw : write_body K m (d :: ds) with ⟨r, rest⟩
      rw [hw] at hb
      cases r with
      | ok m1 => exact ih hb rest
      | threw e m1 => exact hb
      | undefined => trivial
      | timeout => trivial

theorem wait_all_from_roundRobin {K : Kernel} (k i : Nat) {m : CachedAioDirectWriter}
    (h : RoundRobin m) : (wait_all_from K k i m).All RoundRobin := by
  induction k generalizing i m with
  | zero => exact h
  | succ k ih =>
    refine Result.All_bind ?_ fun m1 h1 => ih (i + 1) h1
    refine Result.All_mono (wait_for_buffer_frame K i m) fun m' hm' => ?_
    unfold RoundRobin at h ⊢
    rw [hm'.current_buffer_eq, hm'.submitted_eq, hm'.num_buffers_eq, h]

theorem flush_roundRobin {K : Kernel} {m : CachedAioDirectWriter} (h : RoundRobin m) :
    (flush K m).All RoundRobin := by
  unfold flush
  refine Result.All_bind ?_ fun m1 h1 => wait_all_from_roundRobin _ 0 h1
  split
  · exact submit_current_buffer_roundRobin h
  · exact h

theorem step_roundRobin {K : Kernel} (c : Call) {m : CachedAioDirectWriter}
    (h : RoundRobin m) : (step K c m).All RoundRobin := by
  cases c with
  | write data => exact write_loop_roundRobin _ h data
  | flush => exact flush_roundRobin h
  | close =>
    refine Result.All_bind (flush_roundRobin h) fun m1 h1 => ?_
    split
    · exact h1
    · exact h1

theorem run_roundRobin {K : Kernel} (calls : List Call) {m m' : CachedAioDirectWriter}
    (h : RoundRobin m) (hr : run K calls m = some m') : RoundRobin m' := by
  induction calls generalizing m with
  | nil =>
    simp only [run, Option.some.injEq] at hr
    subst hr
    exact h
  | cons c cs ih =>
    unfold run at hr
    split at hr
    · cases hr
    · rename_i m1 h1
      exact ih (Result.All_state (step_roundRobin c h) h1) hr

theorem reachable_roundRobin {K : Kernel} {m : CachedAioDirectWriter} (h : Reachable K m) :
    RoundRobin m := by
  obtain ⟨c, n, calls, m0, h0, hr⟩ := h
  refine run_roundRobin calls ?_ hr
  obtain ⟨rfl, _⟩ := construct_eq h0
  show 0 = 0 % n
  simp

/-- C15. In every reachable state of a writer with at least one buffer,
whatever the kernel answered, `current_buffer < num_buffers` and
`current_buffer` is the number of accepted submissions modulo
`num_buffers`; a `submit_current_buffer` that returns with `cur_off > 0`
makes `(current_buffer + 1) mod num_buffers` current, resets `cur_off` to 0
and adds one submission; a public call keeps `current_buffer` equal to the
number of submissions modulo `num_buffers`, so leaves it alone when it adds
no submission, and `wait_for_buffer` never changes it. -/
theorem C15_round_robin (K : Kernel) (m : CachedAioDirectWriter) (hm : Reachable K m)
    (hN : 1 ≤ m.num_buffers) :
    m.current_buffer < m.num_buffers ∧
    m.current_buffer = m.submitted.length % m.num_buffers ∧
    (∀ m', submit_current_buffer K m = .ok m' → 0 < m.cur_off →
      m'.current_buffer = (m.current_buffer + 1) % m.num_buffers ∧ m'.cur_off = 0 ∧
      m'.submitted.length = m.submitted.length + 1) ∧
    (∀ c m', (step K c m).state? = some m' →
      m'.current_buffer < m.num_buffers ∧
      m'.current_buffer = m'.submitted.length % m.num_buffers ∧
      (m'.submitted.length = m.submitted.length → m'.current_buffer = m.current_buffer)) ∧
    (∀ i m', (wait_for_buffer K i m).state? = some m' →
      m'.current_buffer = m.current_buffer) := by
  have hi := hm.inv
  have hrr := reachable_roundRobin hm
  refine ⟨hi.cur_lt hN, hrr, fun m' h hcur => ?_, fun c m' h => ?_, fun i m' h => ?_⟩
  · obtain ⟨_, _, hs, hc, _, _, hcb, _⟩ := submit_current_buffer_ok h (by omega)
    exact ⟨hcb, hc, by rw [hs]; simp⟩
  · have he := Result.All_state (step_evolves K c m) h
    have hr' : RoundRobin m' := Result.All_state (step_roundRobin c hrr) h
    have hi' := he.inv hi
    unfold RoundRobin at hr' hrr
    rw [he.num_buffers_eq] at hr'
    refine ⟨?_, hr', fun hs => ?_⟩
    · rw [← he.num_buffers_eq]
      exact hi'.cur_lt (by rw [he.num_buffers_eq]; exact hN)
    · rw [hr', hs, ← hrr]
  · exact (Result.All_state (wait_for_buffer_frame K i m) h).current_buffer_eq

/-- Witness of C15: after two submissions on two buffers buffer 0 is
current again. -/
theorem C15_round_robin_witness :
    Reachable okKernel after_three_bytes ∧ 1 ≤ after_three_bytes.num_buffers ∧
    after_three_bytes.current_buffer < after_three_bytes.num_buffers ∧
    after_three_bytes.current_buffer =
      after_three_bytes.submitted.length % after_three_bytes.num_buffers :=
  have h := C15_round_robin okKernel after_three_bytes after_three_bytes_reachable (by decide)
  ⟨after_three_bytes_reachable, by decide, h.1, h.2.1⟩

/-- C17. In every reachable state, whatever the kernel answered, every
pending list holds at most one request. -/
theorem C17_at_most_one_pending (K : Kernel) (m : CachedAioDirectWriter)
    (hm : Reachable K m) :
    (∀ (i : Nat) (reqs : List Iocb), m.pending_requests[i]? = some reqs → reqs.length ≤ 1) ∧
    m.pending_requests.length = m.num_buffers :=
  ⟨fun _ reqs h => hm.inv.pend_le reqs (List.getElem?_mem h), hm.inv.npend⟩

/-- Witness of C17: both pending lists hold one request after three bytes
written through two one-byte buffers. -/
theorem C17_at_most_one_pending_witness :
    Reachable okKernel after_three_bytes ∧
    after_three_bytes.pending_requests.map List.length = [1, 1] ∧
    ∀ (i : Nat) (reqs : List Iocb),
      after_three_bytes.pending_requests[i]? = some reqs → reqs.length ≤ 1 :=
  ⟨after_three_bytes_reachable, rfl,
    (C17_at_most_one_pending okKernel after_three_bytes after_three_bytes_reachable).1⟩

theorem Result.All_and {P Q : CachedAioDirectWriter → Prop} {r : Result} (hp : r.All P)
    (hq : r.All Q) : r.All fun m => P m ∧ Q m := by
  cases r with
  | ok m => exact ⟨hp, hq⟩
  | threw e m => exact ⟨hp, hq⟩
  | undefined => trivial
  | timeout => trivial

theorem wait_for_buffer_ends (K : Kernel) {i : Nat} {m : CachedAioDirectWriter}
    (hi : i < m.pending_requests.length) : (wait_for_buffer K i m).Ends := by
  unfold wait_for_buffer
  rw [List.getElem?_eq_getElem hi]
  dsimp only
  split
  · trivial
  · split <;> trivial

/-- With the invariant and at least one buffer, `submit_current_buffer`
returns or throws: no index is out of range. -/
theorem submit_current_buffer_ends (K : Kernel) {m : CachedAioDirectWriter} (hi : Inv m)
    (hN : 0 < m.num_buffers) : (submit_current_buffer K m).Ends := by
  by_cases hcur : m.cur_off = 0
  · rw [submit_current_buffer_zero hcur]
    trivial
  · have hlt := hi.cur_lt hN
    have hpl : m.current_buffer < m.pending_requests.length := by rw [hi.npend]; exact hlt
    unfold submit_current_buffer
    rw [if_neg hcur, List.getElem?_eq_getElem hpl]
    dsimp only
    have hE : (if ¬ (m.pending_requests[m.current_buffer]).isEmpty
        then wait_for_buffer K m.current_buffer m else Result.ok m).Ends := by
      split
      · exact wait_for_buffer_ends K hpl
      · trivial
    have hA : (if ¬ (m.pending_requests[m.current_buffer]).isEmpty
        then wait_for_buffer K m.current_buffer m else Result.ok m).All
          fun m1 => Evolves m m1 ∧ WaitFrame m m1 := by
      split
      · exact Result.All_and (wait_for_buffer_evolves K _ m) (wait_for_buffer_frame K _ m)
      · exact ⟨evolves_refl m, ⟨rfl, rfl, rfl, rfl, rfl⟩⟩
    revert hE hA
    generalize (if ¬ (m.pending_requests[m.current_buffer]).isEmpty
      then wait_for_buffer K m.current_buffer m else Result.ok m) = w
    intro hE hA
    cases w with
    | ok m1 =>
      obtain ⟨he, hf⟩ : Evolves m m1 ∧ WaitFrame m m1 := hA
      have hi1 := he.inv hi
      have hN1 : 0 < m1.num_buffers := by rw [he.num_buffers_eq]; exact hN
      have hlt1 := hi1.cur_lt hN1
      simp only [Result.bind]
      rw [List.getElem?_eq_getElem (by rw [hi1.nbuf]; exact hlt1),
        List.getElem?_eq_getElem (by rw [hi1.npend]; exact hlt1)]
      dsimp only
      split
      · trivial
      · rw [if_neg (by omega)]
        trivial
    | threw e m1 => trivial
    | undefined => exact hE
    | timeout => exact hE

theorem write_body_ends (K : Kernel) {m : CachedAioDirectWriter} (hi : Inv m)
    (hN : 0 < m.num_buffers) (data : List Byte) : (write_body K m data).1.Ends := by
  have hE : (if m.cur_off = m.cache_size then submit_current_buffer K m
      else Result.ok m).Ends := by
    split
    · exact submit_current_buffer_ends K hi hN
    · trivial
  have hA : (if m.cur_off = m.cache_size then submit_current_buffer K m
      else Result.ok m).All (Evolves m) := by
    split
    · exact submit_current_buffer_evolves K m
    · exact evolves_refl m
  unfold write_body
  revert hE hA
  generalize (if m.cur_off = m.cache_size then submit_current_buffer K m
    else Result.ok m) = r
  intro hE hA
  cases r with
  | ok m1 =>
    have he : Evolves m m1 := hA
    have hi1 := he.inv hi
    have hlt1 := hi1.cur_lt (by rw [he.num_buffers_eq]; exact hN)
    dsimp only
    rw [List.getElem?_eq_getElem (by rw [hi1.nbuf]; exact hlt1)]
    trivial
  | threw e m1 => trivial
  | undefined => exact hE
  | timeout => exact hE

/-- With the invariant, at least one buffer and a positive `cache_size`,
the loop of `write` returns or throws within one iteration per byte. -/
theorem write_loop_ends (K : Kernel) {fuel : Nat} {m : CachedAioDirectWriter}
    {data : List Byte} (hi : Inv m) (hN : 0 < m.num_buffers) (hc : 0 < m.cache_size)
    (hf : data.length ≤ fuel) : (write_loop K fuel m data).Ends := by
  induction fuel generalizing m data with
  | zero =>
    cases data with
    | nil => trivial
    | cons d ds => simp at hf
  | succ fuel ih =>
    cases data with
    | nil => trivial
    | cons d ds =>
      have hb := write_body_ends K hi hN (d :: ds)
      rw [write_loop]
      rcases hw : write_body K m (d :: ds) with ⟨r, rest⟩
      rw [hw] at hb
      cases r with
      | ok m1 =>
        obtain ⟨he, _, hp⟩ := write_body_stream hi hw
        have := (hp hc (by simp)).1
        exact ih (he.inv hi) (by rw [he.num_buffers_eq]; exact hN)
          (by rw [he.cache_size_eq]; exact hc) (by simp at hf this ⊢; omega)
      | threw e m1 => trivial
      | undefined => exact hb
      | timeout => exact hb

/-- An iteration of the loop of `write` that copies makes at most one
`io_submit` call and adds at most one submission. -/
theorem write_body_at_most_one {K : Kernel} {m m' : CachedAioDirectWriter}
    {data rest : List Byte} (h : write_body K m data = (.ok m', rest)) :
    m'.n_submit ≤ m.n_submit + 1 ∧ m'.submitted.length ≤ m.submitted.length + 1 := by
  obtain ⟨m1, buffer, hpre, _, rfl, _⟩ := write_body_ok h
  show m1.n_submit ≤ _ ∧ m1.submitted.length ≤ _
  split at hpre
  · have := submit_current_buffer_rotates K m
    rw [hpre] at this
    obtain ⟨_, hn, ⟨hs, _⟩ | ⟨hs, _⟩⟩ := this
    · exact ⟨hn, by rw [hs]; exact Nat.le_succ _⟩
    · exact ⟨hn, by rw [hs]⟩
  · cases hpre
    exact ⟨Nat.le_succ _, Nat.le_succ _⟩

theorem set_same {l : List (List Byte)} {i : Nat} {a : List Byte} (h : l[i]? = some a) :
    l.set i a = l := by
  induction l generalizing i with
  | nil => rfl
  | cons x xs ih =>
    cases i with
    | zero =>
      simp only [List.getElem?_cons_zero, Option.some.injEq] at h
      simp [h]
    | succ i =>
      simp only [List.getElem?_cons_succ] at h
      simp [ih h]

/-- With `cache_size = 0` an iteration of the loop of `write` copies
nothing: it returns the state and the data as they were. -/
theorem write_body_zero_cache {K : Kernel} {m : CachedAioDirectWriter} (hi : Inv m)
    (hN : 0 < m.num_buffers) (hc : m.cache_size = 0) (data : List Byte) :
    write_body K m data = (.ok m, data) := by
  have hcur : m.cur_off = 0 := by
    have := hi.cur_le
    omega
  have hlt : m.current_buffer < m.cache_buffers.length := by rw [hi.nbuf]; exact hi.cur_lt hN
  have hpre : (if m.cur_off = m.cache_size then submit_current_buffer K m else Result.ok m)
      = .ok m := by
    rw [if_pos (by rw [hcur, hc]), submit_current_buffer_zero hcur]
  rw [write_body_eq hpre (List.getElem?_eq_getElem hlt)]
  have hz : min (m.cache_size - m.cur_off) data.length = 0 := by rw [hc, hcur]; simp
  rw [hz, hcur]
  have hm : memcpy (m.cache_buffers[m.current_buffer]) 0 (List.take 0 data) =
      m.cache_buffers[m.current_buffer] := by
    simp [memcpy]
  rw [hm, set_same (List.getElem?_eq_getElem hlt)]
  simp only [List.drop_zero, Nat.add_zero]
  rw [← hcur]

theorem write_loop_zero_cache {K : Kernel} {m : CachedAioDirectWriter} (hi : Inv m)
    (hN : 0 < m.num_buffers) (hc : m.cache_size = 0) {data : List Byte} (hd : data ≠ [])
    (fuel : Nat) : write_loop K fuel m data = .timeout := by
  induction fuel with
  | zero =>
    cases data with
    | nil => exact absurd rfl hd
    | cons d ds => rfl
  | succ fuel ih =>
    cases data with
    | nil => exact absurd rfl hd
    | cons d ds =>
      rw [write_loop, write_body_zero_cache hi hN hc]
      exact ih

/-- C18. From a state that satisfies the invariant (every reachable state
does) with at least one buffer: if `cache_size >= 1`, `write` ends (it
returns or throws) within one iteration per byte of data, and each
iteration that copies takes at least one byte, keeps the invariant, so
`cur_off <= cache_size` and `cache_size - cur_off` does not wrap, and
makes at most one `io_submit` call and one submission; if `cache_size = 0`
and the data is not empty, an iteration copies nothing and leaves the
state and the data as they were, and the loop is still running after any
number of iterations. -/
theorem C18_write_terminates (K : Kernel) (m : CachedAioDirectWriter) (hi : Inv m)
    (hN : 1 ≤ m.num_buffers) (data : List Byte) :
    (1 ≤ m.cache_size →
      (write K m data).Ends ∧
      (∀ fuel, data.length ≤ fuel → write_loop K fuel m data = write K m data) ∧
      (data ≠ [] → ∀ m' rest, write_body K m data = (.ok m', rest) →
        rest.length < data.length ∧ Inv m' ∧ m'.cur_off ≤ m'.cache_size ∧
        m'.n_submit ≤ m.n_submit + 1 ∧ m'.submitted.length ≤ m.submitted.length + 1)) ∧
    (m.cache_size = 0 → data ≠ [] →
      write_body K m data = (.ok m, data) ∧ ∀ fuel, write_loop K fuel m data = .timeout) := by
  refine ⟨fun hc => ⟨write_loop_ends K hi hN hc (Nat.le_refl _), fun fuel hf => ?_,
    fun hd m' rest h => ?_⟩, fun hc hd => ⟨write_body_zero_cache hi hN hc data,
      fun fuel => write_loop_zero_cache hi hN hc hd fuel⟩⟩
  · exact write_loop_fuel_le (write_loop_terminates hi hc (Nat.le_refl _)) hf
  · obtain ⟨he, _, hp⟩ := write_body_stream hi h
    obtain ⟨h1, h2⟩ := write_body_at_most_one h
    exact ⟨(hp hc hd).1, he.inv hi, (he.inv hi).cur_le, h1, h2⟩

/-- Witness of C18: two more bytes written after three through two
one-byte buffers end; on a writer constructed with `cache_size = 0` a
write of one byte is still running after any number of iterations. -/
theorem C18_write_terminates_witness :
    (Inv after_three_bytes ∧ 1 ≤ after_three_bytes.num_buffers ∧
      1 ≤ after_three_bytes.cache_size ∧ (write okKernel after_three_bytes [4, 5]).Ends) ∧
    (construct okKernel 0 1 = some ⟨3, 0, 1, [[]], 0, 0, 0, [[]], [], [], 0, 0⟩ ∧
      Inv ⟨3, 0, 1, [[]], 0, 0, 0, [[]], [], [], 0, 0⟩ ∧
      ∀ fuel, write_loop okKernel fuel ⟨3, 0, 1, [[]], 0, 0, 0, [[]], [], [], 0, 0⟩ [7]
        = .timeout) :=
  have h0 : construct okKernel 0 1 = some ⟨3, 0, 1, [[]], 0, 0, 0, [[]], [], [], 0, 0⟩ := rfl
  ⟨⟨after_three_bytes_reachable.inv, by decide, by decide,
      ((C18_write_terminates okKernel after_three_bytes after_three_bytes_reachable.inv
        (by decide) [4, 5]).1 (by decide)).1⟩,
    ⟨h0, construct_inv h0,
      ((C18_write_terminates okKernel _ (construct_inv h0) (by decide) [7]).2 rfl
        (by decide)).2⟩⟩

end DiskANN
